import Mathlib

/-!
Limit-order matching engine (`src/src/matching_engine.cpp`).

A shallow embedding of `MatchingEngine` and a verification of its book invariants.

Modelling conventions.

* `uint64_t` values (`order_id`, `quantity`) are natural numbers; the two subtractions of the
  match loop are written with the explicit wrap-around `wrapSub` (arithmetic modulo `2 ^ 64`).
* `double` prices are taken in an exact, totally ordered domain (`Int`, e.g. the price counted in
  hundredths); no NaN exists there. The namespace `Dbl` further down repeats the engine over
  prices that may be NaN, with the map operations written through the comparator; on prices
  that are numbers the two agree (`dbl_addOrder_of`, `dbl_cancelOrder_of`) and reach the same
  states (`dbl_reachableNum_iff`).
* `std::map<double, std::deque<Order>, Cmp>` is the list of its `(key, deque)` entries in iteration
  order, so that `begin()` is the head of the list. `buy_book_t` iterates in descending key order
  (`std::greater`), `sell_book_t` in ascending order (`std::less`).
* `std::unordered_map<uint64_t, Order>` is a finite lookup function `Nat → Option Order`.
* The text lines handed to `logger.log_out` are kept as structured `Event` values, those handed
  to `logger.log_err` as strings. Every operation returns the lines it hands to the logger, in
  call order.
-/

namespace MatchingEngine

/-! ## Data model (`include/matching_engine.hpp`) -/

/-- Enumeration `enum class Side { Buy, Sell }`. -/
inductive Side where
  | Buy
  | Sell
deriving DecidableEq, Repr

/-- Record `struct Order { order_id; quantity; price; side }`. -/
structure Order where
  order_id : Nat
  quantity : Nat
  price : Int
  side : Side
deriving DecidableEq, Repr

/-- One entry of a book: the price key and the `std::deque<Order>` stored under it. -/
abbrev Level := Int × List Order

/-- A `std::map<double, std::deque<Order>, Cmp>` as its entries in iteration order. -/
abbrev Book := List Level

/-- Lines handed to `logger.log_out`: `"2,<quantity>,<price>"`, `"3,<order_id>"` and
`"4,<order_id>,<quantity>"`. -/
inductive Event where
  | trade (quantity : Nat) (price : Int)
  | fullyFilled (order_id : Nat)
  | partiallyFilled (order_id : Nat) (quantity : Nat)
deriving DecidableEq, Repr

/-- The data members of `class MatchingEngine`. -/
structure Engine where
  m_buyOrderBook : Book
  m_sellOrderBook : Book
  m_orderMap : Nat → Option Order

/-- The book that holds the resting orders of a side. -/
def Engine.bookOf (e : Engine) : Side → Book
  | Side.Buy => e.m_buyOrderBook
  | Side.Sell => e.m_sellOrderBook

/-- The side an aggressive order of side `side` matches against. -/
def Side.opposite : Side → Side
  | Side.Buy => Side.Sell
  | Side.Sell => Side.Buy

/-- A default-constructed engine: both books and the index are empty. -/
def Engine.empty : Engine :=
  { m_buyOrderBook := [], m_sellOrderBook := [], m_orderMap := fun _ => none }

/-- What a public operation leaves behind: the engine afterwards and the lines it handed to
`logger.log_out` and `logger.log_err`. -/
structure Outcome where
  engine : Engine
  out : List Event
  err : List String

/-! ## Machine arithmetic and container operations -/

/-- Modulus of `uint64_t` arithmetic, `2 ^ 64`. -/
def UINT64_MOD : Nat := 18446744073709551616

/-- Unsigned 64-bit subtraction `x -= y`, wrapping around on underflow. -/
def wrapSub (x y : Nat) : Nat := (x + UINT64_MOD - y % UINT64_MOD) % UINT64_MOD

/-- Key comparison of `std::less<double>`, the comparator of `sell_book_t`. -/
def sellCmp (a b : Int) : Bool := decide (a < b)

/-- Key comparison of `std::greater<double>`, the comparator of `buy_book_t`. -/
def buyCmp (a b : Int) : Bool := decide (a > b)

/-- All orders stored in a book, in iteration order: best level first, and inside a level from
the front of the deque to its back. -/
def restingOrders : Book → List Order
  | [] => []
  | level :: rest => level.2 ++ restingOrders rest

/-- Lookup `book.find(price)`: the deque stored under the key, if there is one. -/
def findLevel : Book → Int → Option (List Order)
  | [], _ => none
  | (k, orders) :: rest, price => if k = price then some orders else findLevel rest price

/-- Statement `book[order.price].push_back(order)` on a map ordered by `cmp`: `operator[]` creates
an empty deque at the key's place in the order when the key is absent. -/
def pushBack (cmp : Int → Int → Bool) : Book → Order → Book
  | [], order => [(order.price, [order])]
  | (k, orders) :: rest, order =>
    if k = order.price then (k, orders ++ [order]) :: rest
    else if cmp order.price k then (order.price, [order]) :: (k, orders) :: rest
    else (k, orders) :: pushBack cmp rest order

/-- Idiom `orders.erase(std::remove_if(..., o.order_id == order_id), orders.end())`. -/
def removeById (orders : List Order) (order_id : Nat) : List Order :=
  orders.filter (fun o => decide (o.order_id ≠ order_id))

/-- Body of `cancelOrder` on one book: `find(price)`; when the level exists remove the id from
its deque and erase the level if the deque became empty. -/
def cancelInBook : Book → Int → Nat → Book
  | [], _, _ => []
  | (k, orders) :: rest, price, order_id =>
    if k = price then
      if (removeById orders order_id).isEmpty then rest
      else (k, removeById orders order_id) :: rest
    else (k, orders) :: cancelInBook rest price order_id

/-- Call `m_orderMap.erase(order_id)`. -/
def eraseOrder (m : Nat → Option Order) (order_id : Nat) : Nat → Option Order :=
  fun k => if k = order_id then none else m k

/-- Assignment `m_orderMap[order.order_id] = order`. -/
def insertOrder (m : Nat → Option Order) (order : Order) : Nat → Option Order :=
  fun k => if k = order.order_id then some order else m k

/-- Assignment `m_orderMap[order_id].quantity = quantity`; `operator[]` value-initialises the
entry when the key is absent. -/
def setQuantity (m : Nat → Option Order) (order_id quantity : Nat) : Nat → Option Order :=
  fun k =>
    if k = order_id then
      match m order_id with
      | some o => some { o with quantity := quantity }
      | none => some { order_id := 0, quantity := quantity, price := 0, side := Side.Buy }
    else m k

/-! ## Event emission -/

/-- Line `"2," << quantity << "," << price` of `emitTradeEvent`. -/
def emitTradeEvent (quantity : Nat) (price : Int) : Event := Event.trade quantity price

/-- Line `"3," << order_id` of `emitFullyFilled`. -/
def emitFullyFilled (order_id : Nat) : Event := Event.fullyFilled order_id

/-- Line `"4," << order_id << "," << quantity` of `emitPartiallyFilled`. -/
def emitPartiallyFilled (order_id quantity : Nat) : Event :=
  Event.partiallyFilled order_id quantity

/-! ## The match loop -/

/-- Variables of the `while` loop of `matchOrder`: the opposite book, the index, the aggressive
order and the lines logged so far. -/
structure LoopState where
  opposite_book : Book
  m_orderMap : Nat → Option Order
  aggressive_order : Order
  out : List Event

/-- Test `can_match` of the loop body. -/
def canMatch (aggressive_order : Order) (best_price : Int) : Bool :=
  match aggressive_order.side with
  | Side.Buy => decide (aggressive_order.price ≥ best_price)
  | Side.Sell => decide (aggressive_order.price ≤ best_price)

/-- One evaluation of the loop condition followed by one run of the loop body. `none` means the
loop is left (condition false, or `break`); `some st` is the state at the next evaluation of the
condition. The two branches of `matchOrder` have the same body and differ only in which book is
`opposite_book`. -/
def matchStep (st : LoopState) : Option LoopState :=
  if st.aggressive_order.quantity > 0 then
    match st.opposite_book with
    | [] => none
    | (best_price, resting_orders) :: rest =>
      if canMatch st.aggressive_order best_price then
        match resting_orders with
        | [] => some { st with opposite_book := rest }
        | resting_order :: others =>
          let trade_quantity := min st.aggressive_order.quantity resting_order.quantity
          let trade_price := resting_order.price
          let aggressive_quantity := wrapSub st.aggressive_order.quantity trade_quantity
          let resting_quantity := wrapSub resting_order.quantity trade_quantity
          let aggressive_fill :=
            if aggressive_quantity > 0 then
              emitPartiallyFilled st.aggressive_order.order_id aggressive_quantity
            else emitFullyFilled st.aggressive_order.order_id
          if resting_quantity = 0 then
            some
              { opposite_book := if others.isEmpty then rest else (best_price, others) :: rest
                m_orderMap := eraseOrder st.m_orderMap resting_order.order_id
                aggressive_order := { st.aggressive_order with quantity := aggressive_quantity }
                out := st.out ++ [emitTradeEvent trade_quantity trade_price, aggressive_fill,
                  emitFullyFilled resting_order.order_id] }
          else
            some
              { opposite_book :=
                  (best_price, { resting_order with quantity := resting_quantity } :: others)
                    :: rest
                m_orderMap := setQuantity st.m_orderMap resting_order.order_id resting_quantity
                aggressive_order := { st.aggressive_order with quantity := aggressive_quantity }
                out := st.out ++ [emitTradeEvent trade_quantity trade_price, aggressive_fill,
                  emitPartiallyFilled resting_order.order_id resting_quantity] }
      else none
  else none

/-- The loop run for at most `fuel` iterations: the state at the exit of the loop, or the state
after `fuel` iterations when the loop has not been left by then. -/
def matchLoop : Nat → LoopState → LoopState
  | 0, st => st
  | fuel + 1, st =>
    match matchStep st with
    | none => st
    | some st' => matchLoop fuel st'

/-- A number of iterations within which the loop is left (`matchLoop_exit`): every iteration
erases a level, pops an order, or brings the aggressive quantity to zero. -/
def loopBound (book : Book) : Nat := book.length + (restingOrders book).length + 1

/-- The loop variables when `matchOrder` enters its loop: `opposite_book` refers to the sell book
for an aggressive Buy and to the buy book for an aggressive Sell. -/
def loopStart (e : Engine) (aggressive_order : Order) : LoopState :=
  { opposite_book := e.bookOf aggressive_order.side.opposite, m_orderMap := e.m_orderMap,
    aggressive_order := aggressive_order, out := [] }

/-- The loop variables when `matchOrder` leaves its loop. -/
def loopResult (e : Engine) (aggressive_order : Order) : LoopState :=
  matchLoop (loopBound (e.bookOf aggressive_order.side.opposite)) (loopStart e aggressive_order)

/-- Function `MatchingEngine::matchOrder`: the engine afterwards, the aggressive order
afterwards and the lines logged. -/
def matchOrder (e : Engine) (aggressive_order : Order) : Engine × Order × List Event :=
  match aggressive_order.side with
  | Side.Buy =>
    let st := matchLoop (loopBound e.m_sellOrderBook)
      { opposite_book := e.m_sellOrderBook, m_orderMap := e.m_orderMap,
        aggressive_order := aggressive_order, out := [] }
    ({ e with m_sellOrderBook := st.opposite_book, m_orderMap := st.m_orderMap },
      st.aggressive_order, st.out)
  | Side.Sell =>
    let st := matchLoop (loopBound e.m_buyOrderBook)
      { opposite_book := e.m_buyOrderBook, m_orderMap := e.m_orderMap,
        aggressive_order := aggressive_order, out := [] }
    ({ e with m_buyOrderBook := st.opposite_book, m_orderMap := st.m_orderMap },
      st.aggressive_order, st.out)

/-- Function `MatchingEngine::addToBook`. -/
def addToBook (e : Engine) (order : Order) : Engine :=
  match order.side with
  | Side.Buy =>
    { e with m_buyOrderBook := pushBack buyCmp e.m_buyOrderBook order
             m_orderMap := insertOrder e.m_orderMap order }
  | Side.Sell =>
    { e with m_sellOrderBook := pushBack sellCmp e.m_sellOrderBook order
             m_orderMap := insertOrder e.m_orderMap order }

/-! ## Public operations -/

/-- Function `MatchingEngine::addOrder`. -/
def addOrder (e : Engine) (order_id quantity : Nat) (price : Int) (side : Side) : Outcome :=
  if (e.m_orderMap order_id).isSome then
    { engine := e, out := [], err := ["Duplicate order ID: " ++ toString order_id] }
  else
    let matched := matchOrder e
      { order_id := order_id, quantity := quantity, price := price, side := side }
    if matched.2.1.quantity > 0 then
      { engine := addToBook matched.1 matched.2.1, out := matched.2.2, err := [] }
    else
      { engine := matched.1, out := matched.2.2, err := [] }

/-- Function `MatchingEngine::cancelOrder`. -/
def cancelOrder (e : Engine) (order_id : Nat) : Outcome :=
  match e.m_orderMap order_id with
  | none => { engine := e, out := [], err := ["Order not found: " ++ toString order_id] }
  | some order =>
    match order.side with
    | Side.Buy =>
      { engine :=
          { e with m_buyOrderBook := cancelInBook e.m_buyOrderBook order.price order_id
                   m_orderMap := eraseOrder e.m_orderMap order_id }
        out := [], err := [] }
    | Side.Sell =>
      { engine :=
          { e with m_sellOrderBook := cancelInBook e.m_sellOrderBook order.price order_id
                   m_orderMap := eraseOrder e.m_orderMap order_id }
        out := [], err := [] }

/-! ## Specification vocabulary -/

/-- The comparator of the book that holds the orders of a side. -/
def cmpOf : Side → Int → Int → Bool
  | Side.Buy => buyCmp
  | Side.Sell => sellCmp

/-- Sum of the quantities of a list of orders. -/
def totalQuantity : List Order → Nat
  | [] => 0
  | o :: rest => o.quantity + totalQuantity rest

/-- Sum of the quantities of the TRADE lines of a log. -/
def tradedQuantity : List Event → Nat
  | [] => 0
  | Event.trade q _ :: rest => q + tradedQuantity rest
  | _ :: rest => tradedQuantity rest

/-- Well-formedness of the book of one side: keys strictly ordered by the comparator, no empty
level, and every order stored under its own price, on its own side, with a nonzero 64-bit
quantity. -/
structure BookOK (side : Side) (book : Book) : Prop where
  sorted : book.Pairwise (fun l1 l2 => cmpOf side l1.1 l2.1 = true)
  nonempty : ∀ l ∈ book, l.2 ≠ []
  orders : ∀ l ∈ book, ∀ o ∈ l.2,
    o.price = l.1 ∧ o.side = side ∧ 0 < o.quantity ∧ o.quantity < UINT64_MOD

/-- The invariant of the match loop; `own` are the orders resting on the aggressive order's own
side. -/
structure LoopInv (own : List Order) (st : LoopState) : Prop where
  book : BookOK st.aggressive_order.side.opposite st.opposite_book
  nodup : ((restingOrders st.opposite_book ++ own).map Order.order_id).Nodup
  index : ∀ id o, st.m_orderMap id = some o ↔
    (o.order_id = id ∧ (o ∈ restingOrders st.opposite_book ∨ o ∈ own))
  bound : st.aggressive_order.quantity < UINT64_MOD

/-- What one trading iteration does, with the subtractions taken in the natural numbers. -/
inductive StepSpec : LoopState → LoopState → Prop where
  | restingFilled (k : Int) (r : Order) (rs : List Order) (rest : Book)
      (m : Nat → Option Order) (a : Order) (out : List Event)
      (ha : 0 < a.quantity) (hc : canMatch a k = true) (hr : r.quantity ≤ a.quantity) :
      StepSpec
        { opposite_book := (k, r :: rs) :: rest, m_orderMap := m, aggressive_order := a,
          out := out }
        { opposite_book := if rs.isEmpty then rest else (k, rs) :: rest
          m_orderMap := eraseOrder m r.order_id
          aggressive_order := { a with quantity := a.quantity - r.quantity }
          out := out ++ [Event.trade r.quantity r.price,
            if a.quantity - r.quantity > 0 then
              Event.partiallyFilled a.order_id (a.quantity - r.quantity)
            else Event.fullyFilled a.order_id,
            Event.fullyFilled r.order_id] }
  | restingReduced (k : Int) (r : Order) (rs : List Order) (rest : Book)
      (m : Nat → Option Order) (a : Order) (out : List Event)
      (ha : 0 < a.quantity) (hc : canMatch a k = true) (hr : a.quantity < r.quantity) :
      StepSpec
        { opposite_book := (k, r :: rs) :: rest, m_orderMap := m, aggressive_order := a,
          out := out }
        { opposite_book := (k, { r with quantity := r.quantity - a.quantity } :: rs) :: rest
          m_orderMap := setQuantity m r.order_id (r.quantity - a.quantity)
          aggressive_order := { a with quantity := 0 }
          out := out ++ [Event.trade a.quantity r.price, Event.fullyFilled a.order_id,
            Event.partiallyFilled r.order_id (r.quantity - a.quantity)] }

/-- Progress measure of the loop. -/
def loopMeasure (st : LoopState) : Nat :=
  st.opposite_book.length + (restingOrders st.opposite_book).length +
    (if st.aggressive_order.quantity > 0 then 1 else 0)

/-- What the loop has done to the opposite book between two of its states: the orders `filled`
at the front of the iteration order were filled completely and popped, and at most the order
right behind them was reduced; everything further back is untouched. -/
def Consumed (st st2 : LoopState) : Prop :=
  (st.aggressive_order.quantity = 0 → st2 = st) ∧
  (∀ ev ∈ st.out, ev ∈ st2.out) ∧
  ∃ filled : List Order,
    (∀ y ∈ filled, Event.fullyFilled y.order_id ∈ st2.out) ∧
    (restingOrders st.opposite_book = filled ++ restingOrders st2.opposite_book ∨
      ∃ r tail q, restingOrders st.opposite_book = filled ++ r :: tail ∧
        restingOrders st2.opposite_book = { r with quantity := q } :: tail ∧
        0 < q ∧ q < r.quantity)

/-- Two price keys do not cross: `own` is a key of the book of `side`, `other` a key of the
opposite book. -/
def noCross (side : Side) (own other : Int) : Prop :=
  match side with
  | Side.Buy => own < other
  | Side.Sell => other < own

/-- The engine invariant seen from one side: `own` is the book of `side`, `opp` the opposite
book and `m` the index. -/
structure SideInv (side : Side) (own opp : Book) (m : Nat → Option Order) : Prop where
  ownOK : BookOK side own
  oppOK : BookOK side.opposite opp
  nodup : ((restingOrders opp ++ restingOrders own).map Order.order_id).Nodup
  index : ∀ id o, m id = some o ↔
    (o.order_id = id ∧ (o ∈ restingOrders opp ∨ o ∈ restingOrders own))
  uncrossed : ∀ l ∈ own, ∀ l2 ∈ opp, noCross side l.1 l2.1

/-- The engine invariant: both books are well formed, no id is stored twice, the index holds
exactly the stored orders, and no buy level is priced at or above a sell level. -/
def Inv (e : Engine) : Prop :=
  SideInv Side.Buy e.m_buyOrderBook e.m_sellOrderBook e.m_orderMap

/-- The engine states reachable from a default-constructed engine by calls of `addOrder` and
`cancelOrder` with 64-bit ids and quantities and with prices that are exact comparable numbers
(no NaN). The states reached with any `double` price are `Dbl.Reachable`. -/
inductive Reachable : Engine → Prop where
  | empty : Reachable Engine.empty
  | add {e : Engine} (h : Reachable e) (order_id quantity : Nat) (price : Int) (side : Side)
      (hid : order_id < UINT64_MOD) (hq : quantity < UINT64_MOD) :
      Reachable (addOrder e order_id quantity price side).engine
  | cancel {e : Engine} (h : Reachable e) (order_id : Nat) (hid : order_id < UINT64_MOD) :
      Reachable (cancelOrder e order_id).engine

/-- The highest price among a list of orders, if there is any order. -/
def highestPrice : List Order → Option Int
  | [] => none
  | o :: rest =>
    match highestPrice rest with
    | none => some o.price
    | some m => some (max o.price m)

/-- The lowest price among a list of orders, if there is any order. -/
def lowestPrice : List Order → Option Int
  | [] => none
  | o :: rest =>
    match lowestPrice rest with
    | none => some o.price
    | some m => some (min o.price m)

/-- Scenario S1: a buy of 10 at 100.00 (id 1) and a sell of 5 at 101.00 (id 2), both resting.
Prices are counted in hundredths. -/
def scenarioS1 : Engine :=
  (addOrder (addOrder Engine.empty 1 10 10000 Side.Buy).engine 2 5 10100 Side.Sell).engine

/-- Scenario S6 after its first message: a buy of 5 at 100.00 (id 50) rests. -/
def scenarioS6 : Engine := (addOrder Engine.empty 50 5 10000 Side.Buy).engine

/-- The variables of the match loop run by `addOrder` for `aggressive_order` after `n`
iterations (at the exit of the loop, if it is left earlier). -/
def loopAt (e : Engine) (aggressive_order : Order) (n : Nat) : LoopState :=
  matchLoop n (loopStart e aggressive_order)

/-- A log made of consecutive triples: a TRADE of at most the `remaining` aggressive quantity,
the fill notice of the aggressive order `id` (PARTIAL with what remains if that is positive,
else FILLED), and a fill notice of some resting order (FILLED, or PARTIAL with a positive
quantity); the rest of the log continues with what remains. -/
def TriplesFrom (id : Nat) : Nat → List Event → Prop
  | _, [] => True
  | remaining, Event.trade tq _ :: ev2 :: ev3 :: rest =>
    tq ≤ remaining ∧
    ev2 = (if remaining - tq > 0 then Event.partiallyFilled id (remaining - tq)
      else Event.fullyFilled id) ∧
    (∃ rid, ev3 = Event.fullyFilled rid ∨ ∃ r, 0 < r ∧ ev3 = Event.partiallyFilled rid r) ∧
    TriplesFrom id (remaining - tq) rest
  | _, _ => False

/-- Scenario S2 after its first message: a sell of 5 at 100.00 (id 10) rests. -/
def scenarioS2 : Engine := (addOrder Engine.empty 10 5 10000 Side.Sell).engine

/-- Scenario S3 after its first two messages: sells of 3 at 100.00 (id 20) and of 2 at 101.00
(id 21) rest. -/
def scenarioS3 : Engine :=
  (addOrder (addOrder Engine.empty 20 3 10000 Side.Sell).engine 21 2 10100 Side.Sell).engine

/-- The quantity with which an id rests in the book: the quantity of its index entry, and 0 when
it has none. -/
def restingQuantity (e : Engine) (order_id : Nat) : Nat :=
  match e.m_orderMap order_id with
  | some o => o.quantity
  | none => 0

/-- The arguments of one `addOrder` call. -/
structure AddRequest where
  order_id : Nat
  quantity : Nat
  price : Int
  side : Side

/-- A sequence of `addOrder` calls: the final engine and all lines logged on the out channel. -/
def runAdds : Engine → List AddRequest → Engine × List Event
  | e, [] => (e, [])
  | e, r :: rest =>
    ((runAdds (addOrder e r.order_id r.quantity r.price r.side).engine rest).1,
      (addOrder e r.order_id r.quantity r.price r.side).out ++
        (runAdds (addOrder e r.order_id r.quantity r.price r.side).engine rest).2)

/-- The total quantity taken out of resting orders by matching over a sequence of `addOrder`
calls: for each call, the decrease of the total quantity resting on the side opposite to the
added order. -/
def matchedOut : Engine → List AddRequest → Nat
  | _, [] => 0
  | e, r :: rest =>
    (totalQuantity (restingOrders (e.bookOf r.side.opposite)) -
      totalQuantity (restingOrders
        ((addOrder e r.order_id r.quantity r.price r.side).engine.bookOf r.side.opposite))) +
    matchedOut (addOrder e r.order_id r.quantity r.price r.side).engine rest

/-- Scenario S4 after its first two messages: buys of 4 (id 30) and of 6 (id 31) rest at 99.00,
in this order. -/
def scenarioS4 : Engine :=
  (addOrder (addOrder Engine.empty 30 4 9900 Side.Buy).engine 31 6 9900 Side.Buy).engine

/-- Scenario S1 followed by an `addOrder` with quantity 0 (a buy, id 3, at 100.50). -/
def scenarioZeroQuantity : Engine := (addOrder scenarioS1 3 0 10050 Side.Buy).engine

/-- The number of TRADE lines of a log. -/
def tradeCount : List Event → Nat
  | [] => 0
  | Event.trade _ _ :: rest => tradeCount rest + 1
  | _ :: rest => tradeCount rest

/-! ## Tokenizer and validator (`messageToToken`, `processTokens`, `processMessage`)

A `std::string` is the list of its characters. The conversions `std::stoi` and `std::stoull`
are modelled after `strtol` / `strtoull` in base 10, called without an end position: leading
white space is skipped, one sign is accepted, the longest run of digits is converted and
whatever follows is ignored. A thrown `std::invalid_argument` or `std::out_of_range` is
a `Conversion.error` with the text of `what()`. The conversion `std::stod` is a parameter of the
validator: its result is an exception or a `double`, which is NaN or a number of the exact
price domain. -/

/-- A `std::string` as the list of its characters. -/
abbrev Text := List Char

/-- The outcome of a library conversion (`std::stoi`, `std::stoull`, `std::stod`): the value,
or the text of `what()` of the exception thrown. -/
inductive Conversion (α : Type) where
  | ok (value : α)
  | error (what : String)
deriving DecidableEq, Repr

/-- A `double` as the validator sees it: NaN, or a number of the exact price domain. -/
inductive Double where
  | nan
  | num (x : Int)
deriving DecidableEq, Repr

/-- Comparison `price <= 0` on a `double`; false for NaN. -/
def Double.leZero : Double → Bool
  | Double.nan => false
  | Double.num x => decide (x ≤ 0)

/-- Comparison `price > 0` on a `double`; false for NaN. -/
def Double.gtZero : Double → Bool
  | Double.nan => false
  | Double.num x => decide (0 < x)

/-- Lines handed to `logger.log_err`. -/
inductive Diagnostic where
  | unknownMessage (message : Text)
  | negativeQuantity
  | invalidOrder (quantity : Nat) (price : Double)
  | invalidFormat
  | processingError (what : String)
  | engine (line : String)
deriving DecidableEq, Repr

/-- One call `std::getline(ss, token, ',')` on the unread rest of the stream: `none` when the
call fails because nothing is left to extract, otherwise the token (the characters before the
next comma, or up to the end) and the rest behind the discarded comma. -/
def getline (stream : Text) : Option (Text × Text) :=
  match stream with
  | [] => none
  | _ :: _ =>
    some (stream.takeWhile (fun c => c != ','), (stream.dropWhile (fun c => c != ',')).drop 1)

/-- Loop `while (std::getline(ss, token, ',')) tokens.push_back(token);` run for at most `fuel`
iterations. -/
def parseLoop : Nat → Text → List Text → List Text
  | 0, _, tokens => tokens
  | fuel + 1, stream, tokens =>
    match getline stream with
    | none => tokens
    | some (token, rest) => parseLoop fuel rest (tokens ++ [token])

/-- Function `MatchingEngine::parseMessage`: the returned flag `!tokens.empty()` and the token
list afterwards. Every successful `getline` consumes a character, so `message.length + 1`
iterations leave the loop by its own condition (`parseLoop_fuel`). -/
def parseMessage (message : Text) (tokens : List Text) : Bool × List Text :=
  (!(parseLoop (message.length + 1) message tokens).isEmpty,
    parseLoop (message.length + 1) message tokens)

/-- Function `MatchingEngine::messageToToken`: the returned flag, the token list afterwards and
the lines logged on the err channel. -/
def messageToToken (message : Text) (tokens : List Text) : Bool × List Text × List Diagnostic :=
  if (parseMessage message tokens).1 then (true, (parseMessage message tokens).2, [])
  else (false, (parseMessage message tokens).2, [Diagnostic.unknownMessage message])

/-- Predicate `isspace` of the C locale. -/
def isspace (c : Char) : Bool :=
  c == ' ' || c == Char.ofNat 9 || c == Char.ofNat 10 || c == Char.ofNat 11 ||
    c == Char.ofNat 12 || c == Char.ofNat 13

/-- The value of a run of decimal digits. -/
def digitsValue (digits : Text) : Nat :=
  digits.foldl (fun acc c => 10 * acc + (c.toNat - 48)) 0

/-- The subject sequence of `strtol` / `strtoull` in base 10: behind the leading white space,
whether a minus sign is present, and the longest run of decimal digits behind the optional
sign. -/
def subjectSequence (s : Text) : Bool × Text :=
  match s.dropWhile isspace with
  | '-' :: rest => (true, rest.takeWhile Char.isDigit)
  | '+' :: rest => (false, rest.takeWhile Char.isDigit)
  | rest => (false, rest.takeWhile Char.isDigit)

/-- Library function `std::stoull(s)`: `std::invalid_argument` without a digit,
`std::out_of_range` when the digits exceed 64 bits; a minus sign negates modulo `2 ^ 64`. -/
def stoull (s : Text) : Conversion Nat :=
  if (subjectSequence s).2 = [] then Conversion.error "stoull"
  else if digitsValue (subjectSequence s).2 ≥ UINT64_MOD then Conversion.error "stoull"
  else if (subjectSequence s).1 then
    Conversion.ok ((UINT64_MOD - digitsValue (subjectSequence s).2) % UINT64_MOD)
  else Conversion.ok (digitsValue (subjectSequence s).2)

/-- Library function `std::stoi(s)`: `std::invalid_argument` without a digit,
`std::out_of_range` when the signed value is not a 32-bit `int`. -/
def stoi (s : Text) : Conversion Int :=
  if (subjectSequence s).2 = [] then Conversion.error "stoi"
  else if (subjectSequence s).1 then
    if digitsValue (subjectSequence s).2 > 2147483648 then Conversion.error "stoi"
    else Conversion.ok (-(digitsValue (subjectSequence s).2 : Int))
  else
    if digitsValue (subjectSequence s).2 > 2147483647 then Conversion.error "stoi"
    else Conversion.ok (digitsValue (subjectSequence s).2 : Int)

/-- The fields of the local `Order order;` of `processTokens` that have been assigned; a field
that was never assigned is `none`. -/
structure ParsedOrder where
  order_id : Option Nat
  quantity : Option Nat
  price : Option Double
  side : Option Side
deriving DecidableEq, Repr

/-- The local `Order order;` right after its declaration. -/
def ParsedOrder.unassigned : ParsedOrder :=
  { order_id := none, quantity := none, price := none, side := none }

/-- What `processTokens` leaves behind: the returned order, the reference parameters `msg_type`
and `sz`, and the lines logged on the err channel. -/
structure Processed where
  order : ParsedOrder
  msg_type : Int
  sz : Int
  err : List Diagnostic
deriving DecidableEq, Repr

/-- Function `MatchingEngine::processTokens`, with the incoming values of the reference
parameters `msg_type` and `sz`. `tokens[i]` is read with an empty text for a missing index; the
repository calls the function with at least one token only. -/
def processTokens (stod : Text → Conversion Double) (tokens : List Text)
    (msg_type sz : Int) : Processed :=
  match stoi (tokens.getD 0 []) with
  | Conversion.error what =>
    { order := ParsedOrder.unassigned, msg_type := msg_type, sz := sz,
      err := [Diagnostic.processingError what] }
  | Conversion.ok tag =>
    if tag = 0 ∧ tokens.length = 5 then
      match stoull (tokens.getD 1 []) with
      | Conversion.error what =>
        { order := ParsedOrder.unassigned, msg_type := tag, sz := sz,
          err := [Diagnostic.processingError what] }
      | Conversion.ok order_id =>
        if (tokens.getD 3 []).head? = some '-' then
          { order := ParsedOrder.unassigned, msg_type := tag, sz := sz,
            err := [Diagnostic.negativeQuantity] }
        else
          match stoull (tokens.getD 3 []) with
          | Conversion.error what =>
            { order := ParsedOrder.unassigned, msg_type := tag, sz := sz,
              err := [Diagnostic.processingError what] }
          | Conversion.ok quantity =>
            match stod (tokens.getD 4 []) with
            | Conversion.error what =>
              { order := ParsedOrder.unassigned, msg_type := tag, sz := sz,
                err := [Diagnostic.processingError what] }
            | Conversion.ok price =>
              if quantity = 0 ∨ price.leZero = true then
                { order := ParsedOrder.unassigned, msg_type := tag, sz := sz,
                  err := [Diagnostic.invalidOrder quantity price] }
              else
                { order :=
                    { order_id := some order_id, quantity := some quantity, price := some price,
                      side := some (if tokens.getD 2 [] = ['0'] then Side.Buy else Side.Sell) }
                  msg_type := tag, sz := (tokens.length : Int), err := [] }
    else if tag = 1 ∧ tokens.length = 2 then
      match stoull (tokens.getD 1 []) with
      | Conversion.error what =>
        { order := ParsedOrder.unassigned, msg_type := tag, sz := sz,
          err := [Diagnostic.processingError what] }
      | Conversion.ok order_id =>
        { order := { ParsedOrder.unassigned with order_id := some order_id }
          msg_type := tag, sz := (tokens.length : Int), err := [] }
    else
      { order := ParsedOrder.unassigned, msg_type := tag, sz := sz,
        err := [Diagnostic.invalidFormat] }

/-- What `processMessage` leaves behind: the engine afterwards and the lines handed to
`logger.log_out` and `logger.log_err`. -/
structure MessageOutcome where
  engine : Engine
  out : List Event
  err : List Diagnostic

/-- Function `MatchingEngine::processMessage` on the engine over exact prices. The result is
`none` when a field of `order` is read that was never assigned, and when the accepted price is
NaN, which this engine cannot take; `Dbl.processMessage` follows the call with a NaN price. -/
def processMessage (stod : Text → Conversion Double) (e : Engine) (message : Text) :
    Option MessageOutcome :=
  if (messageToToken message []).1 = false then
    some { engine := e, out := [], err := (messageToToken message []).2.2 }
  else
    match processTokens stod (messageToToken message []).2.1 (-1) (-1) with
    | { order := order, msg_type := msg_type, sz := sz, err := err } =>
      if msg_type = 0 ∧ sz > 0 then
        match order.order_id, order.quantity, order.price, order.side with
        | some order_id, some quantity, some (Double.num price), some side =>
          some
            { engine := (addOrder e order_id quantity price side).engine
              out := (addOrder e order_id quantity price side).out
              err := err ++ (addOrder e order_id quantity price side).err.map Diagnostic.engine }
        | _, _, _, _ => none
      else if msg_type = 1 ∧ sz > 0 then
        match order.order_id with
        | some order_id =>
          some
            { engine := (cancelOrder e order_id).engine
              out := (cancelOrder e order_id).out
              err := err ++ (cancelOrder e order_id).err.map Diagnostic.engine }
        | none => none
      else some { engine := e, out := [], err := err }

/-- An instance of the `stod` parameter for concrete scenarios. It agrees with `std::stod` on
the texts `[-]digits[.[d[d]]]` (the value counted in hundredths) and on the text `nan`; these
are the price texts of the scenarios and of the generator. On every other text this instance
throws, which `std::stod` does not always do, so it is only applied to texts of these forms. -/
def stodCents (s : Text) : Conversion Double :=
  if s = ['n', 'a', 'n'] then Conversion.ok Double.nan
  else
    match (match s with
      | '-' :: rest => (true, rest)
      | rest => (false, rest)) with
    | (negative, body) =>
      if body.takeWhile Char.isDigit = [] then Conversion.error "stod"
      else
        match body.dropWhile Char.isDigit with
        | [] =>
          Conversion.ok (Double.num
            ((if negative then -1 else 1) * (100 * digitsValue (body.takeWhile Char.isDigit) : Nat)))
        | ['.'] =>
          Conversion.ok (Double.num
            ((if negative then -1 else 1) * (100 * digitsValue (body.takeWhile Char.isDigit) : Nat)))
        | ['.', d1] =>
          if d1.isDigit then
            Conversion.ok (Double.num ((if negative then -1 else 1) *
              (100 * digitsValue (body.takeWhile Char.isDigit) + 10 * digitsValue [d1] : Nat)))
          else Conversion.error "stod"
        | ['.', d1, d2] =>
          if d1.isDigit ∧ d2.isDigit then
            Conversion.ok (Double.num ((if negative then -1 else 1) *
              (100 * digitsValue (body.takeWhile Char.isDigit) + digitsValue [d1, d2] : Nat)))
          else Conversion.error "stod"
        | _ => Conversion.error "stod"

/-- Calls of `processMessage` on one engine for a sequence of messages: the engine afterwards
and all lines logged, in call order. -/
def runMessages (stod : Text → Conversion Double) : Engine → List Text → Option MessageOutcome
  | e, [] => some { engine := e, out := [], err := [] }
  | e, message :: rest =>
    match processMessage stod e message with
    | none => none
    | some r1 =>
      match runMessages stod r1.engine rest with
      | none => none
      | some r2 => some { engine := r2.engine, out := r1.out ++ r2.out, err := r1.err ++ r2.err }

/-- The comma-separated fields of a text, as the specification of the tokenizer describes them:
the pieces between the commas, in order; a text with `n` commas has `n + 1` fields, some of
which may be empty. -/
def commaSeparatedFields : Text → List Text
  | [] => [[]]
  | c :: rest =>
    if c = ',' then [] :: commaSeparatedFields rest
    else
      match commaSeparatedFields rest with
      | [] => [[c]]
      | field :: fields => (c :: field) :: fields

/-- The tokens joined with one comma between neighbours. -/
def joinComma : List Text → Text
  | [] => []
  | [token] => token
  | token :: rest => token ++ ',' :: joinComma rest

/-- The tokens the `getline` loop extracts from a stream, character by character: a comma closes
the current token, other characters extend it, and the end of the stream closes a token only if
the token has a character. -/
def getlineFields : Text → List Text
  | [] => []
  | c :: rest =>
    if c = ',' then [] :: getlineFields rest
    else
      match getlineFields rest with
      | [] => [[c]]
      | field :: fields => (c :: field) :: fields

/-! ## Text of the trade line (`emitTradeEvent`) -/

/-- The text of `ss << quantity` for an unsigned integer: its decimal digits. -/
def natText (n : Nat) : Text := Nat.toDigits 10 n

/-- A text without the zeros at its end. -/
def dropTrailingZeros (t : Text) : Text := (t.reverse.dropWhile (fun c => c == '0')).reverse

/-- The fractional part of a number of hundredths in the default stream format: the two
fractional digits without trailing zeros, behind a decimal point that is written only if a
digit is left. -/
def fractionText (hundredths : Nat) : Text :=
  match dropTrailingZeros [Nat.digitChar (hundredths / 10), Nat.digitChar (hundredths % 10)] with
  | [] => []
  | digits => '.' :: digits

/-- The text of `ss << price` for a `double` under the default stream flags, which no statement
of `matching_engine.cpp` changes: the `%g` conversion with precision 6, that is up to six
significant digits, with the trailing zeros of the fraction removed and no decimal point when no
fractional digit is left. The model covers prices of magnitude below 10000.00: counted in
hundredths these have at most six significant digits, so the text is exact. From 10000.00 on the
library rounds the binary value to six digits or writes an exponent; these prices are `none`. -/
def defaultDoubleText (price : Int) : Option Text :=
  if price.natAbs < 1000000 then
    some ((if price < 0 then ['-'] else []) ++ natText (price.natAbs / 100) ++
      fractionText (price.natAbs % 100))
  else none

/-- The text `ss.str()` of `emitTradeEvent`: `"2," << quantity << "," << price`. -/
def tradeEventLine (quantity : Nat) (price : Int) : Option Text :=
  match defaultDoubleText price with
  | none => none
  | some priceText => some ("2,".toList ++ natText quantity ++ [','] ++ priceText)

/-- The price text the specification describes: fixed-point with exactly two fractional
digits. -/
def fixedTwoText (price : Int) : Text :=
  (if price < 0 then ['-'] else []) ++ natText (price.natAbs / 100) ++
    ['.', Nat.digitChar (price.natAbs % 100 / 10), Nat.digitChar (price.natAbs % 100 % 10)]

/-! ## SPSC queue (`include/spsc_queue.hpp`) in a sequential model

One thread calls `push` and `pop` one after the other, so the atomic loads and stores are plain
reads and writes of `head_` and `tail_`. -/

/-- The data members of `SPSCQueue<T, Capacity>`; `buffer_` gives the element of each slot. -/
structure SPSCQueue (T : Type) where
  buffer_ : Nat → T
  head_ : Nat
  tail_ : Nat

/-- Constructor `SPSCQueue() : head_(0), tail_(0)`, with value-initialised slots. -/
def SPSCQueue.init (T : Type) [Inhabited T] : SPSCQueue T :=
  { buffer_ := fun _ => default, head_ := 0, tail_ := 0 }

/-- Function `SPSCQueue::push`: the returned flag and the queue afterwards. -/
def SPSCQueue.push {T : Type} (Capacity : Nat) (q : SPSCQueue T) (value : T) :
    Bool × SPSCQueue T :=
  if (q.head_ + 1) % Capacity = q.tail_ then (false, q)
  else
    (true,
      { buffer_ := fun i => if i = q.head_ then value else q.buffer_ i
        head_ := (q.head_ + 1) % Capacity
        tail_ := q.tail_ })

/-- Function `SPSCQueue::pop`: the returned flag, the reference parameter `value` afterwards and
the queue afterwards. -/
def SPSCQueue.pop {T : Type} [Inhabited T] (Capacity : Nat) (q : SPSCQueue T) (value : T) :
    Bool × T × SPSCQueue T :=
  if q.tail_ = q.head_ then (false, value, q)
  else
    (true, q.buffer_ q.tail_,
      { buffer_ := fun i => if i = q.tail_ then default else q.buffer_ i
        head_ := q.head_
        tail_ := (q.tail_ + 1) % Capacity })

/-- Function `SPSCQueue::size`. -/
def SPSCQueue.size {T : Type} (Capacity : Nat) (q : SPSCQueue T) : Nat :=
  if q.head_ ≥ q.tail_ then q.head_ - q.tail_ else Capacity - q.tail_ + q.head_

/-- The elements a queue holds, oldest first: the slots from `tail_` up to `head_`, around the
end of the buffer. -/
def SPSCQueue.contents {T : Type} (Capacity : Nat) (q : SPSCQueue T) : List T :=
  (List.range (q.size Capacity)).map (fun i => q.buffer_ ((q.tail_ + i) % Capacity))

/-- A call of `push(value)`, or of `pop(out)` with the current value of the variable `out`. -/
inductive QueueCall (T : Type) where
  | push (value : T)
  | pop (out : T)

/-- What a call returns: the flag, and for `pop` the variable `out` afterwards. -/
inductive QueueReturn (T : Type) where
  | push (ok : Bool)
  | pop (ok : Bool) (out : T)
deriving DecidableEq, Repr

/-- A sequence of calls on a queue: what each call returns, and the queue afterwards. -/
def SPSCQueue.run {T : Type} [Inhabited T] (Capacity : Nat) :
    SPSCQueue T → List (QueueCall T) → List (QueueReturn T) × SPSCQueue T
  | q, [] => ([], q)
  | q, QueueCall.push value :: rest =>
    (QueueReturn.push (q.push Capacity value).1 ::
        (SPSCQueue.run Capacity (q.push Capacity value).2 rest).1,
      (SPSCQueue.run Capacity (q.push Capacity value).2 rest).2)
  | q, QueueCall.pop out :: rest =>
    (QueueReturn.pop (q.pop Capacity out).1 (q.pop Capacity out).2.1 ::
        (SPSCQueue.run Capacity (q.pop Capacity out).2.2 rest).1,
      (SPSCQueue.run Capacity (q.pop Capacity out).2.2 rest).2)

/-- The bounded FIFO of the specification: a list that holds at most `Capacity - 1` elements;
`push` appends at the back unless the list is full, `pop` takes the oldest element from the
front unless the list is empty and then leaves `out` untouched. -/
def boundedFifoRun {T : Type} (Capacity : Nat) :
    List T → List (QueueCall T) → List (QueueReturn T) × List T
  | l, [] => ([], l)
  | l, QueueCall.push value :: rest =>
    if l.length + 1 = Capacity then
      (QueueReturn.push false :: (boundedFifoRun Capacity l rest).1,
        (boundedFifoRun Capacity l rest).2)
    else
      (QueueReturn.push true :: (boundedFifoRun Capacity (l ++ [value]) rest).1,
        (boundedFifoRun Capacity (l ++ [value]) rest).2)
  | [], QueueCall.pop out :: rest =>
    (QueueReturn.pop false out :: (boundedFifoRun Capacity [] rest).1,
      (boundedFifoRun Capacity [] rest).2)
  | oldest :: l, QueueCall.pop _ :: rest =>
    (QueueReturn.pop true oldest :: (boundedFifoRun Capacity l rest).1,
      (boundedFifoRun Capacity l rest).2)

/-- The indices of a queue are slots of the buffer. -/
def QueueInv {T : Type} (N : Nat) (q : SPSCQueue T) : Prop := q.head_ < N ∧ q.tail_ < N

/-! ## Logger (`include/logger.hpp`) in a sequential model

The calls of `log_out` / `log_err` and the iterations of the worker `run` are taken one after
the other. A sink is the list of the lines written to it, each line being one
`*stream << text << std::endl`. -/

/-- Capacity of the queue of the logger, `SPSCQueue<std::string, 1000> queue_`. -/
def LOGGER_CAPACITY : Nat := 1000

/-- The data members of `Logger`; `out_stream_` and `err_stream_` stand for the lines written
so far to the two sinks. -/
structure Logger where
  queue_ : SPSCQueue Text
  shutdown_ : Bool
  enabled_ : Bool
  out_stream_ : List Text
  err_stream_ : List Text

/-- A freshly constructed logger: empty queue, `shutdown_{false}`, `enabled_{true}`, nothing
written yet. -/
def Logger.init : Logger :=
  { queue_ := SPSCQueue.init Text, shutdown_ := false, enabled_ := true, out_stream_ := [],
    err_stream_ := [] }

/-- Function `Logger::log_out`. When the logger is enabled and `queue_.push` fails, the code
only yields, so the logger is left as it was. -/
def Logger.log_out (l : Logger) (msg : Text) : Logger :=
  if l.enabled_ = false then { l with out_stream_ := l.out_stream_ ++ [msg] }
  else { l with queue_ := (l.queue_.push LOGGER_CAPACITY ("OUT: ".toList ++ msg)).2 }

/-- Function `Logger::log_err`. -/
def Logger.log_err (l : Logger) (msg : Text) : Logger :=
  if l.enabled_ = false then { l with err_stream_ := l.err_stream_ ++ [msg] }
  else { l with queue_ := (l.queue_.push LOGGER_CAPACITY ("ERR: ".toList ++ msg)).2 }

/-- What one iteration of the `while (true)` loop of `Logger::run` does: it leaves the loop
(`break`), goes to the next iteration without a message (`continue`), writes a popped message,
or throws because `msg.substr(5)` is called on a text shorter than 5 characters. -/
inductive RunStep where
  | leave
  | idle
  | wrote (l : Logger)
  | thrown

/-- One iteration of the loop of `Logger::run`. The test `msg.find("ERR: ") == 0` holds exactly
when the message starts with that tag. -/
def Logger.runStep (l : Logger) : RunStep :=
  if (l.queue_.pop LOGGER_CAPACITY []).1 = false then
    if l.shutdown_ then RunStep.leave else RunStep.idle
  else if (l.queue_.pop LOGGER_CAPACITY []).2.1.length < 5 then RunStep.thrown
  else if ("ERR: ".toList).isPrefixOf (l.queue_.pop LOGGER_CAPACITY []).2.1 then
    RunStep.wrote
      { l with queue_ := (l.queue_.pop LOGGER_CAPACITY []).2.2
               err_stream_ := l.err_stream_ ++ [(l.queue_.pop LOGGER_CAPACITY []).2.1.drop 5] }
  else
    RunStep.wrote
      { l with queue_ := (l.queue_.pop LOGGER_CAPACITY []).2.2
               out_stream_ := l.out_stream_ ++ [(l.queue_.pop LOGGER_CAPACITY []).2.1.drop 5] }

/-- The worker drains the queue: the iterations of `Logger::run` up to the first one that finds
the queue empty, at most `fuel` of them. The result is the logger at that point; `none` when
`fuel` iterations do not reach it or an iteration throws. -/
def Logger.drain : Nat → Logger → Option Logger
  | 0, _ => none
  | fuel + 1, l =>
    match l.runStep with
    | RunStep.leave => some l
    | RunStep.idle => some l
    | RunStep.wrote l1 => Logger.drain fuel l1
    | RunStep.thrown => none

/-- The lines the worker writes to the out sink for the queued texts `pending`: those without
the tag of the err channel, each without its first 5 characters. -/
def outLinesOf (pending : List Text) : List Text :=
  (pending.filter (fun e => !(("ERR: ".toList).isPrefixOf e))).map (fun e => e.drop 5)

/-- The lines the worker writes to the err sink for the queued texts `pending`. -/
def errLinesOf (pending : List Text) : List Text :=
  (pending.filter (fun e => ("ERR: ".toList).isPrefixOf e)).map (fun e => e.drop 5)

/-- An enabled logger on which `log_out` was called 999 times with the message `x` while the
worker did not run. -/
def fullLogger : Logger := (List.replicate 999 "x".toList).foldl Logger.log_out Logger.init

/-! ## Timed waits of the SPSC queue (`wait_push_timeout`, `wait_pop_timeout`)

One thread calls the function and no other thread touches the queue while the call lasts: the
queue stays as full or as empty as it is. Time is the reading of `std::chrono::steady_clock`,
counted in ticks of the clock: `now k` is what the call number `k` of `steady_clock::now()`
made by the function returns, call number 0 being the one that computes the deadline. The
`sleep_for` of the loop body changes nothing but the time that passes, and the readings `now`
are arbitrary. -/

/-- Library call `head_.wait(old)` of `std::atomic` (C++20) while no other thread stores to the
atomic: the call compares the value with `old` and returns if they differ; otherwise it blocks
until it is notified and the value differs, which never happens. `true` means that the call
returns. -/
def atomicWaitReturns (value old : Nat) : Bool := decide (value ≠ old)

/-- How a call of a timed wait ends: it returns a result, or it stays blocked in `head_.wait`
for ever, or it is still in its loop after the iterations it was given. -/
inductive TimedCall (α : Type) where
  | returned (result : α)
  | blocked
  | running
deriving DecidableEq, Repr

/-- The `while (tail == head)` loop of `wait_pop_timeout` and the statements behind it, for at
most `fuel` evaluations of the loop condition; `k` numbers the next clock reading, `tail` and
`head` are the local variables. The result carries the returned flag, the reference parameter
`value` afterwards and the queue afterwards. -/
def SPSCQueue.waitPopLoop {T : Type} [Inhabited T] (Capacity : Nat) (q : SPSCQueue T) (value : T)
    (now : Nat → Nat) (deadline : Nat) :
    Nat → Nat → Nat → Nat → TimedCall (Bool × T × SPSCQueue T)
  | 0, _, _, _ => TimedCall.running
  | fuel + 1, k, tail, head =>
    if tail = head then
      if now k ≥ deadline then TimedCall.returned (false, value, q)
      else if atomicWaitReturns q.head_ head then
        SPSCQueue.waitPopLoop Capacity q value now deadline fuel (k + 1) q.tail_ q.head_
      else TimedCall.blocked
    else
      TimedCall.returned
        (true, q.buffer_ tail,
          { buffer_ := fun i => if i = tail then default else q.buffer_ i
            head_ := q.head_
            tail_ := (tail + 1) % Capacity })

/-- Function `SPSCQueue::wait_pop_timeout`, with `deadline = now() + timeout`. -/
def SPSCQueue.wait_pop_timeout {T : Type} [Inhabited T] (Capacity : Nat) (q : SPSCQueue T)
    (value : T) (now : Nat → Nat) (timeout : Nat) (fuel : Nat) :
    TimedCall (Bool × T × SPSCQueue T) :=
  SPSCQueue.waitPopLoop Capacity q value now (now 0 + timeout) fuel 1 q.tail_ q.head_

/-- The `while (nextHead == tail_)` loop of `wait_push_timeout` and the statements behind it, for
at most `fuel` evaluations of the loop condition; `head` is the local variable, `nextHead` is
`(head + 1) % Capacity`. The result carries the returned flag and the queue afterwards. -/
def SPSCQueue.waitPushLoop {T : Type} (Capacity : Nat) (q : SPSCQueue T) (value : T)
    (now : Nat → Nat) (deadline : Nat) : Nat → Nat → Nat → TimedCall (Bool × SPSCQueue T)
  | 0, _, _ => TimedCall.running
  | fuel + 1, k, head =>
    if (head + 1) % Capacity = q.tail_ then
      if now k ≥ deadline then TimedCall.returned (false, q)
      else if atomicWaitReturns q.head_ head then
        SPSCQueue.waitPushLoop Capacity q value now deadline fuel (k + 1) q.head_
      else TimedCall.blocked
    else
      TimedCall.returned
        (true,
          { buffer_ := fun i => if i = head then value else q.buffer_ i
            head_ := (head + 1) % Capacity
            tail_ := q.tail_ })

/-- Function `SPSCQueue::wait_push_timeout`, with `deadline = now() + timeout`. -/
def SPSCQueue.wait_push_timeout {T : Type} (Capacity : Nat) (q : SPSCQueue T) (value : T)
    (now : Nat → Nat) (timeout : Nat) (fuel : Nat) : TimedCall (Bool × SPSCQueue T) :=
  SPSCQueue.waitPushLoop Capacity q value now (now 0 + timeout) fuel 1 q.head_

/-- A clock that advances by one tick of 1 µs from reading to reading. -/
def tickingClock (k : Nat) : Nat := k

/-! ## Pipeline stage `ordersGenerator` (`include/generators.hpp`) -/

/-- What one run of the loop body of `ordersGenerator` does with a token list taken from
`token_q`: it leaves the loop on the empty list, the shutdown sentinel; otherwise it calls
`processTokens` with `msg_type = -1` and `sz = -1` and hands the pair `(order, msg_type)` to
`order_q` when `sz > 0`. -/
inductive OrdersGeneratorAction where
  | leave
  | forward (order : ParsedOrder) (msg_type : Int) (err : List Diagnostic)
  | skip (err : List Diagnostic)
deriving DecidableEq, Repr

/-- The loop body of `ordersGenerator` behind `wait_pop_timeout`. -/
def ordersGeneratorBody (stod : Text → Conversion Double) (tokens : List Text) :
    OrdersGeneratorAction :=
  if tokens.isEmpty then OrdersGeneratorAction.leave
  else if (processTokens stod tokens (-1) (-1)).sz > 0 then
    OrdersGeneratorAction.forward (processTokens stod tokens (-1) (-1)).order
      (processTokens stod tokens (-1) (-1)).msg_type (processTokens stod tokens (-1) (-1)).err
  else OrdersGeneratorAction.skip (processTokens stod tokens (-1) (-1)).err

/-! ## The engine over `double` prices that may be NaN

The definitions above take prices in an exact, totally ordered domain. The engine itself stores
a `double`, and `processTokens` lets a NaN price through (the test `price <= 0` is false for
it), so `addOrder` can be called with NaN. The namespace `Dbl` repeats the engine with prices of
type `Double`. The operations of `std::map` are written through the comparator, as the library
does: `lower_bound(key)` is the first entry, in iteration order, that the comparator does not
place before `key`; `find` and `operator[]` take that entry as the entry of `key` unless the
comparator places `key` before it. With a NaN operand every comparison is false. On the books
the engine can build (keys strictly ordered, or a NaN key alone in the map) the first such
entry in iteration order is the entry the search of the library reaches. -/

/-- Comparison `a < b` of two `double` values; false when an operand is NaN. -/
def Double.lt : Double → Double → Bool
  | Double.num x, Double.num y => decide (x < y)
  | _, _ => false

/-- Comparison `a <= b` of two `double` values; false when an operand is NaN. -/
def Double.le : Double → Double → Bool
  | Double.num x, Double.num y => decide (x ≤ y)
  | _, _ => false

namespace Dbl

/-- Record `struct Order { order_id; quantity; price; side }` with a `double` price. -/
structure Order where
  order_id : Nat
  quantity : Nat
  price : Double
  side : Side
deriving DecidableEq, Repr

/-- One entry of a book: the key and the `std::deque<Order>` stored under it. -/
abbrev Level := Double × List Order

/-- A `std::map<double, std::deque<Order>, Cmp>` as its entries in iteration order. -/
abbrev Book := List Level

/-- Lines handed to `logger.log_out`. -/
inductive Event where
  | trade (quantity : Nat) (price : Double)
  | fullyFilled (order_id : Nat)
  | partiallyFilled (order_id : Nat) (quantity : Nat)
deriving DecidableEq, Repr

/-- The data members of `class MatchingEngine`. -/
structure Engine where
  m_buyOrderBook : Book
  m_sellOrderBook : Book
  m_orderMap : Nat → Option Order

/-- The book that holds the resting orders of a side. -/
def Engine.bookOf (e : Engine) : Side → Book
  | Side.Buy => e.m_buyOrderBook
  | Side.Sell => e.m_sellOrderBook

/-- A default-constructed engine. -/
def Engine.empty : Engine :=
  { m_buyOrderBook := [], m_sellOrderBook := [], m_orderMap := fun _ => none }

/-- What a public operation leaves behind: the engine afterwards and the lines it handed to
`logger.log_out` and `logger.log_err`. -/
structure Outcome where
  engine : Engine
  out : List Event
  err : List String

/-- Key comparison of `std::less<double>`, the comparator of `sell_book_t`. -/
def sellCmp (a b : Double) : Bool := a.lt b

/-- Key comparison of `std::greater<double>`, the comparator of `buy_book_t`. -/
def buyCmp (a b : Double) : Bool := b.lt a

/-- The comparator of the book that holds the orders of a side. -/
def cmpOf : Side → Double → Double → Bool
  | Side.Buy => buyCmp
  | Side.Sell => sellCmp

/-- All orders stored in a book, in iteration order. -/
def restingOrders : Book → List Order
  | [] => []
  | level :: rest => level.2 ++ restingOrders rest

/-- Lookup `book.find(price)`: the entry at `lower_bound(price)`, unless there is none or the
comparator places `price` before its key. -/
def findLevel (cmp : Double → Double → Bool) : Book → Double → Option Level
  | [], _ => none
  | (k, orders) :: rest, price =>
    if cmp k price then findLevel cmp rest price
    else if cmp price k then none
    else some (k, orders)

/-- Statement `book[order.price].push_back(order)`: `operator[]` takes the entry at
`lower_bound(order.price)` and inserts a new entry with an empty deque in front of it when there
is none or the comparator places `order.price` before its key. -/
def pushBack (cmp : Double → Double → Bool) : Book → Order → Book
  | [], order => [(order.price, [order])]
  | (k, orders) :: rest, order =>
    if cmp k order.price then (k, orders) :: pushBack cmp rest order
    else if cmp order.price k then (order.price, [order]) :: (k, orders) :: rest
    else (k, orders ++ [order]) :: rest

/-- Idiom `orders.erase(std::remove_if(..., o.order_id == order_id), orders.end())`. -/
def removeById (orders : List Order) (order_id : Nat) : List Order :=
  orders.filter (fun o => decide (o.order_id ≠ order_id))

/-- Body of `cancelOrder` on one book: `find(price)`; when an entry is found remove the id from
its deque and erase the entry if the deque became empty. -/
def cancelInBook (cmp : Double → Double → Bool) : Book → Double → Nat → Book
  | [], _, _ => []
  | (k, orders) :: rest, price, order_id =>
    if cmp k price then (k, orders) :: cancelInBook cmp rest price order_id
    else if cmp price k then (k, orders) :: rest
    else if (removeById orders order_id).isEmpty then rest
    else (k, removeById orders order_id) :: rest

/-- Call `m_orderMap.erase(order_id)`. -/
def eraseOrder (m : Nat → Option Order) (order_id : Nat) : Nat → Option Order :=
  fun k => if k = order_id then none else m k

/-- Assignment `m_orderMap[order.order_id] = order`. -/
def insertOrder (m : Nat → Option Order) (order : Order) : Nat → Option Order :=
  fun k => if k = order.order_id then some order else m k

/-- Assignment `m_orderMap[order_id].quantity = quantity`; `operator[]` value-initialises the
entry when the key is absent. -/
def setQuantity (m : Nat → Option Order) (order_id quantity : Nat) : Nat → Option Order :=
  fun k =>
    if k = order_id then
      match m order_id with
      | some o => some { o with quantity := quantity }
      | none =>
        some { order_id := 0, quantity := quantity, price := Double.num 0, side := Side.Buy }
    else m k

/-- Variables of the `while` loop of `matchOrder`. -/
structure LoopState where
  opposite_book : Book
  m_orderMap : Nat → Option Order
  aggressive_order : Order
  out : List Event

/-- Test `can_match` of the loop body: `>=` for an aggressive Buy, `<=` for an aggressive Sell;
false when the aggressive price or the best price is NaN. -/
def canMatch (aggressive_order : Order) (best_price : Double) : Bool :=
  match aggressive_order.side with
  | Side.Buy => best_price.le aggressive_order.price
  | Side.Sell => aggressive_order.price.le best_price

/-- One evaluation of the loop condition followed by one run of the loop body; `none` means the
loop is left. -/
def matchStep (st : LoopState) : Option LoopState :=
  if st.aggressive_order.quantity > 0 then
    match st.opposite_book with
    | [] => none
    | (best_price, resting_orders) :: rest =>
      if canMatch st.aggressive_order best_price then
        match resting_orders with
        | [] => some { st with opposite_book := rest }
        | resting_order :: others =>
          let trade_quantity := min st.aggressive_order.quantity resting_order.quantity
          let trade_price := resting_order.price
          let aggressive_quantity := wrapSub st.aggressive_order.quantity trade_quantity
          let resting_quantity := wrapSub resting_order.quantity trade_quantity
          let aggressive_fill :=
            if aggressive_quantity > 0 then
              Event.partiallyFilled st.aggressive_order.order_id aggressive_quantity
            else Event.fullyFilled st.aggressive_order.order_id
          if resting_quantity = 0 then
            some
              { opposite_book := if others.isEmpty then rest else (best_price, others) :: rest
                m_orderMap := eraseOrder st.m_orderMap resting_order.order_id
                aggressive_order := { st.aggressive_order with quantity := aggressive_quantity }
                out := st.out ++ [Event.trade trade_quantity trade_price, aggressive_fill,
                  Event.fullyFilled resting_order.order_id] }
          else
            some
              { opposite_book :=
                  (best_price, { resting_order with quantity := resting_quantity } :: others)
                    :: rest
                m_orderMap := setQuantity st.m_orderMap resting_order.order_id resting_quantity
                aggressive_order := { st.aggressive_order with quantity := aggressive_quantity }
                out := st.out ++ [Event.trade trade_quantity trade_price, aggressive_fill,
                  Event.partiallyFilled resting_order.order_id resting_quantity] }
      else none
  else none

/-- The loop run for at most `fuel` iterations. -/
def matchLoop : Nat → LoopState → LoopState
  | 0, st => st
  | fuel + 1, st =>
    match matchStep st with
    | none => st
    | some st' => matchLoop fuel st'

/-- A number of iterations within which the loop is left: levels plus orders plus one. -/
def loopBound (book : Book) : Nat := book.length + (restingOrders book).length + 1

/-- The loop variables when `matchOrder` enters its loop. -/
def loopStart (e : Engine) (aggressive_order : Order) : LoopState :=
  { opposite_book := e.bookOf aggressive_order.side.opposite, m_orderMap := e.m_orderMap,
    aggressive_order := aggressive_order, out := [] }

/-- The loop variables when `matchOrder` leaves its loop. -/
def loopResult (e : Engine) (aggressive_order : Order) : LoopState :=
  matchLoop (loopBound (e.bookOf aggressive_order.side.opposite)) (loopStart e aggressive_order)

/-- Function `MatchingEngine::matchOrder`. -/
def matchOrder (e : Engine) (aggressive_order : Order) : Engine × Order × List Event :=
  match aggressive_order.side with
  | Side.Buy =>
    let st := matchLoop (loopBound e.m_sellOrderBook)
      { opposite_book := e.m_sellOrderBook, m_orderMap := e.m_orderMap,
        aggressive_order := aggressive_order, out := [] }
    ({ e with m_sellOrderBook := st.opposite_book, m_orderMap := st.m_orderMap },
      st.aggressive_order, st.out)
  | Side.Sell =>
    let st := matchLoop (loopBound e.m_buyOrderBook)
      { opposite_book := e.m_buyOrderBook, m_orderMap := e.m_orderMap,
        aggressive_order := aggressive_order, out := [] }
    ({ e with m_buyOrderBook := st.opposite_book, m_orderMap := st.m_orderMap },
      st.aggressive_order, st.out)

/-- Function `MatchingEngine::addToBook`. -/
def addToBook (e : Engine) (order : Order) : Engine :=
  match order.side with
  | Side.Buy =>
    { e with m_buyOrderBook := pushBack buyCmp e.m_buyOrderBook order
             m_orderMap := insertOrder e.m_orderMap order }
  | Side.Sell =>
    { e with m_sellOrderBook := pushBack sellCmp e.m_sellOrderBook order
             m_orderMap := insertOrder e.m_orderMap order }

/-- Function `MatchingEngine::addOrder`. -/
def addOrder (e : Engine) (order_id quantity : Nat) (price : Double) (side : Side) : Outcome :=
  if (e.m_orderMap order_id).isSome then
    { engine := e, out := [], err := ["Duplicate order ID: " ++ toString order_id] }
  else
    let matched := matchOrder e
      { order_id := order_id, quantity := quantity, price := price, side := side }
    if matched.2.1.quantity > 0 then
      { engine := addToBook matched.1 matched.2.1, out := matched.2.2, err := [] }
    else
      { engine := matched.1, out := matched.2.2, err := [] }

/-- Function `MatchingEngine::cancelOrder`. -/
def cancelOrder (e : Engine) (order_id : Nat) : Outcome :=
  match e.m_orderMap order_id with
  | none => { engine := e, out := [], err := ["Order not found: " ++ toString order_id] }
  | some order =>
    match order.side with
    | Side.Buy =>
      { engine :=
          { e with m_buyOrderBook := cancelInBook buyCmp e.m_buyOrderBook order.price order_id
                   m_orderMap := eraseOrder e.m_orderMap order_id }
        out := [], err := [] }
    | Side.Sell =>
      { engine :=
          { e with m_sellOrderBook := cancelInBook sellCmp e.m_sellOrderBook order.price order_id
                   m_orderMap := eraseOrder e.m_orderMap order_id }
        out := [], err := [] }

/-- What `processMessage` leaves behind. -/
structure MessageOutcome where
  engine : Engine
  out : List Event
  err : List Diagnostic

/-- Function `MatchingEngine::processMessage` over the engine with `double` prices: an accepted
add reaches `addOrder` with the price `std::stod` returned, NaN included. The result is `none`
only when a field of `order` would be read that was never assigned. -/
def processMessage (stod : Text → Conversion Double) (e : Engine) (message : Text) :
    Option MessageOutcome :=
  if (messageToToken message []).1 = false then
    some { engine := e, out := [], err := (messageToToken message []).2.2 }
  else
    match processTokens stod (messageToToken message []).2.1 (-1) (-1) with
    | { order := order, msg_type := msg_type, sz := sz, err := err } =>
      if msg_type = 0 ∧ sz > 0 then
        match order.order_id, order.quantity, order.price, order.side with
        | some order_id, some quantity, some price, some side =>
          some
            { engine := (addOrder e order_id quantity price side).engine
              out := (addOrder e order_id quantity price side).out
              err := err ++ (addOrder e order_id quantity price side).err.map Diagnostic.engine }
        | _, _, _, _ => none
      else if msg_type = 1 ∧ sz > 0 then
        match order.order_id with
        | some order_id =>
          some
            { engine := (cancelOrder e order_id).engine
              out := (cancelOrder e order_id).out
              err := err ++ (cancelOrder e order_id).err.map Diagnostic.engine }
        | none => none
      else some { engine := e, out := [], err := err }

/-- Calls of `processMessage` on one engine for a sequence of messages. -/
def runMessages (stod : Text → Conversion Double) : Engine → List Text → Option MessageOutcome
  | e, [] => some { engine := e, out := [], err := [] }
  | e, message :: rest =>
    match processMessage stod e message with
    | none => none
    | some r1 =>
      match runMessages stod r1.engine rest with
      | none => none
      | some r2 => some { engine := r2.engine, out := r1.out ++ r2.out, err := r1.err ++ r2.err }

/-- The engine states reachable from a default-constructed engine by calls of `addOrder` and
`cancelOrder` with 64-bit ids and quantities and any `double` price, NaN included. -/
inductive Reachable : Engine → Prop where
  | empty : Reachable Engine.empty
  | add {e : Engine} (h : Reachable e) (order_id quantity : Nat) (price : Double) (side : Side)
      (hid : order_id < UINT64_MOD) (hq : quantity < UINT64_MOD) :
      Reachable (addOrder e order_id quantity price side).engine
  | cancel {e : Engine} (h : Reachable e) (order_id : Nat) (hid : order_id < UINT64_MOD) :
      Reachable (cancelOrder e order_id).engine

end Dbl

namespace Dbl

/-- The shape of a book the engine can build: its keys are numbers in the strict order of the
comparator and every order whose price is a number is stored under its own price; or a single
entry whose key is NaN, which took every order added since. -/
def BookShape (cmp : Double → Double → Bool) (book : Book) : Prop :=
  ((∀ l ∈ book, l.1 ≠ Double.nan) ∧ book.Pairwise (fun l1 l2 => cmp l1.1 l2.1 = true) ∧
      ∀ l ∈ book, ∀ o ∈ l.2, o.price ≠ Double.nan → o.price = l.1) ∨
    ∃ orders, book = [(Double.nan, orders)]

/-- Order `o` stands at position `pos` of the queue of the level number `level` of the book. -/
def StandsAt (book : Book) (level pos : Nat) (o : Order) : Prop :=
  ∃ l, book.get? level = some l ∧ l.2.get? pos = some o

/-- The number of orders that come before position `pos` of level number `level` in the
iteration order of the book. -/
def rankOf (book : Book) (level pos : Nat) : Nat :=
  (restingOrders (book.take level)).length + pos

/-- Order `y`, at position `ypos` of level `ylevel`, ranks ahead of order `x`, at position
`xpos` of level `xlevel`, among the resting orders of `side`: `y` has a strictly better price
(higher for Buy, lower for Sell; false when a price is NaN), or both have the same price and
`y` stands earlier in the queue of the same level. -/
def RanksAhead (side : Side) (ylevel ypos : Nat) (y : Order) (xlevel xpos : Nat) (x : Order) :
    Prop :=
  cmpOf side y.price x.price = true ∨ (y.price = x.price ∧ ylevel = xlevel ∧ ypos < xpos)

end Dbl

namespace Dbl

/-- Sum of the quantities of the TRADE lines of a log. -/
def tradedQuantity : List Event → Nat
  | [] => 0
  | Event.trade q _ :: rest => q + tradedQuantity rest
  | _ :: rest => tradedQuantity rest

/-- The quantity with which an id rests in the book: the quantity of its index entry, and 0 when
it has none. -/
def restingQuantity (e : Engine) (order_id : Nat) : Nat :=
  match e.m_orderMap order_id with
  | some o => o.quantity
  | none => 0

/-- Scenario S4 after its first two messages: buys of 4 (id 30) and of 6 (id 31) rest at 99.00,
in this order. -/
def scenarioS4 : Engine :=
  (addOrder (addOrder Engine.empty 30 4 (Double.num 9900) Side.Buy).engine 31 6
    (Double.num 9900) Side.Buy).engine

/-- The engine after `addOrder(1, 5, NaN, Buy)` on a default-constructed engine. -/
def scenarioNaNFirst : Engine := (addOrder Engine.empty 1 5 Double.nan Side.Buy).engine

/-- The engine after `addOrder(1, 5, 100.00, Buy)`, `addOrder(2, 5, NaN, Buy)` and
`addOrder(3, 5, 105.00, Buy)`. -/
def scenarioNaNAdds : Engine :=
  (addOrder
    (addOrder (addOrder Engine.empty 1 5 (Double.num 10000) Side.Buy).engine 2 5 Double.nan
      Side.Buy).engine 3 5 (Double.num 10500) Side.Buy).engine

/-- The engine `scenarioNaNAdds` after `cancelOrder(2)`. -/
def scenarioNaN : Engine := (cancelOrder scenarioNaNAdds 2).engine

end Dbl

/-- The messages add 1 (buy 5 at 100.00), add 2 (buy 5 at NaN), add 3 (buy 5 at 105.00) and
cancel 2; each of them passes `processTokens`. -/
def nanMessages : List Text :=
  ["0,1,0,5,100.00".toList, "0,2,0,5,nan".toList, "0,3,0,5,105.00".toList, "1,2".toList]

namespace Dbl

/-- An order of the engine over exact prices, its price taken as a `double`. -/
def ofOrder (o : MatchingEngine.Order) : Order :=
  { order_id := o.order_id, quantity := o.quantity, price := Double.num o.price, side := o.side }

/-- A book of the engine over exact prices as a book with `double` keys. -/
def ofBook (book : MatchingEngine.Book) : Book :=
  book.map (fun l => (Double.num l.1, l.2.map ofOrder))

/-- An index of the engine over exact prices as an index of orders with `double` prices. -/
def ofIndex (m : Nat → Option MatchingEngine.Order) : Nat → Option Order :=
  fun k => (m k).map ofOrder

/-- A line of the out channel, its price taken as a `double`. -/
def ofEvent : MatchingEngine.Event → Event
  | MatchingEngine.Event.trade q p => Event.trade q (Double.num p)
  | MatchingEngine.Event.fullyFilled id => Event.fullyFilled id
  | MatchingEngine.Event.partiallyFilled id q => Event.partiallyFilled id q

/-- An engine over exact prices as an engine over `double` prices. -/
def ofEngine (e : MatchingEngine.Engine) : Engine :=
  { m_buyOrderBook := ofBook e.m_buyOrderBook, m_sellOrderBook := ofBook e.m_sellOrderBook,
    m_orderMap := ofIndex e.m_orderMap }

/-- The variables of the match loop over exact prices as those over `double` prices. -/
def ofLoopState (st : MatchingEngine.LoopState) : LoopState :=
  { opposite_book := ofBook st.opposite_book, m_orderMap := ofIndex st.m_orderMap,
    aggressive_order := ofOrder st.aggressive_order, out := st.out.map ofEvent }

end Dbl
namespace Dbl

/-- The states of `Reachable` reached by calls whose prices are all numbers. -/
inductive ReachableNum : Engine → Prop where
  | empty : ReachableNum Engine.empty
  | add {e : Engine} (h : ReachableNum e) (order_id quantity : Nat) (price : Int) (side : Side)
      (hid : order_id < UINT64_MOD) (hq : quantity < UINT64_MOD) :
      ReachableNum (addOrder e order_id quantity (Double.num price) side).engine
  | cancel {e : Engine} (h : ReachableNum e) (order_id : Nat) (hid : order_id < UINT64_MOD) :
      ReachableNum (cancelOrder e order_id).engine

/-- Every level of the book holds an order and every stored order has a quantity above 0. -/
def LevelsFilled (book : Book) : Prop :=
  ∀ l ∈ book, l.2 ≠ [] ∧ ∀ o ∈ l.2, 0 < o.quantity

/-- Every entry of the index has a quantity above 0. -/
def IndexFilled (m : Nat → Option Order) : Prop :=
  ∀ id o, m id = some o → 0 < o.quantity

end Dbl

/-! ## Lemmas -/

theorem wrapSub_eq {x y : Nat} (hy : y ≤ x) (hx : x < UINT64_MOD) : wrapSub x y = x - y := by
  unfold wrapSub UINT64_MOD at *
  omega

theorem matchStep_spec {own : List Order} {st st1 : LoopState} (hinv : LoopInv own st)
    (h : matchStep st = some st1) : StepSpec st st1 := by
  obtain ⟨book, m, a, out⟩ := st
  have hb := hinv.book
  have hq := hinv.bound
  simp only at hb hq
  unfold matchStep at h
  simp only at h
  split at h
  · rename_i ha
    split at h
    · exact absurd h (by simp)
    · rename_i k resting rest
      split at h
      · rename_i hc
        split at h
        · exact absurd (hb.nonempty (k, []) (by simp)) (by simp)
        · rename_i r rs
          have hro := hb.orders (k, r :: rs) (by simp) r (by simp)
          obtain ⟨-, -, hr0, hrM⟩ := hro
          rcases Nat.lt_or_ge a.quantity r.quantity with hlt | hge
          · have hmin : min a.quantity r.quantity = a.quantity := Nat.min_eq_left (Nat.le_of_lt hlt)
            have e1 : wrapSub a.quantity a.quantity = 0 := by
              rw [wrapSub_eq (Nat.le_refl _) hq]; omega
            have e2 : wrapSub r.quantity a.quantity = r.quantity - a.quantity :=
              wrapSub_eq (Nat.le_of_lt hlt) hrM
            simp only [hmin, e1, e2, emitTradeEvent, emitFullyFilled, emitPartiallyFilled] at h
            have hne : r.quantity - a.quantity ≠ 0 := by omega
            simp only [hne, if_false, Nat.lt_irrefl, Option.some.injEq] at h
            subst h
            exact StepSpec.restingReduced k r rs rest m a out ha hc hlt
          · have hmin : min a.quantity r.quantity = r.quantity := Nat.min_eq_right hge
            have e1 : wrapSub a.quantity r.quantity = a.quantity - r.quantity :=
              wrapSub_eq hge hq
            have e2 : wrapSub r.quantity r.quantity = 0 := by
              rw [wrapSub_eq (Nat.le_refl _) hrM]; omega
            simp only [hmin, e1, e2, emitTradeEvent, emitFullyFilled, emitPartiallyFilled,
              if_true, Option.some.injEq] at h
            subst h
            exact StepSpec.restingFilled k r rs rest m a out ha hc hge
      · exact absurd h (by simp)
  · exact absurd h (by simp)

theorem restingOrders_popFront (k : Int) (rs : List Order) (rest : Book) :
    restingOrders (if rs.isEmpty then rest else (k, rs) :: rest) = rs ++ restingOrders rest := by
  cases rs <;> simp [restingOrders]

theorem restingOrders_cons (k : Int) (orders : List Order) (rest : Book) :
    restingOrders ((k, orders) :: rest) = orders ++ restingOrders rest := rfl

theorem mem_restingOrders {book : Book} {o : Order} :
    o ∈ restingOrders book ↔ ∃ l ∈ book, o ∈ l.2 := by
  induction book with
  | nil => simp [restingOrders]
  | cons l rest ih => simp [restingOrders, ih]

theorem front_id_fresh {r : Order} {tail own : List Order}
    (h : (((r :: tail) ++ own).map Order.order_id).Nodup) {o : Order}
    (ho : o ∈ tail ∨ o ∈ own) : o.order_id ≠ r.order_id := by
  simp only [List.cons_append, List.map_cons, List.nodup_cons, List.mem_map, List.mem_append,
    not_exists, not_and] at h
  exact fun e => h.1 o ho e

theorem stepSpec_inv {own : List Order} {st st1 : LoopState} (hinv : LoopInv own st)
    (h : StepSpec st st1) : LoopInv own st1 := by
  cases h with
  | restingFilled k r rs rest m a out ha hc hr =>
    obtain ⟨hb, hn, hi, hq⟩ := hinv
    simp only [restingOrders] at hn hi
    simp only at hb hq
    have hfresh : ∀ o, (o ∈ rs ++ restingOrders rest ∨ o ∈ own) → o.order_id ≠ r.order_id :=
      fun o ho => front_id_fresh (by simpa using hn) ho
    refine ⟨?_, ?_, ?_, ?_⟩
    · simp only
      cases rs with
      | nil =>
        simp only [List.isEmpty_nil, if_true]
        exact ⟨(List.pairwise_cons.mp hb.sorted).2,
          fun l hl => hb.nonempty l (List.mem_cons_of_mem _ hl),
          fun l hl => hb.orders l (List.mem_cons_of_mem _ hl)⟩
      | cons r2 rs2 =>
        simp only [List.isEmpty_cons, Bool.false_eq_true, if_false]
        refine ⟨?_, ?_, ?_⟩
        · have := hb.sorted
          rw [List.pairwise_cons] at this ⊢
          exact this
        · intro l hl
          rcases List.mem_cons.mp hl with rfl | hl
          · simp
          · exact hb.nonempty l (List.mem_cons_of_mem _ hl)
        · intro l hl o ho
          rcases List.mem_cons.mp hl with rfl | hl
          · exact hb.orders (k, r :: r2 :: rs2) (by simp) o (List.mem_cons_of_mem _ ho)
          · exact hb.orders l (List.mem_cons_of_mem _ hl) o ho
    · simp only [restingOrders_popFront]
      simp only [List.cons_append, List.map_cons, List.nodup_cons] at hn
      exact hn.2
    · intro id o
      simp only [restingOrders_popFront, eraseOrder]
      constructor
      · intro h
        split at h
        · exact absurd h (by simp)
        · rename_i hne
          obtain ⟨hid, hmem⟩ := (hi id o).mp h
          refine ⟨hid, ?_⟩
          rcases hmem with hmem | hmem
          · rcases List.mem_append.mp hmem with hmem | hmem
            · rcases List.mem_cons.mp hmem with rfl | hmem
              · exact absurd hid.symm hne
              · exact Or.inl (List.mem_append.mpr (Or.inl hmem))
            · exact Or.inl (List.mem_append.mpr (Or.inr hmem))
          · exact Or.inr hmem
      · rintro ⟨hid, hmem⟩
        have hne : id ≠ r.order_id := hid ▸ hfresh o hmem
        rw [if_neg hne]
        refine (hi id o).mpr ⟨hid, ?_⟩
        rcases hmem with hmem | hmem
        · left
          rcases List.mem_append.mp hmem with hmem | hmem
          · exact List.mem_append.mpr (Or.inl (List.mem_cons_of_mem _ hmem))
          · exact List.mem_append.mpr (Or.inr hmem)
        · exact Or.inr hmem
    · simp only
      omega
  | restingReduced k r rs rest m a out ha hc hr =>
    obtain ⟨hb, hn, hi, hq⟩ := hinv
    simp only [restingOrders] at hn hi
    simp only at hb hq
    have hfresh : ∀ o, (o ∈ rs ++ restingOrders rest ∨ o ∈ own) → o.order_id ≠ r.order_id :=
      fun o ho => front_id_fresh (by simpa using hn) ho
    have hrk := hb.orders (k, r :: rs) (by simp) r (by simp)
    have hmr : m r.order_id = some r := (hi r.order_id r).mpr ⟨rfl, Or.inl (by simp)⟩
    refine ⟨?_, ?_, ?_, ?_⟩
    · refine ⟨?_, ?_, ?_⟩
      · have := hb.sorted
        rw [List.pairwise_cons] at this ⊢
        exact this
      · intro l hl
        rcases List.mem_cons.mp hl with rfl | hl
        · simp
        · exact hb.nonempty l (List.mem_cons_of_mem _ hl)
      · intro l hl o ho
        rcases List.mem_cons.mp hl with rfl | hl
        · rcases List.mem_cons.mp ho with rfl | ho
          · refine ⟨hrk.1, hrk.2.1, ?_, ?_⟩ <;> simp only <;> omega
          · exact hb.orders (k, r :: rs) (by simp) o (List.mem_cons_of_mem _ ho)
        · exact hb.orders l (List.mem_cons_of_mem _ hl) o ho
    · simpa [restingOrders] using hn
    · intro id o
      simp only [restingOrders, setQuantity, hmr]
      by_cases hid : id = r.order_id
      · subst hid
        simp only [if_true, Option.some.injEq]
        constructor
        · intro h
          subst h
          exact ⟨rfl, Or.inl (by simp)⟩
        · rintro ⟨hid, hmem⟩
          rcases hmem with hmem | hmem
          · rcases List.mem_append.mp hmem with hmem | hmem
            · rcases List.mem_cons.mp hmem with rfl | hmem
              · rfl
              · exact absurd hid (hfresh o (Or.inl (List.mem_append.mpr (Or.inl hmem))))
            · exact absurd hid (hfresh o (Or.inl (List.mem_append.mpr (Or.inr hmem))))
          · exact absurd hid (hfresh o (Or.inr hmem))
      · rw [if_neg hid, hi id o]
        constructor
        · rintro ⟨ho, hmem⟩
          refine ⟨ho, ?_⟩
          rcases hmem with hmem | hmem
          · rcases List.mem_append.mp hmem with hmem | hmem
            · rcases List.mem_cons.mp hmem with rfl | hmem
              · exact absurd ho.symm hid
              · exact Or.inl (List.mem_append.mpr (Or.inl (List.mem_cons_of_mem _ hmem)))
            · exact Or.inl (List.mem_append.mpr (Or.inr hmem))
          · exact Or.inr hmem
        · rintro ⟨ho, hmem⟩
          refine ⟨ho, ?_⟩
          rcases hmem with hmem | hmem
          · rcases List.mem_append.mp hmem with hmem | hmem
            · rcases List.mem_cons.mp hmem with rfl | hmem
              · exact absurd ho.symm hid
              · exact Or.inl (List.mem_append.mpr (Or.inl (List.mem_cons_of_mem _ hmem)))
            · exact Or.inl (List.mem_append.mpr (Or.inr hmem))
          · exact Or.inr hmem
    · simp only [UINT64_MOD]
      omega

/-- Induction along the iterations of the loop. -/
theorem matchLoop_rel {own : List Order} (P : LoopState → LoopState → Prop)
    (hrefl : ∀ st, LoopInv own st → P st st)
    (hstep : ∀ st st1 st2, LoopInv own st → StepSpec st st1 → LoopInv own st1 →
      P st1 st2 → P st st2) :
    ∀ (n : Nat) (st : LoopState), LoopInv own st → P st (matchLoop n st) := by
  intro n
  induction n with
  | zero => intro st hinv; exact hrefl st hinv
  | succ n ih =>
    intro st hinv
    unfold matchLoop
    cases h : matchStep st with
    | none => exact hrefl st hinv
    | some st1 =>
      have hs := matchStep_spec hinv h
      exact hstep st st1 _ hinv hs (stepSpec_inv hinv hs) (ih st1 (stepSpec_inv hinv hs))

theorem matchLoop_inv {own : List Order} (n : Nat) (st : LoopState) (hinv : LoopInv own st) :
    LoopInv own (matchLoop n st) :=
  matchLoop_rel (fun _ st2 => LoopInv own st2) (fun _ h => h) (fun _ _ _ _ _ _ h => h) n st hinv

/-- An iteration changes only the quantity of the aggressive order. -/
theorem matchStep_aggressive {st st1 : LoopState} (h : matchStep st = some st1) :
    st1.aggressive_order.order_id = st.aggressive_order.order_id ∧
    st1.aggressive_order.price = st.aggressive_order.price ∧
    st1.aggressive_order.side = st.aggressive_order.side := by
  unfold matchStep at h
  simp only at h
  split at h
  · split at h
    · exact absurd h (by simp)
    · split at h
      · split at h
        · simp only [Option.some.injEq] at h
          subst h
          exact ⟨rfl, rfl, rfl⟩
        · split at h <;> simp only [Option.some.injEq] at h <;> subst h <;> exact ⟨rfl, rfl, rfl⟩
      · exact absurd h (by simp)
  · exact absurd h (by simp)

/-- The loop changes only the quantity of the aggressive order. -/
theorem matchLoop_aggressive (n : Nat) (st : LoopState) :
    (matchLoop n st).aggressive_order.order_id = st.aggressive_order.order_id ∧
    (matchLoop n st).aggressive_order.price = st.aggressive_order.price ∧
    (matchLoop n st).aggressive_order.side = st.aggressive_order.side := by
  induction n generalizing st with
  | zero => exact ⟨rfl, rfl, rfl⟩
  | succ n ih =>
    unfold matchLoop
    cases h : matchStep st with
    | none => exact ⟨rfl, rfl, rfl⟩
    | some st1 =>
      have h1 := matchStep_aggressive h
      have h2 := ih st1
      exact ⟨h2.1.trans h1.1, h2.2.1.trans h1.2.1, h2.2.2.trans h1.2.2⟩

theorem totalQuantity_append (l1 l2 : List Order) :
    totalQuantity (l1 ++ l2) = totalQuantity l1 + totalQuantity l2 := by
  induction l1 with
  | nil => simp [totalQuantity]
  | cons o l ih => simp [totalQuantity, ih, Nat.add_assoc]

theorem tradedQuantity_append (l1 l2 : List Event) :
    tradedQuantity (l1 ++ l2) = tradedQuantity l1 + tradedQuantity l2 := by
  induction l1 with
  | nil => simp [tradedQuantity]
  | cons ev l ih => cases ev <;> simp [tradedQuantity, ih, Nat.add_assoc]

/-- Each iteration moves the traded quantity out of the aggressive order and out of the
opposite book. -/
theorem stepSpec_conservation {st st1 : LoopState} (h : StepSpec st st1) :
    tradedQuantity st1.out + st1.aggressive_order.quantity =
      tradedQuantity st.out + st.aggressive_order.quantity ∧
    tradedQuantity st1.out + totalQuantity (restingOrders st1.opposite_book) =
      tradedQuantity st.out + totalQuantity (restingOrders st.opposite_book) := by
  cases h with
  | restingFilled k r rs rest m a out ha hc hr =>
    simp only [restingOrders_popFront, restingOrders_cons, tradedQuantity_append,
      totalQuantity_append, List.cons_append, totalQuantity, List.append_eq]
    constructor
    · split <;> simp only [tradedQuantity] <;> omega
    · split <;> simp only [tradedQuantity] <;> omega
  | restingReduced k r rs rest m a out ha hc hr =>
    simp only [restingOrders_cons, tradedQuantity_append, totalQuantity_append,
      List.cons_append, totalQuantity, tradedQuantity, List.append_eq]
    omega

theorem matchLoop_conservation {own : List Order} (n : Nat) (st : LoopState)
    (hinv : LoopInv own st) :
    tradedQuantity (matchLoop n st).out + (matchLoop n st).aggressive_order.quantity =
      tradedQuantity st.out + st.aggressive_order.quantity ∧
    tradedQuantity (matchLoop n st).out +
        totalQuantity (restingOrders (matchLoop n st).opposite_book) =
      tradedQuantity st.out + totalQuantity (restingOrders st.opposite_book) := by
  refine matchLoop_rel
    (fun st st2 =>
      tradedQuantity st2.out + st2.aggressive_order.quantity =
        tradedQuantity st.out + st.aggressive_order.quantity ∧
      tradedQuantity st2.out + totalQuantity (restingOrders st2.opposite_book) =
        tradedQuantity st.out + totalQuantity (restingOrders st.opposite_book))
    (fun _ _ => ⟨rfl, rfl⟩) ?_ n st hinv
  intro st st1 st2 _ hs _ h
  have hc := stepSpec_conservation hs
  exact ⟨h.1.trans hc.1, h.2.trans hc.2⟩

theorem stepSpec_measure_lt {st st1 : LoopState} (h : StepSpec st st1) :
    loopMeasure st1 < loopMeasure st := by
  cases h with
  | restingFilled k r rs rest m a out ha hc hr =>
    simp only [loopMeasure, restingOrders_popFront, restingOrders_cons, List.length_append,
      List.length_cons, if_pos ha]
    have h1 : (if rs.isEmpty = true then rest else (k, rs) :: rest).length ≤ rest.length + 1 := by
      split <;> simp
    have h2 : (if a.quantity - r.quantity > 0 then 1 else 0) ≤ 1 := by
      split <;> omega
    omega
  | restingReduced k r rs rest m a out ha hc hr =>
    simp [loopMeasure, restingOrders_cons, if_pos ha]

/-- The loop is left within `loopMeasure` iterations. -/
theorem matchLoop_exit_of_measure {own : List Order} :
    ∀ (n : Nat) (st : LoopState), LoopInv own st → loopMeasure st ≤ n →
      matchStep (matchLoop n st) = none := by
  intro n
  induction n with
  | zero =>
    intro st _ hm
    have h0 : ¬ st.aggressive_order.quantity > 0 := by
      intro h
      simp only [loopMeasure, if_pos h] at hm
      omega
    simp [matchLoop, matchStep, h0]
  | succ n ih =>
    intro st hinv hm
    unfold matchLoop
    cases h : matchStep st with
    | none => simpa using h
    | some st1 =>
      have hs := matchStep_spec hinv h
      have := stepSpec_measure_lt hs
      exact ih st1 (stepSpec_inv hinv hs) (by omega)

/-- Termination: with `loopBound` iterations allowed, the loop of `matchOrder` is left by its
own condition or `break`, not by the iteration limit. -/
theorem matchLoop_exit {own : List Order} (st : LoopState) (hinv : LoopInv own st) (n : Nat)
    (hn : loopBound st.opposite_book ≤ n) : matchStep (matchLoop n st) = none := by
  apply matchLoop_exit_of_measure n st hinv
  simp only [loopMeasure, loopBound] at *
  split <;> omega

/-- Once the loop is left, more iterations change nothing. -/
theorem matchLoop_stable :
    ∀ (n : Nat) (st : LoopState), matchStep (matchLoop n st) = none →
      ∀ k, matchLoop (n + k) st = matchLoop n st := by
  intro n
  induction n with
  | zero =>
    intro st h k
    simp only [matchLoop] at h
    cases k with
    | zero => rfl
    | succ k => simp [matchLoop, h]
  | succ n ih =>
    intro st h k
    have e : n + 1 + k = (n + k) + 1 := by omega
    rw [e]
    unfold matchLoop at h ⊢
    cases hs : matchStep st with
    | none => rfl
    | some st1 =>
      simp only [hs] at h ⊢
      exact ih st1 h k

theorem matchLoop_consumed {own : List Order} (n : Nat) (st : LoopState)
    (hinv : LoopInv own st) : Consumed st (matchLoop n st) := by
  refine matchLoop_rel Consumed ?_ ?_ n st hinv
  · intro st _
    exact ⟨fun _ => rfl, fun _ h => h, [], by simp, Or.inl (by simp)⟩
  · intro st st1 st2 _ hs _ h
    obtain ⟨hzero, hout, filled, hfilled, hcases⟩ := h
    cases hs with
    | restingFilled k r rs rest m a out ha hc hr =>
      simp only [restingOrders_popFront] at hcases
      simp only at hout hzero
      refine ⟨fun h0 => absurd h0 (by simp only; omega), ?_, r :: filled, ?_, ?_⟩
      · intro ev hev
        exact hout ev (List.mem_append.mpr (Or.inl hev))
      · intro y hy
        rcases List.mem_cons.mp hy with rfl | hy
        · exact hout _ (by simp)
        · exact hfilled y hy
      · simp only [restingOrders_cons]
        rcases hcases with h | ⟨r2, tail, q, h1, h2, h3, h4⟩
        · left
          simp only [List.cons_append, h]
        · right
          refine ⟨r2, tail, q, ?_, h2, h3, h4⟩
          simp only [List.cons_append, h1]
    | restingReduced k r rs rest m a out ha hc hr =>
      have hst2 := hzero rfl
      subst hst2
      refine ⟨fun h0 => absurd h0 (by simp only; omega), ?_, [], by simp, ?_⟩
      · intro ev hev
        exact List.mem_append.mpr (Or.inl hev)
      · right
        exact ⟨r, rs ++ restingOrders rest, r.quantity - a.quantity,
          by simp [restingOrders_cons], by simp [restingOrders_cons], by omega, by omega⟩

theorem cmpOf_irrefl (side : Side) (a : Int) : cmpOf side a a = false := by
  cases side <;> simp [cmpOf, buyCmp, sellCmp]

theorem cmpOf_total (side : Side) {a b : Int} (hne : a ≠ b) (h : ¬ cmpOf side b a = true) :
    cmpOf side a b = true := by
  cases side <;> simp only [cmpOf, buyCmp, sellCmp, decide_eq_true_eq] at * <;> omega

theorem cmpOf_asymm (side : Side) {a b : Int} (h : cmpOf side a b = true) :
    ¬ cmpOf side b a = true := by
  cases side <;> simp only [cmpOf, buyCmp, sellCmp, decide_eq_true_eq] at * <;> omega

theorem mem_pushBack {cmp : Int → Int → Bool} {book : Book} {o : Order} {l : Level}
    (h : l ∈ pushBack cmp book o) :
    l ∈ book ∨ l = (o.price, [o]) ∨ ∃ os, (o.price, os) ∈ book ∧ l = (o.price, os ++ [o]) := by
  induction book with
  | nil =>
    simp only [pushBack, List.mem_singleton] at h
    exact Or.inr (Or.inl h)
  | cons hd rest ih =>
    obtain ⟨k, os⟩ := hd
    unfold pushBack at h
    split at h
    · rename_i hk
      rcases List.mem_cons.mp h with rfl | h
      · exact Or.inr (Or.inr ⟨os, by simp [hk], by simp [hk]⟩)
      · exact Or.inl (List.mem_cons_of_mem _ h)
    · split at h
      · rcases List.mem_cons.mp h with rfl | h
        · exact Or.inr (Or.inl rfl)
        · exact Or.inl h
      · rcases List.mem_cons.mp h with rfl | h
        · exact Or.inl (by simp)
        · rcases ih h with h | h | ⟨os2, h1, h2⟩
          · exact Or.inl (List.mem_cons_of_mem _ h)
          · exact Or.inr (Or.inl h)
          · exact Or.inr (Or.inr ⟨os2, List.mem_cons_of_mem _ h1, h2⟩)

theorem pushBack_perm (cmp : Int → Int → Bool) (book : Book) (o : Order) :
    (restingOrders (pushBack cmp book o)).Perm (restingOrders book ++ [o]) := by
  induction book with
  | nil => simp [pushBack, restingOrders]
  | cons hd rest ih =>
    obtain ⟨k, os⟩ := hd
    unfold pushBack
    split
    · simp only [restingOrders_cons, List.append_assoc]
      exact List.Perm.append_left os List.perm_append_comm
    · split
      · simp only [restingOrders_cons]
        exact List.perm_append_comm
      · simp only [restingOrders_cons, List.append_assoc]
        exact List.Perm.append_left os ih

theorem mem_restingOrders_pushBack {cmp : Int → Int → Bool} {book : Book} {o o2 : Order} :
    o2 ∈ restingOrders (pushBack cmp book o) ↔ o2 ∈ restingOrders book ∨ o2 = o := by
  rw [(pushBack_perm cmp book o).mem_iff]
  simp

theorem pushBack_sorted (side : Side) (book : Book) (o : Order)
    (h : book.Pairwise (fun l1 l2 => cmpOf side l1.1 l2.1 = true)) :
    (pushBack (cmpOf side) book o).Pairwise (fun l1 l2 => cmpOf side l1.1 l2.1 = true) := by
  induction book with
  | nil => simp [pushBack]
  | cons hd rest ih =>
    obtain ⟨k, os⟩ := hd
    rw [List.pairwise_cons] at h
    unfold pushBack
    split
    · rw [List.pairwise_cons]
      exact h
    · rename_i hk
      split
      · rename_i hc
        rw [List.pairwise_cons]
        refine ⟨?_, List.pairwise_cons.mpr h⟩
        intro l hl
        rcases List.mem_cons.mp hl with rfl | hl
        · exact hc
        · have := h.1 l hl
          cases side <;> simp only [cmpOf, buyCmp, sellCmp, decide_eq_true_eq] at * <;> omega
      · rename_i hc
        rw [List.pairwise_cons]
        refine ⟨?_, ih h.2⟩
        intro l hl
        rcases mem_pushBack hl with hl | rfl | ⟨os2, -, rfl⟩
        · exact h.1 l hl
        · exact cmpOf_total side hk hc
        · exact cmpOf_total side hk hc

theorem pushBack_ok {side : Side} {book : Book} {o : Order} (h : BookOK side book)
    (hs : o.side = side) (h0 : 0 < o.quantity) (hM : o.quantity < UINT64_MOD) :
    BookOK side (pushBack (cmpOf side) book o) := by
  refine ⟨pushBack_sorted side book o h.sorted, ?_, ?_⟩
  · intro l hl
    rcases mem_pushBack hl with hl | rfl | ⟨os2, -, rfl⟩
    · exact h.nonempty l hl
    · simp
    · simp
  · intro l hl o2 ho2
    rcases mem_pushBack hl with hl | rfl | ⟨os2, hos2, rfl⟩
    · exact h.orders l hl o2 ho2
    · simp only [List.mem_singleton] at ho2
      subst ho2
      exact ⟨rfl, hs, h0, hM⟩
    · rcases List.mem_append.mp ho2 with ho2 | ho2
      · exact h.orders _ hos2 o2 ho2
      · simp only [List.mem_singleton] at ho2
        subst ho2
        exact ⟨rfl, hs, h0, hM⟩

theorem mem_cancelInBook {book : Book} {price : Int} {id : Nat} {l : Level}
    (h : l ∈ cancelInBook book price id) :
    l ∈ book ∨ (l.2 ≠ [] ∧ ∃ os, (l.1, os) ∈ book ∧ l.2 = removeById os id) := by
  induction book with
  | nil => simp [cancelInBook] at h
  | cons hd rest ih =>
    obtain ⟨k, os⟩ := hd
    unfold cancelInBook at h
    split at h
    · split at h
      · exact Or.inl (List.mem_cons_of_mem _ h)
      · rename_i hne
        rcases List.mem_cons.mp h with rfl | h
        · refine Or.inr ⟨?_, os, by simp, rfl⟩
          simpa [List.isEmpty_iff] using hne
        · exact Or.inl (List.mem_cons_of_mem _ h)
    · rcases List.mem_cons.mp h with rfl | h
      · exact Or.inl (by simp)
      · rcases ih h with h | ⟨h1, os2, h2, h3⟩
        · exact Or.inl (List.mem_cons_of_mem _ h)
        · exact Or.inr ⟨h1, os2, List.mem_cons_of_mem _ h2, h3⟩

theorem cancelInBook_key {book : Book} {price : Int} {id : Nat} {l : Level}
    (h : l ∈ cancelInBook book price id) : ∃ l0 ∈ book, l0.1 = l.1 := by
  rcases mem_cancelInBook h with h | ⟨-, os, h, -⟩
  · exact ⟨l, h, rfl⟩
  · exact ⟨_, h, rfl⟩

theorem cancelInBook_sorted (side : Side) (book : Book) (price : Int) (id : Nat)
    (h : book.Pairwise (fun l1 l2 => cmpOf side l1.1 l2.1 = true)) :
    (cancelInBook book price id).Pairwise (fun l1 l2 => cmpOf side l1.1 l2.1 = true) := by
  induction book with
  | nil => simp [cancelInBook]
  | cons hd rest ih =>
    obtain ⟨k, os⟩ := hd
    rw [List.pairwise_cons] at h
    unfold cancelInBook
    split
    · split
      · exact h.2
      · rw [List.pairwise_cons]
        exact h
    · rw [List.pairwise_cons]
      refine ⟨?_, ih h.2⟩
      intro l hl
      obtain ⟨l0, hl0, hk⟩ := cancelInBook_key hl
      have := h.1 l0 hl0
      rw [hk] at this
      exact this

theorem cancelInBook_ok {side : Side} {book : Book} (price : Int) (id : Nat)
    (h : BookOK side book) : BookOK side (cancelInBook book price id) := by
  refine ⟨cancelInBook_sorted side book price id h.sorted, ?_, ?_⟩
  · intro l hl
    rcases mem_cancelInBook hl with hl | ⟨hne, -⟩
    · exact h.nonempty l hl
    · exact hne
  · intro l hl o ho
    rcases mem_cancelInBook hl with hl | ⟨-, os, hos, heq⟩
    · exact h.orders l hl o ho
    · rw [heq] at ho
      exact h.orders _ hos o (List.mem_of_mem_filter ho)

/-- Cancelling filters the id out of the iteration order of the book, when the id only occurs
at the given price. -/
theorem restingOrders_cancelInBook {side : Side} {book : Book} (price : Int) (id : Nat)
    (h : BookOK side book)
    (hp : ∀ o ∈ restingOrders book, o.order_id = id → o.price = price) :
    restingOrders (cancelInBook book price id) = removeById (restingOrders book) id := by
  induction book with
  | nil => simp [cancelInBook, restingOrders, removeById]
  | cons hd rest ih =>
    obtain ⟨k, os⟩ := hd
    have hrest : BookOK side rest :=
      ⟨(List.pairwise_cons.mp h.sorted).2, fun l hl => h.nonempty l (List.mem_cons_of_mem _ hl),
        fun l hl => h.orders l (List.mem_cons_of_mem _ hl)⟩
    have hprest : ∀ o ∈ restingOrders rest, o.order_id = id → o.price = price :=
      fun o ho => hp o (by simp [restingOrders_cons, ho])
    unfold cancelInBook
    split
    · rename_i hk
      have hnone : removeById (restingOrders rest) id = restingOrders rest := by
        unfold removeById
        rw [List.filter_eq_self]
        intro o ho
        simp only [decide_eq_true_eq]
        intro hid
        obtain ⟨l, hl, hol⟩ := mem_restingOrders.mp ho
        have h1 := (h.orders l (List.mem_cons_of_mem _ hl) o hol).1
        have h2 := hprest o ho hid
        have h3 := (List.pairwise_cons.mp h.sorted).1 l hl
        simp only at h3
        rw [← h1, h2, hk, cmpOf_irrefl] at h3
        exact absurd h3 (by simp)
      split
      · rename_i he
        simp only [restingOrders_cons]
        rw [List.isEmpty_iff] at he
        simp only [removeById] at he hnone ⊢
        rw [List.filter_append, he, hnone]
        simp
      · simp only [restingOrders_cons]
        simp only [removeById] at hnone ⊢
        rw [List.filter_append, hnone]
    · rename_i hk
      simp only [restingOrders_cons]
      rw [ih hrest hprest]
      have hos : removeById os id = os := by
        unfold removeById
        rw [List.filter_eq_self]
        intro o ho
        simp only [decide_eq_true_eq]
        intro hid
        have h1 := (h.orders (k, os) (by simp) o ho).1
        have h2 := hp o (by simp [restingOrders_cons, ho]) hid
        exact hk (h1.symm.trans h2)
      simp only [removeById] at hos ⊢
      rw [List.filter_append, hos]

theorem nodup_ids_comm {l1 l2 : List Order}
    (h : ((l1 ++ l2).map Order.order_id).Nodup) : ((l2 ++ l1).map Order.order_id).Nodup :=
  (List.Perm.nodup_iff (List.Perm.map _ List.perm_append_comm)).mp h

theorem sideInv_swap {side : Side} {own opp : Book} {m : Nat → Option Order}
    (h : SideInv side own opp m) : SideInv side.opposite opp own m := by
  refine ⟨h.oppOK, ?_, nodup_ids_comm h.nodup, ?_, ?_⟩
  · cases side <;> exact h.ownOK
  · intro id o
    rw [h.index id o]
    constructor <;> rintro ⟨h1, h2⟩ <;> exact ⟨h1, h2.symm⟩
  · intro l hl l2 hl2
    have := h.uncrossed l2 hl2 l hl
    cases side <;> exact this

theorem inv_iff_side (e : Engine) (side : Side) :
    Inv e ↔ SideInv side (e.bookOf side) (e.bookOf side.opposite) e.m_orderMap := by
  cases side
  · exact Iff.rfl
  · exact ⟨fun h => sideInv_swap h, fun h => sideInv_swap h⟩

theorem inv_empty : Inv Engine.empty := by
  refine ⟨⟨?_, ?_, ?_⟩, ⟨?_, ?_, ?_⟩, ?_, ?_, ?_⟩ <;> simp [Engine.empty, restingOrders]

/-- An id without index entry is the id of no stored order. -/
theorem sideInv_fresh {side : Side} {own opp : Book} {m : Nat → Option Order}
    (h : SideInv side own opp m) {id : Nat} (hid : m id = none) {o : Order}
    (ho : o ∈ restingOrders opp ∨ o ∈ restingOrders own) : o.order_id ≠ id := by
  intro e
  have := (h.index id o).mpr ⟨e, ho⟩
  rw [hid] at this
  exact absurd this (by simp)

theorem loopInv_start {e : Engine} (hinv : Inv e) (a : Order) (hq : a.quantity < UINT64_MOD) :
    LoopInv (restingOrders (e.bookOf a.side)) (loopStart e a) := by
  have h := (inv_iff_side e a.side).mp hinv
  exact ⟨h.oppOK, h.nodup, h.index, hq⟩

theorem loopInv_result {e : Engine} (hinv : Inv e) (a : Order) (hq : a.quantity < UINT64_MOD) :
    LoopInv (restingOrders (e.bookOf a.side)) (loopResult e a) :=
  matchLoop_inv _ _ (loopInv_start hinv a hq)

theorem matchOrder_buy (e : Engine) (id q : Nat) (p : Int) :
    matchOrder e ⟨id, q, p, Side.Buy⟩ =
      ({ e with m_sellOrderBook := (loopResult e ⟨id, q, p, Side.Buy⟩).opposite_book
                m_orderMap := (loopResult e ⟨id, q, p, Side.Buy⟩).m_orderMap },
        (loopResult e ⟨id, q, p, Side.Buy⟩).aggressive_order,
        (loopResult e ⟨id, q, p, Side.Buy⟩).out) := rfl

theorem matchOrder_sell (e : Engine) (id q : Nat) (p : Int) :
    matchOrder e ⟨id, q, p, Side.Sell⟩ =
      ({ e with m_buyOrderBook := (loopResult e ⟨id, q, p, Side.Sell⟩).opposite_book
                m_orderMap := (loopResult e ⟨id, q, p, Side.Sell⟩).m_orderMap },
        (loopResult e ⟨id, q, p, Side.Sell⟩).aggressive_order,
        (loopResult e ⟨id, q, p, Side.Sell⟩).out) := rfl

/-- The engine and the logged lines after `addOrder` of an id that has no index entry, in terms
of the loop variables at the exit of the match loop. -/
theorem addOrder_fresh (e : Engine) (id q : Nat) (p : Int) (side : Side)
    (hid : e.m_orderMap id = none) :
    (addOrder e id q p side).out = (loopResult e ⟨id, q, p, side⟩).out ∧
    (addOrder e id q p side).err = [] ∧
    (addOrder e id q p side).engine.bookOf side.opposite =
      (loopResult e ⟨id, q, p, side⟩).opposite_book ∧
    (addOrder e id q p side).engine.bookOf side =
      (if (loopResult e ⟨id, q, p, side⟩).aggressive_order.quantity > 0 then
        pushBack (cmpOf side) (e.bookOf side) (loopResult e ⟨id, q, p, side⟩).aggressive_order
      else e.bookOf side) ∧
    (addOrder e id q p side).engine.m_orderMap =
      (if (loopResult e ⟨id, q, p, side⟩).aggressive_order.quantity > 0 then
        insertOrder (loopResult e ⟨id, q, p, side⟩).m_orderMap
          (loopResult e ⟨id, q, p, side⟩).aggressive_order
      else (loopResult e ⟨id, q, p, side⟩).m_orderMap) := by
  have hs := (matchLoop_aggressive (loopBound (e.bookOf side.opposite))
    (loopStart e ⟨id, q, p, side⟩)).2.2
  cases side
  · have hs2 : (loopResult e ⟨id, q, p, Side.Buy⟩).aggressive_order.side = Side.Buy := hs
    simp only [addOrder, hid, Option.isSome_none, Bool.false_eq_true, if_false]
    rw [matchOrder_buy]
    simp only
    split <;> simp [addToBook, hs2, Engine.bookOf, Side.opposite, cmpOf]
  · have hs2 : (loopResult e ⟨id, q, p, Side.Sell⟩).aggressive_order.side = Side.Sell := hs
    simp only [addOrder, hid, Option.isSome_none, Bool.false_eq_true, if_false]
    rw [matchOrder_sell]
    simp only
    split <;> simp [addToBook, hs2, Engine.bookOf, Side.opposite, cmpOf]

theorem consumed_orders {st st2 : LoopState} (h : Consumed st st2) {o2 : Order}
    (ho : o2 ∈ restingOrders st2.opposite_book) :
    ∃ o ∈ restingOrders st.opposite_book, o.order_id = o2.order_id ∧ o.price = o2.price := by
  obtain ⟨-, -, filled, -, h | ⟨r, tail, q, h1, h2, -, -⟩⟩ := h
  · exact ⟨o2, by rw [h]; exact List.mem_append.mpr (Or.inr ho), rfl, rfl⟩
  · rw [h2] at ho
    rcases List.mem_cons.mp ho with rfl | ho
    · exact ⟨r, by rw [h1]; simp, rfl, rfl⟩
    · exact ⟨o2, by rw [h1]; simp [ho], rfl, rfl⟩

/-- The loop creates no price level. -/
theorem consumed_keys {side : Side} {st st2 : LoopState} (h : Consumed st st2)
    (hb : BookOK side st.opposite_book) (hb2 : BookOK side st2.opposite_book) {l2 : Level}
    (hl : l2 ∈ st2.opposite_book) : ∃ l ∈ st.opposite_book, l.1 = l2.1 := by
  obtain ⟨o2, ho2⟩ := List.exists_mem_of_ne_nil _ (hb2.nonempty l2 hl)
  have hp2 := (hb2.orders l2 hl o2 ho2).1
  obtain ⟨o, ho, -, hp⟩ := consumed_orders h (mem_restingOrders.mpr ⟨l2, hl, ho2⟩)
  obtain ⟨l, hl1, hol⟩ := mem_restingOrders.mp ho
  exact ⟨l, hl1, by rw [← (hb.orders l hl1 o hol).1, hp, hp2]⟩

/-- When the loop is left with quantity remaining, the limit price crosses no level of the
opposite book. -/
theorem exit_noCross {st : LoopState} (hexit : matchStep st = none)
    (hq : 0 < st.aggressive_order.quantity)
    (hb : BookOK st.aggressive_order.side.opposite st.opposite_book) {l : Level}
    (hl : l ∈ st.opposite_book) : noCross st.aggressive_order.side st.aggressive_order.price l.1 := by
  obtain ⟨book, m, a, out⟩ := st
  simp only at hq hb hl ⊢
  unfold matchStep at hexit
  simp only [hq, gt_iff_lt, if_true] at hexit
  cases book with
  | nil => simp at hl
  | cons hd rest =>
    obtain ⟨k, os⟩ := hd
    simp only at hexit
    have hc : ¬ canMatch a k = true := by
      intro hc
      rw [if_pos hc] at hexit
      cases os with
      | nil => simp at hexit
      | cons r rs =>
        simp only at hexit
        split at hexit <;> exact absurd hexit (by simp)
    have hs := (List.pairwise_cons.mp hb.sorted).1
    rcases List.mem_cons.mp hl with rfl | hl
    · revert hc
      unfold canMatch noCross
      cases a.side <;> simp
    · have h2 := hs l hl
      revert hc h2
      unfold canMatch noCross
      cases a.side <;> simp [Side.opposite, cmpOf, buyCmp, sellCmp] <;> omega

/-- `addOrder` keeps the engine invariant. -/
theorem inv_addOrder {e : Engine} (hinv : Inv e) (id q : Nat) (p : Int) (side : Side)
    (hq : q < UINT64_MOD) : Inv (addOrder e id q p side).engine := by
  cases hid : e.m_orderMap id with
  | some o =>
    simp only [addOrder, hid, Option.isSome_some, if_true]
    exact hinv
  | none =>
    obtain ⟨-, -, hopp, hown, hmap⟩ := addOrder_fresh e id q p side hid
    have hS := (inv_iff_side e side).mp hinv
    have hstart := loopInv_start hinv ⟨id, q, p, side⟩ hq
    have hL : LoopInv (restingOrders (e.bookOf side)) (loopResult e ⟨id, q, p, side⟩) :=
      loopInv_result hinv ⟨id, q, p, side⟩ hq
    have hC : Consumed (loopStart e ⟨id, q, p, side⟩) (loopResult e ⟨id, q, p, side⟩) :=
      matchLoop_consumed _ _ hstart
    have hE : matchStep (loopResult e ⟨id, q, p, side⟩) = none :=
      matchLoop_exit _ hstart _ (Nat.le_refl _)
    obtain ⟨hAid, hAp, hAs⟩ := matchLoop_aggressive (loopBound (e.bookOf side.opposite))
      (loopStart e ⟨id, q, p, side⟩)
    change (loopResult e ⟨id, q, p, side⟩).aggressive_order.order_id = id at hAid
    change (loopResult e ⟨id, q, p, side⟩).aggressive_order.price = p at hAp
    change (loopResult e ⟨id, q, p, side⟩).aggressive_order.side = side at hAs
    have hLb : BookOK side.opposite (loopResult e ⟨id, q, p, side⟩).opposite_book := by
      have := hL.book
      rwa [hAs] at this
    have hkeys : ∀ l2 ∈ (loopResult e ⟨id, q, p, side⟩).opposite_book,
        ∃ l ∈ e.bookOf side.opposite, l.1 = l2.1 :=
      fun l2 hl2 => consumed_keys hC hS.oppOK hLb hl2
    have hfresh2 : ∀ o, (o ∈ restingOrders (loopResult e ⟨id, q, p, side⟩).opposite_book ∨
        o ∈ restingOrders (e.bookOf side)) → o.order_id ≠ id := by
      intro o ho
      rcases ho with ho | ho
      · obtain ⟨o0, ho0, hid0, -⟩ := consumed_orders hC ho
        rw [← hid0]
        exact sideInv_fresh hS hid (Or.inl ho0)
      · exact sideInv_fresh hS hid (Or.inr ho)
    rw [inv_iff_side _ side, hopp, hown, hmap]
    generalize loopResult e ⟨id, q, p, side⟩ = st at *
    obtain ⟨book2, m2, a2, out2⟩ := st
    simp only at *
    by_cases hpos : a2.quantity > 0
    · simp only [hpos, if_true]
      refine ⟨pushBack_ok hS.ownOK hAs hpos hL.bound, hLb, ?_, ?_, ?_⟩
      · have hperm : ((restingOrders book2 ++
            restingOrders (pushBack (cmpOf side) (e.bookOf side) a2)).map Order.order_id).Perm
            (((restingOrders book2 ++ restingOrders (e.bookOf side)) ++ [a2]).map
              Order.order_id) := by
          apply List.Perm.map
          rw [List.append_assoc]
          exact List.Perm.append_left _ (pushBack_perm _ _ _)
        rw [hperm.nodup_iff, List.map_append, List.nodup_append]
        refine ⟨hL.nodup, by simp, ?_⟩
        intro x hx hx2
        simp only [List.map_cons, List.map_nil, List.mem_singleton] at hx2
        obtain ⟨o, ho, rfl⟩ := List.mem_map.mp hx
        exact hfresh2 o (List.mem_append.mp ho) (hx2.trans hAid)
      · intro id2 o
        simp only [insertOrder, mem_restingOrders_pushBack]
        by_cases h2 : id2 = a2.order_id
        · subst h2
          simp only [if_true, Option.some.injEq]
          constructor
          · intro h
            subst h
            exact ⟨rfl, Or.inr (Or.inr rfl)⟩
          · rintro ⟨h1, h2 | h2 | h2⟩
            · exact absurd (h1.trans hAid) (hfresh2 o (Or.inl h2))
            · exact absurd (h1.trans hAid) (hfresh2 o (Or.inr h2))
            · exact h2.symm
        · rw [if_neg h2, hL.index id2 o]
          constructor
          · rintro ⟨h1, h3 | h3⟩
            · exact ⟨h1, Or.inl h3⟩
            · exact ⟨h1, Or.inr (Or.inl h3)⟩
          · rintro ⟨h1, h3 | h3 | h3⟩
            · exact ⟨h1, Or.inl h3⟩
            · exact ⟨h1, Or.inr h3⟩
            · subst h3
              exact absurd h1.symm h2
      · intro l hl l2 hl2
        rcases mem_pushBack hl with hl | rfl | ⟨os, -, rfl⟩
        · obtain ⟨l0, hl0, hk⟩ := hkeys l2 hl2
          rw [← hk]
          exact hS.uncrossed l hl l0 hl0
        · have := exit_noCross hE hpos hL.book hl2
          simp only at this
          rwa [hAs] at this
        · have := exit_noCross hE hpos hL.book hl2
          simp only at this
          rwa [hAs] at this
    · simp only [hpos, if_false]
      refine ⟨hS.ownOK, hLb, hL.nodup, hL.index, ?_⟩
      intro l hl l2 hl2
      obtain ⟨l0, hl0, hk⟩ := hkeys l2 hl2
      rw [← hk]
      exact hS.uncrossed l hl l0 hl0

theorem opposite_ne (side : Side) : side.opposite ≠ side := by
  cases side <;> simp [Side.opposite]

/-- The engine and the logged lines after `cancelOrder` of an id that has an index entry. -/
theorem cancelOrder_found (e : Engine) (id : Nat) (o : Order) (h : e.m_orderMap id = some o) :
    (cancelOrder e id).engine.bookOf o.side = cancelInBook (e.bookOf o.side) o.price id ∧
    (cancelOrder e id).engine.bookOf o.side.opposite = e.bookOf o.side.opposite ∧
    (cancelOrder e id).engine.m_orderMap = eraseOrder e.m_orderMap id ∧
    (cancelOrder e id).out = [] ∧ (cancelOrder e id).err = [] := by
  simp only [cancelOrder, h]
  cases o.side <;> simp [Engine.bookOf, Side.opposite]

/-- An indexed order is stored in the book of its own side. -/
theorem sideInv_mem_own {side : Side} {own opp : Book} {m : Nat → Option Order}
    (h : SideInv side own opp m) {id : Nat} {o : Order} (hm : m id = some o)
    (hs : o.side = side) : o.order_id = id ∧ o ∈ restingOrders own := by
  obtain ⟨hid, ho | ho⟩ := (h.index id o).mp hm
  · obtain ⟨l, hl, hol⟩ := mem_restingOrders.mp ho
    have := (h.oppOK.orders l hl o hol).2.1
    rw [hs] at this
    exact absurd this.symm (opposite_ne side)
  · exact ⟨hid, ho⟩

/-- Two stored orders with the same id are the same order. -/
theorem sideInv_unique {side : Side} {own opp : Book} {m : Nat → Option Order}
    (h : SideInv side own opp m) {o1 o2 : Order}
    (h1 : o1 ∈ restingOrders opp ∨ o1 ∈ restingOrders own)
    (h2 : o2 ∈ restingOrders opp ∨ o2 ∈ restingOrders own)
    (hid : o1.order_id = o2.order_id) : o1 = o2 := by
  have e1 := (h.index o1.order_id o1).mpr ⟨rfl, h1⟩
  have e2 := (h.index o1.order_id o2).mpr ⟨hid.symm, h2⟩
  rw [e1] at e2
  exact Option.some.inj e2

theorem sideInv_cancel {side : Side} {own opp : Book} {m : Nat → Option Order}
    (h : SideInv side own opp m) {id : Nat} {o : Order} (hm : m id = some o)
    (hs : o.side = side) :
    SideInv side (cancelInBook own o.price id) opp (eraseOrder m id) := by
  obtain ⟨hoid, homem⟩ := sideInv_mem_own h hm hs
  have hp : ∀ o2 ∈ restingOrders own, o2.order_id = id → o2.price = o.price := by
    intro o2 ho2 hid2
    rw [sideInv_unique h (Or.inr ho2) (Or.inr homem) (hid2.trans hoid.symm)]
  have hro := restingOrders_cancelInBook o.price id h.ownOK hp
  refine ⟨cancelInBook_ok _ _ h.ownOK, h.oppOK, ?_, ?_, ?_⟩
  · rw [hro]
    refine List.Nodup.sublist (List.Sublist.map _ ?_) h.nodup
    exact List.Sublist.append_left (List.filter_sublist _) _
  · intro id2 o2
    rw [hro]
    simp only [eraseOrder, removeById, List.mem_filter, decide_eq_true_eq]
    by_cases h2 : id2 = id
    · subst h2
      simp only [if_true]
      constructor
      · intro hx
        exact absurd hx (by simp)
      · rintro ⟨h3, h4 | h4⟩
        · have := sideInv_unique h (Or.inl h4) (Or.inr homem) (h3.trans hoid.symm)
          subst this
          obtain ⟨l, hl, hol⟩ := mem_restingOrders.mp h4
          have := (h.oppOK.orders l hl o2 hol).2.1
          rw [hs] at this
          exact absurd this.symm (opposite_ne side)
        · exact absurd h3 h4.2
    · rw [if_neg h2, h.index id2 o2]
      constructor
      · rintro ⟨h3, h4 | h4⟩
        · exact ⟨h3, Or.inl h4⟩
        · exact ⟨h3, Or.inr ⟨h4, fun hx => h2 (h3.symm.trans hx)⟩⟩
      · rintro ⟨h3, h4 | h4⟩
        · exact ⟨h3, Or.inl h4⟩
        · exact ⟨h3, Or.inr h4.1⟩
  · intro l hl l2 hl2
    obtain ⟨l0, hl0, hk⟩ := cancelInBook_key hl
    rw [← hk]
    exact h.uncrossed l0 hl0 l2 hl2

/-- `cancelOrder` keeps the engine invariant. -/
theorem inv_cancelOrder {e : Engine} (hinv : Inv e) (id : Nat) :
    Inv (cancelOrder e id).engine := by
  cases hid : e.m_orderMap id with
  | none =>
    simp only [cancelOrder, hid]
    exact hinv
  | some o =>
    obtain ⟨h1, h2, h3, -, -⟩ := cancelOrder_found e id o hid
    rw [inv_iff_side _ o.side, h1, h2, h3]
    exact sideInv_cancel ((inv_iff_side e o.side).mp hinv) hid rfl

/-- Every reachable state satisfies the engine invariant. -/
theorem reachable_inv {e : Engine} (h : Reachable e) : Inv e := by
  induction h with
  | empty => exact inv_empty
  | add _ id q p side _ hq ih => exact inv_addOrder ih id q p side hq
  | cancel _ id _ ih => exact inv_cancelOrder ih id

theorem highestPrice_mem {l : List Order} {m : Int} (h : highestPrice l = some m) :
    ∃ o ∈ l, o.price = m := by
  induction l generalizing m with
  | nil => simp [highestPrice] at h
  | cons o rest ih =>
    unfold highestPrice at h
    cases hr : highestPrice rest with
    | none =>
      simp only [hr, Option.some.injEq] at h
      exact ⟨o, by simp, h⟩
    | some m2 =>
      simp only [hr, Option.some.injEq] at h
      obtain ⟨o2, ho2, hp2⟩ := ih hr
      rcases le_total o.price m2 with hle | hle
      · rw [max_eq_right hle] at h
        exact ⟨o2, List.mem_cons_of_mem _ ho2, hp2.trans h⟩
      · rw [max_eq_left hle] at h
        exact ⟨o, by simp, h⟩

theorem lowestPrice_mem {l : List Order} {m : Int} (h : lowestPrice l = some m) :
    ∃ o ∈ l, o.price = m := by
  induction l generalizing m with
  | nil => simp [lowestPrice] at h
  | cons o rest ih =>
    unfold lowestPrice at h
    cases hr : lowestPrice rest with
    | none =>
      simp only [hr, Option.some.injEq] at h
      exact ⟨o, by simp, h⟩
    | some m2 =>
      simp only [hr, Option.some.injEq] at h
      obtain ⟨o2, ho2, hp2⟩ := ih hr
      rcases le_total o.price m2 with hle | hle
      · rw [min_eq_left hle] at h
        exact ⟨o, by simp, h⟩
      · rw [min_eq_right hle] at h
        exact ⟨o2, List.mem_cons_of_mem _ ho2, hp2.trans h⟩

theorem highestPrice_ge {l : List Order} {m : Int} (h : highestPrice l = some m) :
    ∀ o ∈ l, o.price ≤ m := by
  induction l generalizing m with
  | nil => simp
  | cons o rest ih =>
    unfold highestPrice at h
    cases hr : highestPrice rest with
    | none =>
      simp only [hr, Option.some.injEq] at h
      have : rest = [] := by
        cases rest with
        | nil => rfl
        | cons o2 r2 =>
          unfold highestPrice at hr
          split at hr <;> simp at hr
      subst this
      simp [h]
    | some m2 =>
      simp only [hr, Option.some.injEq] at h
      intro o2 ho2
      rcases List.mem_cons.mp ho2 with rfl | ho2
      · rw [← h]; exact le_max_left _ _
      · rw [← h]; exact le_trans (ih hr o2 ho2) (le_max_right _ _)

theorem lowestPrice_le {l : List Order} {m : Int} (h : lowestPrice l = some m) :
    ∀ o ∈ l, m ≤ o.price := by
  induction l generalizing m with
  | nil => simp
  | cons o rest ih =>
    unfold lowestPrice at h
    cases hr : lowestPrice rest with
    | none =>
      simp only [hr, Option.some.injEq] at h
      have : rest = [] := by
        cases rest with
        | nil => rfl
        | cons o2 r2 =>
          unfold lowestPrice at hr
          split at hr <;> simp at hr
      subst this
      simp [h]
    | some m2 =>
      simp only [hr, Option.some.injEq] at h
      intro o2 ho2
      rcases List.mem_cons.mp ho2 with rfl | ho2
      · rw [← h]; exact min_le_left _ _
      · rw [← h]; exact le_trans (min_le_right _ _) (ih hr o2 ho2)

/-- A stored order is found in the level under its own price. -/
theorem findLevel_of_mem {side : Side} {book : Book} (h : BookOK side book) {o : Order}
    (ho : o ∈ restingOrders book) : ∃ orders, findLevel book o.price = some orders ∧ o ∈ orders := by
  induction book with
  | nil => simp [restingOrders] at ho
  | cons hd rest ih =>
    obtain ⟨k, os⟩ := hd
    have hrest : BookOK side rest :=
      ⟨(List.pairwise_cons.mp h.sorted).2, fun l hl => h.nonempty l (List.mem_cons_of_mem _ hl),
        fun l hl => h.orders l (List.mem_cons_of_mem _ hl)⟩
    rw [restingOrders_cons] at ho
    unfold findLevel
    rcases List.mem_append.mp ho with ho | ho
    · have := (h.orders (k, os) (by simp) o ho).1
      simp only at this
      rw [if_pos this.symm]
      exact ⟨os, rfl, ho⟩
    · obtain ⟨l, hl, hol⟩ := mem_restingOrders.mp ho
      have h1 := (h.orders l (List.mem_cons_of_mem _ hl) o hol).1
      have h3 := (List.pairwise_cons.mp h.sorted).1 l hl
      simp only at h3
      have hne : k ≠ o.price := by
        intro e
        rw [← h1, e, cmpOf_irrefl] at h3
        exact absurd h3 (by simp)
      rw [if_neg hne]
      exact ih hrest ho

theorem reachable_S1 : Reachable scenarioS1 :=
  Reachable.add (Reachable.add Reachable.empty 1 10 10000 Side.Buy (by decide) (by decide))
    2 5 10100 Side.Sell (by decide) (by decide)

theorem reachable_S6 : Reachable scenarioS6 :=
  Reachable.add Reachable.empty 50 5 10000 Side.Buy (by decide) (by decide)

theorem reachable_S2 : Reachable scenarioS2 :=
  Reachable.add Reachable.empty 10 5 10000 Side.Sell (by decide) (by decide)

theorem loopInv_at {e : Engine} (hinv : Inv e) (a : Order) (hq : a.quantity < UINT64_MOD)
    (n : Nat) : LoopInv (restingOrders (e.bookOf a.side)) (loopAt e a n) :=
  matchLoop_inv _ _ (loopInv_start hinv a hq)

/-- The lines one iteration logs, in terms of the aggressive order `A` and the front order `R`
of the best opposite level at the start of the iteration. -/
theorem step_events {own : List Order} {st st1 : LoopState} (hinv : LoopInv own st)
    (h : matchStep st = some st1) :
    ∃ k R rs rest,
      st.opposite_book = (k, R :: rs) :: rest ∧ R.price = k ∧
      0 < st.aggressive_order.quantity ∧ st.aggressive_order.quantity < UINT64_MOD ∧
      0 < R.quantity ∧ R.quantity < UINT64_MOD ∧
      st1.aggressive_order.quantity =
        st.aggressive_order.quantity - min st.aggressive_order.quantity R.quantity ∧
      st1.out = st.out ++
        [Event.trade (min st.aggressive_order.quantity R.quantity) R.price,
          if st.aggressive_order.quantity - min st.aggressive_order.quantity R.quantity > 0 then
            Event.partiallyFilled st.aggressive_order.order_id
              (st.aggressive_order.quantity - min st.aggressive_order.quantity R.quantity)
          else Event.fullyFilled st.aggressive_order.order_id,
          if R.quantity - min st.aggressive_order.quantity R.quantity = 0 then
            Event.fullyFilled R.order_id
          else Event.partiallyFilled R.order_id
            (R.quantity - min st.aggressive_order.quantity R.quantity)] := by
  have hs := matchStep_spec hinv h
  have hb := hinv.book
  have hq := hinv.bound
  cases hs with
  | restingFilled k r rs rest m a out ha hc hr =>
    have hro := hb.orders (k, r :: rs) (by simp) r (by simp)
    refine ⟨k, r, rs, rest, rfl, hro.1, ha, hq, hro.2.2.1, hro.2.2.2, ?_, ?_⟩
    · simp only [Nat.min_eq_right hr]
    · simp only [Nat.min_eq_right hr, Nat.sub_self, if_true]
  | restingReduced k r rs rest m a out ha hc hr =>
    have hro := hb.orders (k, r :: rs) (by simp) r (by simp)
    have hne : ¬ (r.quantity - a.quantity = 0) := by omega
    refine ⟨k, r, rs, rest, rfl, hro.1, ha, hq, hro.2.2.1, hro.2.2.2, ?_, ?_⟩
    · simp only [Nat.min_eq_left (Nat.le_of_lt hr), Nat.sub_self]
    · simp only [Nat.min_eq_left (Nat.le_of_lt hr), Nat.sub_self, Nat.lt_irrefl, if_false, hne]

theorem matchLoop_triples {own : List Order} (n : Nat) (st : LoopState)
    (hinv : LoopInv own st) :
    ∃ evs, (matchLoop n st).out = st.out ++ evs ∧
      TriplesFrom st.aggressive_order.order_id st.aggressive_order.quantity evs ∧
      evs.length % 3 = 0 := by
  refine matchLoop_rel
    (fun st st2 => ∃ evs, st2.out = st.out ++ evs ∧
      TriplesFrom st.aggressive_order.order_id st.aggressive_order.quantity evs ∧
      evs.length % 3 = 0)
    (fun st _ => ⟨[], by simp, by simp [TriplesFrom], rfl⟩) ?_ n st hinv
  intro st st1 st2 _ hs _ h
  obtain ⟨evs, h1, h2, h3⟩ := h
  cases hs with
  | restingFilled k r rs rest m a out ha hc hr =>
    simp only at h1 h2
    refine ⟨Event.trade r.quantity r.price ::
      (if a.quantity - r.quantity > 0 then
        Event.partiallyFilled a.order_id (a.quantity - r.quantity)
      else Event.fullyFilled a.order_id) :: Event.fullyFilled r.order_id :: evs,
      by rw [h1]; simp, ?_, by simp; omega⟩
    simp only [TriplesFrom, true_and]
    exact ⟨hr, ⟨r.order_id, Or.inl rfl⟩, h2⟩
  | restingReduced k r rs rest m a out ha hc hr =>
    simp only at h1 h2
    refine ⟨Event.trade a.quantity r.price :: Event.fullyFilled a.order_id ::
      Event.partiallyFilled r.order_id (r.quantity - a.quantity) :: evs,
      by rw [h1]; simp, ?_, by simp; omega⟩
    simp only [TriplesFrom, Nat.sub_self, Nat.lt_irrefl, if_false, true_and, Nat.le_refl,
      gt_iff_lt]
    exact ⟨⟨r.order_id, Or.inr ⟨r.quantity - a.quantity, by omega, rfl⟩⟩, h2⟩

/-- The state after one more iteration is one step from the state after `n` iterations. -/
theorem matchLoop_succ (n : Nat) (st : LoopState) :
    matchLoop (n + 1) st =
      match matchStep (matchLoop n st) with
      | none => matchLoop n st
      | some st1 => st1 := by
  induction n generalizing st with
  | zero =>
    simp only [matchLoop]
  | succ n ih =>
    rw [matchLoop]
    cases hs : matchStep st with
    | none => simp only [matchLoop, hs]
    | some st2 =>
      simp only
      rw [ih st2]
      conv => rhs; rw [matchLoop]
      simp only [hs]

theorem reachable_S3 : Reachable scenarioS3 :=
  Reachable.add (Reachable.add Reachable.empty 20 3 10000 Side.Sell (by decide) (by decide))
    21 2 10100 Side.Sell (by decide) (by decide)

/-! ### The book after `pushBack` and after `cancelInBook` -/

theorem bookOK_tail {side : Side} {hd : Level} {rest : Book} (h : BookOK side (hd :: rest)) :
    BookOK side rest :=
  ⟨(List.pairwise_cons.mp h.sorted).2, fun l hl => h.nonempty l (List.mem_cons_of_mem _ hl),
    fun l hl => h.orders l (List.mem_cons_of_mem _ hl)⟩

/-- A key that the comparator puts before every key of a sorted book is not a key of it. -/
theorem findLevel_none_of_before {side : Side} {book : Book} {p : Int}
    (h : ∀ l ∈ book, cmpOf side p l.1 = true) : findLevel book p = none := by
  induction book with
  | nil => rfl
  | cons hd rest ih =>
    obtain ⟨k, os⟩ := hd
    unfold findLevel
    have hk := h (k, os) (by simp)
    simp only at hk
    have hne : k ≠ p := by
      intro e
      rw [e, cmpOf_irrefl] at hk
      exact absurd hk (by simp)
    rw [if_neg hne]
    exact ih (fun l hl => h l (List.mem_cons_of_mem _ hl))

theorem cmpOf_trans (side : Side) {a b c : Int} (h1 : cmpOf side a b = true)
    (h2 : cmpOf side b c = true) : cmpOf side a c = true := by
  cases side <;> simp only [cmpOf, buyCmp, sellCmp, decide_eq_true_eq] at * <;> omega

theorem findLevel_pushBack_same {side : Side} {book : Book} (o : Order)
    (h : book.Pairwise (fun l1 l2 => cmpOf side l1.1 l2.1 = true)) :
    findLevel (pushBack (cmpOf side) book o) o.price =
      some ((findLevel book o.price).getD [] ++ [o]) := by
  induction book with
  | nil => simp [pushBack, findLevel]
  | cons hd rest ih =>
    obtain ⟨k, os⟩ := hd
    rw [List.pairwise_cons] at h
    unfold pushBack
    split
    · rename_i hk
      simp [findLevel, hk]
    · rename_i hk
      split
      · rename_i hc
        have hnone : findLevel rest o.price = none :=
          findLevel_none_of_before (fun l hl => cmpOf_trans side hc (h.1 l hl))
        simp [findLevel, hk, hnone]
      · simp only [findLevel, hk, if_false]
        exact ih h.2

theorem findLevel_pushBack_other (cmp : Int → Int → Bool) (book : Book) (o : Order) {p2 : Int}
    (hp : p2 ≠ o.price) : findLevel (pushBack cmp book o) p2 = findLevel book p2 := by
  induction book with
  | nil => simp [pushBack, findLevel, Ne.symm hp]
  | cons hd rest ih =>
    obtain ⟨k, os⟩ := hd
    unfold pushBack
    split
    · rename_i hk
      simp [findLevel, hk, Ne.symm hp]
    · split
      · simp [findLevel, Ne.symm hp]
      · simp only [findLevel]
        rw [ih]

theorem removeById_of_fresh {l : List Order} {id : Nat} (h : ∀ o ∈ l, o.order_id ≠ id) :
    removeById l id = l := by
  unfold removeById
  rw [List.filter_eq_self]
  intro o ho
  simpa using h o ho

theorem removeById_append (l1 l2 : List Order) (id : Nat) :
    removeById (l1 ++ l2) id = removeById l1 id ++ removeById l2 id := by
  simp [removeById]

/-- The orders stored before a `pushBack` keep their iteration order. -/
theorem restingOrders_pushBack_filter (cmp : Int → Int → Bool) (book : Book) (o : Order)
    (h : ∀ o2 ∈ restingOrders book, o2.order_id ≠ o.order_id) :
    removeById (restingOrders (pushBack cmp book o)) o.order_id = restingOrders book := by
  have ho : removeById [o] o.order_id = [] := by simp [removeById]
  induction book with
  | nil => simp [pushBack, restingOrders, removeById]
  | cons hd rest ih =>
    obtain ⟨k, os⟩ := hd
    have hos : removeById os o.order_id = os :=
      removeById_of_fresh (fun o2 ho2 => h o2 (by simp [restingOrders_cons, ho2]))
    have hrest : removeById (restingOrders rest) o.order_id = restingOrders rest :=
      removeById_of_fresh (fun o2 ho2 => h o2 (by simp [restingOrders_cons, ho2]))
    unfold pushBack
    split
    · simp only [restingOrders_cons, removeById_append, hos, hrest, ho, List.append_nil]
    · split
      · simp only [restingOrders_cons, removeById_append, hos, hrest, ho, List.nil_append]
      · simp only [restingOrders_cons, removeById_append, hos]
        rw [ih (fun o2 ho2 => h o2 (by simp [restingOrders_cons, ho2]))]

/-- Cancelling an order right after it was pushed gives the book back. -/
theorem cancelInBook_pushBack (cmp : Int → Int → Bool) (book : Book) (o : Order)
    (hne : ∀ l ∈ book, l.2 ≠ [])
    (h : ∀ o2 ∈ restingOrders book, o2.order_id ≠ o.order_id) :
    cancelInBook (pushBack cmp book o) o.price o.order_id = book := by
  have ho : removeById [o] o.order_id = [] := by simp [removeById]
  induction book with
  | nil => simp [pushBack, cancelInBook, ho]
  | cons hd rest ih =>
    obtain ⟨k, os⟩ := hd
    have hos : removeById os o.order_id = os :=
      removeById_of_fresh (fun o2 ho2 => h o2 (by simp [restingOrders_cons, ho2]))
    have hosne : os ≠ [] := hne (k, os) (by simp)
    unfold pushBack
    split
    · rename_i hk
      have : (removeById (os ++ [o]) o.order_id).isEmpty = false := by
        rw [removeById_append, hos, ho, List.append_nil]
        cases os with
        | nil => exact absurd rfl hosne
        | cons _ _ => rfl
      simp only [cancelInBook, hk, if_true, this, Bool.false_eq_true, if_false]
      rw [removeById_append, hos, ho, List.append_nil]
    · rename_i hk
      split
      · simp [cancelInBook, ho]
      · simp only [cancelInBook, hk, if_false]
        rw [ih (fun l hl => hne l (List.mem_cons_of_mem _ hl))
          (fun o2 ho2 => h o2 (by simp [restingOrders_cons, ho2]))]

theorem findLevel_cancelInBook_other (book : Book) (price : Int) (id : Nat) {p2 : Int}
    (hp : p2 ≠ price) : findLevel (cancelInBook book price id) p2 = findLevel book p2 := by
  induction book with
  | nil => simp [cancelInBook]
  | cons hd rest ih =>
    obtain ⟨k, os⟩ := hd
    unfold cancelInBook
    split
    · rename_i hk
      have hkp : k ≠ p2 := fun e => hp (e.symm.trans hk)
      split <;> simp [findLevel, hkp]
    · simp only [findLevel]
      rw [ih]

theorem findLevel_cancelInBook_same {side : Side} {book : Book} (price : Int) (id : Nat)
    (h : book.Pairwise (fun l1 l2 => cmpOf side l1.1 l2.1 = true)) :
    findLevel (cancelInBook book price id) price =
      match findLevel book price with
      | none => none
      | some os => if (removeById os id).isEmpty then none else some (removeById os id) := by
  induction book with
  | nil => simp [cancelInBook, findLevel]
  | cons hd rest ih =>
    obtain ⟨k, os⟩ := hd
    rw [List.pairwise_cons] at h
    unfold cancelInBook
    split
    · rename_i hk
      have hnone : findLevel rest price = none := by
        apply findLevel_none_of_before
        intro l hl
        rw [← hk]
        exact h.1 l hl
      split
      · rename_i he
        simp [findLevel, hk, he, hnone]
      · rename_i he
        simp [findLevel, hk, he]
    · rename_i hk
      simp only [findLevel, hk, if_false]
      exact ih h.2

/-- In a list without repeated ids, removing an id removes exactly the order that carries it. -/
theorem removeById_unique {l : List Order} (hn : (l.map Order.order_id).Nodup) {o : Order}
    (ho : o ∈ l) : ∃ l1 l2, l = l1 ++ o :: l2 ∧ removeById l o.order_id = l1 ++ l2 := by
  obtain ⟨l1, l2, rfl⟩ := List.append_of_mem ho
  refine ⟨l1, l2, rfl, ?_⟩
  simp only [List.map_append, List.map_cons] at hn
  have h1 : ∀ x ∈ l1, x.order_id ≠ o.order_id := by
    intro x hx e
    have hd := (List.nodup_append.mp hn).2.2
    exact hd (List.mem_map_of_mem _ hx) (by simp [e])
  have h2 : ∀ x ∈ l2, x.order_id ≠ o.order_id := by
    intro x hx e
    have hd := (List.nodup_cons.mp (List.nodup_append.mp hn).2.1).1
    exact hd (by rw [← e]; exact List.mem_map_of_mem _ hx)
  rw [removeById_append, removeById_of_fresh h1]
  have : removeById (o :: l2) o.order_id = l2 := by
    have h3 : removeById (o :: l2) o.order_id = removeById l2 o.order_id := by
      simp [removeById]
    rw [h3, removeById_of_fresh h2]
  rw [this]

/-- An engine is determined by its two books and its index. -/
theorem engine_ext {e1 e2 : Engine} (side : Side) (h1 : e1.bookOf side = e2.bookOf side)
    (h2 : e1.bookOf side.opposite = e2.bookOf side.opposite)
    (h3 : e1.m_orderMap = e2.m_orderMap) : e1 = e2 := by
  obtain ⟨b1, s1, m1⟩ := e1
  obtain ⟨b2, s2, m2⟩ := e2
  cases side <;> simp only [Engine.bookOf, Side.opposite] at h1 h2 h3 <;> simp [h1, h2, h3]

/-- The loop either does nothing or makes the log longer. -/
theorem matchLoop_out_grows {own : List Order} (n : Nat) (st : LoopState)
    (hinv : LoopInv own st) :
    matchLoop n st = st ∨
      (st.out.length < (matchLoop n st).out.length ∧
        tradedQuantity st.out < tradedQuantity (matchLoop n st).out) := by
  refine matchLoop_rel
    (fun st st2 => st2 = st ∨
      (st.out.length < st2.out.length ∧ tradedQuantity st.out < tradedQuantity st2.out))
    (fun _ _ => Or.inl rfl) ?_ n st hinv
  intro st st1 st2 hinv1 hs _ h
  right
  have hlen : st.out.length < st1.out.length ∧
      tradedQuantity st.out < tradedQuantity st1.out := by
    have hb := hinv1.book
    cases hs with
    | restingFilled k r rs rest m a out ha hc hr =>
      have hro := hb.orders (k, r :: rs) (by simp) r (by simp)
      simp only [List.length_append, tradedQuantity_append, tradedQuantity]
      constructor
      · simp
      · split <;> simp only [tradedQuantity] <;> omega
    | restingReduced k r rs rest m a out ha hc hr =>
      simp only [List.length_append, tradedQuantity_append, tradedQuantity]
      constructor
      · simp
      · omega
  rcases h with h | h
  · rw [h]; exact hlen
  · exact ⟨by omega, by omega⟩

/-- The loop variables at the exit of the match loop run for a new id in a state that satisfies
the engine invariant. -/
theorem loopResult_facts {e : Engine} (hinv : Inv e) (id q : Nat) (p : Int) (side : Side)
    (hq : q < UINT64_MOD) (hfresh : e.m_orderMap id = none) :
    (loopResult e ⟨id, q, p, side⟩).aggressive_order =
      ⟨id, q - tradedQuantity (loopResult e ⟨id, q, p, side⟩).out, p, side⟩ ∧
    tradedQuantity (loopResult e ⟨id, q, p, side⟩).out ≤ q ∧
    tradedQuantity (loopResult e ⟨id, q, p, side⟩).out +
        totalQuantity (restingOrders (loopResult e ⟨id, q, p, side⟩).opposite_book) =
      totalQuantity (restingOrders (e.bookOf side.opposite)) ∧
    (loopResult e ⟨id, q, p, side⟩).m_orderMap id = none ∧
    (∀ o ∈ restingOrders (e.bookOf side), o.order_id ≠ id) := by
  have hS := (inv_iff_side e side).mp hinv
  have hstart := loopInv_start hinv ⟨id, q, p, side⟩ hq
  have hL : LoopInv (restingOrders (e.bookOf side)) (loopResult e ⟨id, q, p, side⟩) :=
    loopInv_result hinv ⟨id, q, p, side⟩ hq
  have hC : Consumed (loopStart e ⟨id, q, p, side⟩) (loopResult e ⟨id, q, p, side⟩) :=
    matchLoop_consumed _ _ hstart
  obtain ⟨hAid, hAp, hAs⟩ := matchLoop_aggressive (loopBound (e.bookOf side.opposite))
    (loopStart e ⟨id, q, p, side⟩)
  obtain ⟨hc1, hc2⟩ := matchLoop_conservation (loopBound (e.bookOf side.opposite)) _ hstart
  change (loopResult e ⟨id, q, p, side⟩).aggressive_order.order_id = id at hAid
  change (loopResult e ⟨id, q, p, side⟩).aggressive_order.price = p at hAp
  change (loopResult e ⟨id, q, p, side⟩).aggressive_order.side = side at hAs
  change tradedQuantity (loopResult e ⟨id, q, p, side⟩).out +
    (loopResult e ⟨id, q, p, side⟩).aggressive_order.quantity = tradedQuantity [] + q at hc1
  change tradedQuantity (loopResult e ⟨id, q, p, side⟩).out +
    totalQuantity (restingOrders (loopResult e ⟨id, q, p, side⟩).opposite_book) =
    tradedQuantity [] + totalQuantity (restingOrders (e.bookOf side.opposite)) at hc2
  simp only [tradedQuantity, Nat.zero_add] at hc1 hc2
  have hfresh2 : ∀ o, (o ∈ restingOrders (loopResult e ⟨id, q, p, side⟩).opposite_book ∨
      o ∈ restingOrders (e.bookOf side)) → o.order_id ≠ id := by
    intro o ho
    rcases ho with ho | ho
    · obtain ⟨o0, ho0, hid0, -⟩ := consumed_orders hC ho
      rw [← hid0]
      exact sideInv_fresh hS hfresh (Or.inl ho0)
    · exact sideInv_fresh hS hfresh (Or.inr ho)
  refine ⟨?_, by omega, hc2, ?_, fun o ho => hfresh2 o (Or.inr ho)⟩
  · generalize loopResult e ⟨id, q, p, side⟩ = st at *
    obtain ⟨book2, m2, ⟨aid, aq, ap, as⟩, out2⟩ := st
    simp only at hAid hAp hAs hc1 ⊢
    subst hAid hAp hAs
    have : aq = q - tradedQuantity out2 := by omega
    rw [this]
  · cases hm : (loopResult e ⟨id, q, p, side⟩).m_orderMap id with
    | none => rfl
    | some o =>
      obtain ⟨h1, h2⟩ := (hL.index id o).mp hm
      exact absurd h1 (hfresh2 o h2)

theorem findLevel_sublist {book : Book} {p : Int} {os : List Order}
    (h : findLevel book p = some os) : os.Sublist (restingOrders book) := by
  induction book with
  | nil => simp [findLevel] at h
  | cons hd rest ih =>
    obtain ⟨k, os2⟩ := hd
    unfold findLevel at h
    rw [restingOrders_cons]
    split at h
    · simp only [Option.some.injEq] at h
      subst h
      exact List.sublist_append_left _ _
    · exact List.sublist_append_of_sublist_right (ih h)

/-- What `addOrder` logs as trades is what leaves the opposite side, and what does not rest of
the added quantity. -/
theorem addOrder_conservation {e : Engine} (hinv : Inv e) (id q : Nat) (p : Int) (side : Side)
    (hq : q < UINT64_MOD) (hfresh : e.m_orderMap id = none) :
    tradedQuantity (addOrder e id q p side).out +
        totalQuantity (restingOrders ((addOrder e id q p side).engine.bookOf side.opposite)) =
      totalQuantity (restingOrders (e.bookOf side.opposite)) ∧
    tradedQuantity (addOrder e id q p side).out +
        restingQuantity (addOrder e id q p side).engine id = q := by
  obtain ⟨hout, -, hopp, -, hmap⟩ := addOrder_fresh e id q p side hfresh
  obtain ⟨hA, hle, hcons, hnone, -⟩ := loopResult_facts hinv id q p side hq hfresh
  refine ⟨by rw [hout, hopp]; exact hcons, ?_⟩
  unfold restingQuantity
  rw [hmap, hout, hA]
  simp only
  by_cases hpos : 0 < q - tradedQuantity (loopResult e ⟨id, q, p, side⟩).out
  · simp only [gt_iff_lt, hpos, if_true, insertOrder]
    omega
  · simp only [gt_iff_lt, hpos, if_false, hnone]
    omega

/-- Over a sequence of adds, the traded quantity is the quantity matched out of the book. -/
theorem runAdds_conservation (reqs : List AddRequest) :
    ∀ e : Engine, Inv e → (∀ r ∈ reqs, r.quantity < UINT64_MOD) →
      tradedQuantity (runAdds e reqs).2 = matchedOut e reqs := by
  induction reqs with
  | nil => intro e _ _; rfl
  | cons r rest ih =>
    intro e hinv hb
    have hq := hb r (by simp)
    simp only [runAdds, matchedOut, tradedQuantity_append]
    rw [ih _ (inv_addOrder hinv r.order_id r.quantity r.price r.side hq)
      (fun r2 hr2 => hb r2 (List.mem_cons_of_mem _ hr2))]
    congr 1
    cases hid : e.m_orderMap r.order_id with
    | some o => simp [addOrder, hid, tradedQuantity]
    | none =>
      have := (addOrder_conservation hinv r.order_id r.quantity r.price r.side hq hid).1
      omega

/-- The match loop run for a new id logs nothing exactly when it leaves its variables as they
were on entry; otherwise it logs a trade of positive quantity. -/
theorem loopResult_silent {e : Engine} (hinv : Inv e) (id q : Nat) (p : Int) (side : Side)
    (hq : q < UINT64_MOD) :
    ((loopResult e ⟨id, q, p, side⟩).out = [] →
      loopResult e ⟨id, q, p, side⟩ = loopStart e ⟨id, q, p, side⟩) ∧
    ((loopResult e ⟨id, q, p, side⟩).out ≠ [] →
      0 < tradedQuantity (loopResult e ⟨id, q, p, side⟩).out) := by
  have hstart := loopInv_start hinv ⟨id, q, p, side⟩ hq
  rcases matchLoop_out_grows (loopBound (e.bookOf side.opposite)) _ hstart with h | ⟨h1, h2⟩
  · constructor
    · intro _; exact h
    · intro hne
      exact absurd (by rw [show loopResult e ⟨id, q, p, side⟩ = _ from h]; rfl) hne
  · constructor
    · intro h0
      change _ < (loopResult e ⟨id, q, p, side⟩).out.length at h1
      rw [h0] at h1
      exact absurd h1 (by simp)
    · intro _
      exact Nat.lt_of_le_of_lt (Nat.zero_le _) h2

theorem reachable_S4 : Reachable scenarioS4 :=
  Reachable.add (Reachable.add Reachable.empty 30 4 9900 Side.Buy (by decide) (by decide))
    31 6 9900 Side.Buy (by decide) (by decide)

theorem reachable_zeroQuantity : Reachable scenarioZeroQuantity :=
  Reachable.add reachable_S1 3 0 10050 Side.Buy (by decide) (by decide)

/-! ### The validator -/

/-- The three ways `processTokens` can end: an accepted add, an accepted cancel, or a rejection
with one diagnostic that leaves `sz` and the order untouched. -/
theorem processTokens_cases (stod : Text → Conversion Double) (tokens : List Text)
    (msg_type sz : Int) :
    (stoi (tokens.getD 0 []) = Conversion.ok 0 ∧ tokens.length = 5 ∧
      ∃ id q p, stoull (tokens.getD 1 []) = Conversion.ok id ∧
        (tokens.getD 3 []).head? ≠ some '-' ∧ stoull (tokens.getD 3 []) = Conversion.ok q ∧
        stod (tokens.getD 4 []) = Conversion.ok p ∧ q ≠ 0 ∧ p.leZero = false ∧
        processTokens stod tokens msg_type sz =
          { order :=
              { order_id := some id, quantity := some q, price := some p,
                side := some (if tokens.getD 2 [] = ['0'] then Side.Buy else Side.Sell) }
            msg_type := 0, sz := 5, err := [] }) ∨
    (stoi (tokens.getD 0 []) = Conversion.ok 1 ∧ tokens.length = 2 ∧
      ∃ id, stoull (tokens.getD 1 []) = Conversion.ok id ∧
        processTokens stod tokens msg_type sz =
          { order := { order_id := some id, quantity := none, price := none, side := none }
            msg_type := 1, sz := 2, err := [] }) ∨
    ((processTokens stod tokens msg_type sz).order = ParsedOrder.unassigned ∧
      (processTokens stod tokens msg_type sz).sz = sz ∧
      (processTokens stod tokens msg_type sz).err.length = 1 ∧
      ((processTokens stod tokens msg_type sz).msg_type = msg_type ∨
        stoi (tokens.getD 0 []) = Conversion.ok (processTokens stod tokens msg_type sz).msg_type)) := by
  unfold processTokens
  cases htag : stoi (tokens.getD 0 []) with
  | error what => exact Or.inr (Or.inr ⟨rfl, rfl, rfl, Or.inl rfl⟩)
  | ok tag =>
    simp only
    by_cases hadd : tag = 0 ∧ tokens.length = 5
    · rw [if_pos hadd]
      obtain ⟨rfl, hlen⟩ := hadd
      cases hid : stoull (tokens.getD 1 []) with
      | error what => exact Or.inr (Or.inr ⟨rfl, rfl, rfl, Or.inr rfl⟩)
      | ok id =>
        simp only
        by_cases hneg : (tokens.getD 3 []).head? = some '-'
        · rw [if_pos hneg]
          exact Or.inr (Or.inr ⟨rfl, rfl, rfl, Or.inr rfl⟩)
        · rw [if_neg hneg]
          cases hq : stoull (tokens.getD 3 []) with
          | error what => exact Or.inr (Or.inr ⟨rfl, rfl, rfl, Or.inr rfl⟩)
          | ok q =>
            simp only
            cases hp : stod (tokens.getD 4 []) with
            | error what => exact Or.inr (Or.inr ⟨rfl, rfl, rfl, Or.inr rfl⟩)
            | ok p =>
              simp only
              by_cases hbad : q = 0 ∨ p.leZero = true
              · rw [if_pos hbad]
                exact Or.inr (Or.inr ⟨rfl, rfl, rfl, Or.inr rfl⟩)
              · rw [if_neg hbad]
                refine Or.inl ⟨trivial, hlen, id, q, p, rfl, hneg, rfl, rfl, ?_, ?_, ?_⟩
                · exact fun h => hbad (Or.inl h)
                · cases hz : p.leZero with
                  | false => rfl
                  | true => exact absurd (Or.inr hz) hbad
                · rw [hlen]
                  rfl
    · rw [if_neg hadd]
      by_cases hcancel : tag = 1 ∧ tokens.length = 2
      · rw [if_pos hcancel]
        obtain ⟨rfl, hlen⟩ := hcancel
        cases hid : stoull (tokens.getD 1 []) with
        | error what => exact Or.inr (Or.inr ⟨rfl, rfl, rfl, Or.inr rfl⟩)
        | ok id =>
          simp only
          refine Or.inr (Or.inl ⟨trivial, hlen, id, rfl, ?_⟩)
          rw [hlen]
          rfl
      · rw [if_neg hcancel]
        exact Or.inr (Or.inr ⟨rfl, rfl, rfl, Or.inr rfl⟩)

/-- An add message whose tag, order id, quantity and price pass is accepted, whatever its side
token is. -/
theorem processTokens_add_accepts (stod : Text → Conversion Double) (tokens : List Text)
    (msg_type sz : Int) {id q : Nat} {p : Double}
    (htag : stoi (tokens.getD 0 []) = Conversion.ok 0) (hlen : tokens.length = 5)
    (hid : stoull (tokens.getD 1 []) = Conversion.ok id)
    (hneg : (tokens.getD 3 []).head? ≠ some '-')
    (hq : stoull (tokens.getD 3 []) = Conversion.ok q) (hp : stod (tokens.getD 4 []) = Conversion.ok p)
    (hq0 : q ≠ 0) (hp0 : p.leZero = false) :
    processTokens stod tokens msg_type sz =
      { order :=
          { order_id := some id, quantity := some q, price := some p,
            side := some (if tokens.getD 2 [] = ['0'] then Side.Buy else Side.Sell) }
        msg_type := 0, sz := 5, err := [] } := by
  unfold processTokens
  simp only [htag, hlen, hid, hq, hp, hq0, hp0, hneg, and_self, if_true, if_false, or_self,
    Bool.false_eq_true]
  rfl

/-- A cancel message whose tag and order id pass is accepted. -/
theorem processTokens_cancel_accepts (stod : Text → Conversion Double) (tokens : List Text)
    (msg_type sz : Int) {id : Nat}
    (htag : stoi (tokens.getD 0 []) = Conversion.ok 1) (hlen : tokens.length = 2)
    (hid : stoull (tokens.getD 1 []) = Conversion.ok id) :
    processTokens stod tokens msg_type sz =
      { order := { order_id := some id, quantity := none, price := none, side := none }
        msg_type := 1, sz := 2, err := [] } := by
  unfold processTokens
  simp only [htag, hlen, hid]
  rfl

theorem stoull_ok {s : Text} {v : Nat} (h : stoull s = Conversion.ok v) :
    (subjectSequence s).2 ≠ [] ∧ digitsValue (subjectSequence s).2 < UINT64_MOD ∧
    v < UINT64_MOD ∧ ((subjectSequence s).1 = false → v = digitsValue (subjectSequence s).2) := by
  unfold stoull at h
  split at h
  · exact absurd h (by simp)
  · rename_i hne
    split at h
    · exact absurd h (by simp)
    · rename_i hfit
      have hlt : digitsValue (subjectSequence s).2 < UINT64_MOD := Nat.lt_of_not_ge hfit
      split at h
      · rename_i hneg
        simp only [Conversion.ok.injEq] at h
        refine ⟨hne, hlt, ?_, fun hf => absurd hneg (by simp [hf])⟩
        rw [← h]
        exact Nat.mod_lt _ (by unfold UINT64_MOD; omega)
      · simp only [Conversion.ok.injEq] at h
        exact ⟨hne, hlt, h ▸ hlt, fun _ => h.symm⟩

theorem stoull_error {s : Text}
    (h : (subjectSequence s).2 = [] ∨ UINT64_MOD ≤ digitsValue (subjectSequence s).2) :
    stoull s = Conversion.error "stoull" := by
  unfold stoull
  by_cases h1 : (subjectSequence s).2 = []
  · rw [if_pos h1]
  · rw [if_neg h1]
    rcases h with h | h
    · exact absurd h h1
    · rw [if_pos (show digitsValue (subjectSequence s).2 ≥ UINT64_MOD from h)]

theorem not_isspace_of_isDigit {c : Char} (h : c.isDigit = true) : isspace c = false := by
  cases hs : isspace c with
  | false => rfl
  | true =>
    simp only [isspace, Bool.or_eq_true, beq_iff_eq] at hs
    rcases hs with ((((rfl | rfl) | rfl) | rfl) | rfl) | rfl <;> exact absurd h (by decide)

/-- A text of decimal digits only is its own subject sequence, without sign. -/
theorem subjectSequence_digits {s : Text} (hne : s ≠ []) (h : ∀ c ∈ s, c.isDigit = true) :
    subjectSequence s = (false, s) := by
  cases s with
  | nil => exact absurd rfl hne
  | cons c rest =>
    have hc := h c (by simp)
    have htake : (c :: rest).takeWhile Char.isDigit = c :: rest :=
      List.takeWhile_eq_self_iff.mpr h
    have hminus : c ≠ '-' := by
      rintro rfl
      exact absurd hc (by decide)
    have hplus : c ≠ '+' := by
      rintro rfl
      exact absurd hc (by decide)
    unfold subjectSequence
    rw [List.dropWhile_cons_of_neg (by simp [not_isspace_of_isDigit hc])]
    split
    · rename_i heq
      exact absurd (List.cons.inj heq).1 hminus
    · rename_i heq
      exact absurd (List.cons.inj heq).1 hplus
    · rw [htake]

/-- The validator calls `stod` on the fifth token only. -/
theorem processTokens_congr (stod1 stod2 : Text → Conversion Double) (tokens : List Text)
    (msg_type sz : Int) (h : stod1 (tokens.getD 4 []) = stod2 (tokens.getD 4 [])) :
    processTokens stod1 tokens msg_type sz = processTokens stod2 tokens msg_type sz := by
  unfold processTokens
  rw [h]

theorem processMessage_congr (stod1 stod2 : Text → Conversion Double) (e : Engine)
    (message : Text)
    (h : stod1 ((messageToToken message []).2.1.getD 4 []) =
      stod2 ((messageToToken message []).2.1.getD 4 [])) :
    processMessage stod1 e message = processMessage stod2 e message := by
  unfold processMessage
  rw [processTokens_congr stod1 stod2 _ _ _ h]

theorem runMessages_congr (stod1 stod2 : Text → Conversion Double) (messages : List Text) :
    ∀ e : Engine,
      (∀ m ∈ messages, stod1 ((messageToToken m []).2.1.getD 4 []) =
        stod2 ((messageToToken m []).2.1.getD 4 [])) →
      runMessages stod1 e messages = runMessages stod2 e messages := by
  induction messages with
  | nil => intro e _; rfl
  | cons m rest ih =>
    intro e h
    simp only [runMessages]
    rw [processMessage_congr stod1 stod2 e m (h m (by simp))]
    cases processMessage stod2 e m with
    | none => rfl
    | some r1 =>
      simp only
      rw [ih r1.engine (fun m2 hm2 => h m2 (List.mem_cons_of_mem _ hm2))]

/-! ### The tokenizer -/

/-- The loop appends to the tokens it is given. -/
theorem parseLoop_append (fuel : Nat) (stream : Text) (tokens : List Text) :
    parseLoop fuel stream tokens = tokens ++ parseLoop fuel stream [] := by
  induction fuel generalizing stream tokens with
  | zero => simp [parseLoop]
  | succ fuel ih =>
    unfold parseLoop
    cases getline stream with
    | none => simp
    | some tr =>
      obtain ⟨token, rest⟩ := tr
      simp only
      rw [ih rest (tokens ++ [token]), ih rest ([] ++ [token])]
      simp

theorem getlineFields_eq_nil {s : Text} : getlineFields s = [] ↔ s = [] := by
  cases s with
  | nil => simp [getlineFields]
  | cons c rest =>
    simp only [getlineFields]
    split
    · simp
    · split <;> simp

/-- One `getline` takes the first token off the stream. -/
theorem getlineFields_unfold (c : Char) (rest : Text) :
    getlineFields (c :: rest) =
      (c :: rest).takeWhile (fun x => x != ',') ::
        getlineFields (((c :: rest).dropWhile (fun x => x != ',')).drop 1) := by
  induction rest generalizing c with
  | nil =>
    by_cases hc : c = ','
    · simp [getlineFields, hc]
    · simp [getlineFields, hc]
  | cons d rest ih =>
    by_cases hc : c = ','
    · subst hc
      simp [getlineFields]
    · have h1 : (c :: d :: rest).takeWhile (fun x => x != ',') =
          c :: (d :: rest).takeWhile (fun x => x != ',') := by
        simp [List.takeWhile_cons, hc]
      have h2 : (c :: d :: rest).dropWhile (fun x => x != ',') =
          (d :: rest).dropWhile (fun x => x != ',') := by
        simp [List.dropWhile_cons, hc]
      rw [h1, h2]
      have hrec := ih d
      conv => lhs; rw [getlineFields]
      rw [if_neg hc, hrec]

/-- With more iterations allowed than the stream has characters, the loop extracts the tokens
of `getlineFields`: it is left by a failing `getline`, not by the iteration limit. -/
theorem parseLoop_fuel :
    ∀ (fuel : Nat) (stream : Text), stream.length < fuel →
      parseLoop fuel stream [] = getlineFields stream := by
  intro fuel
  induction fuel with
  | zero => intro stream h; omega
  | succ fuel ih =>
    intro stream h
    cases stream with
    | nil => simp [parseLoop, getline, getlineFields]
    | cons c rest =>
      have hlen : (((c :: rest).dropWhile (fun x => x != ',')).drop 1).length < fuel := by
        have h1 := (List.dropWhile_sublist (fun x => x != ',') (l := c :: rest)).length_le
        simp only [List.length_drop, List.length_cons] at h h1 ⊢
        omega
      simp only [parseLoop, getline]
      rw [parseLoop_append, ih _ hlen, getlineFields_unfold]
      simp

theorem parseMessage_eq (message : Text) (tokens : List Text) :
    parseMessage message tokens =
      (!(tokens ++ getlineFields message).isEmpty, tokens ++ getlineFields message) := by
  unfold parseMessage
  rw [parseLoop_append, parseLoop_fuel _ _ (Nat.lt_succ_self _)]

theorem messageToToken_tokens (message : Text) (tokens : List Text) :
    (messageToToken message tokens).2.1 = tokens ++ getlineFields message := by
  unfold messageToToken
  split <;> simp [parseMessage_eq]

theorem messageToToken_flag (message : Text) (tokens : List Text) :
    (messageToToken message tokens).1 = !(tokens ++ getlineFields message).isEmpty := by
  unfold messageToToken
  split
  · rename_i h
    rw [parseMessage_eq] at h
    simp only at h
    simp [h]
  · rename_i h
    rw [parseMessage_eq] at h
    simp only at h
    simp only [Bool.not_eq_true] at h
    simp [h]

theorem getlineFields_no_comma (s : Text) : ∀ t ∈ getlineFields s, ',' ∉ t := by
  induction s with
  | nil => simp [getlineFields]
  | cons c rest ih =>
    simp only [getlineFields]
    split
    · intro t ht
      rcases List.mem_cons.mp ht with rfl | ht
      · simp
      · exact ih t ht
    · rename_i hc
      split
      · intro t ht
        simp only [List.mem_singleton] at ht
        subst ht
        simpa using Ne.symm hc
      · rename_i f fs heq
        intro t ht
        rcases List.mem_cons.mp ht with rfl | ht
        · have := ih f (by rw [heq]; simp)
          simp only [List.mem_cons, not_or]
          exact ⟨Ne.symm hc, this⟩
        · exact ih t (by rw [heq]; exact List.mem_cons_of_mem _ ht)

theorem joinComma_cons_cons (c : Char) (f : Text) (fs : List Text) :
    joinComma ((c :: f) :: fs) = c :: joinComma (f :: fs) := by
  cases fs <;> simp [joinComma]

theorem joinComma_nil_cons {fs : List Text} (h : fs ≠ []) :
    joinComma ([] :: fs) = ',' :: joinComma fs := by
  cases fs with
  | nil => exact absurd rfl h
  | cons _ _ => simp [joinComma]

/-- Joining the extracted tokens gives the stream back, up to one final comma. -/
theorem joinComma_getlineFields (s : Text) :
    (s.getLast? ≠ some ',' → joinComma (getlineFields s) = s) ∧
    (s.getLast? = some ',' → joinComma (getlineFields s) ++ [','] = s) := by
  induction s with
  | nil => simp [getlineFields, joinComma]
  | cons c rest ih =>
    cases rest with
    | nil =>
      by_cases hc : c = ','
      · subst hc
        simp [getlineFields, joinComma]
      · simp [getlineFields, joinComma, hc]
    | cons d rest2 =>
      have hlast : (c :: d :: rest2).getLast? = (d :: rest2).getLast? := by
        simp [List.getLast?_cons_cons]
      rw [hlast]
      have hne : getlineFields (d :: rest2) ≠ [] := by
        rw [Ne, getlineFields_eq_nil]
        simp
      by_cases hc : c = ','
      · subst hc
        have hH : getlineFields (',' :: d :: rest2) = [] :: getlineFields (d :: rest2) := by
          conv => lhs; rw [getlineFields]
          simp
        rw [hH, joinComma_nil_cons hne]
        constructor
        · intro h
          rw [ih.1 h]
        · intro h
          rw [List.cons_append, ih.2 h]
      · obtain ⟨f, fs, hf⟩ := List.exists_cons_of_ne_nil hne
        have hH : getlineFields (c :: d :: rest2) = (c :: f) :: fs := by
          conv => lhs; rw [getlineFields]
          rw [if_neg hc, hf]
        rw [hH, joinComma_cons_cons, ← hf]
        constructor
        · intro h
          rw [ih.1 h]
        · intro h
          rw [List.cons_append, ih.2 h]

/-- The extracted tokens are the comma-separated fields without a final empty field. -/
theorem commaSeparatedFields_eq (s : Text) :
    commaSeparatedFields s =
      getlineFields s ++ (if s = [] ∨ s.getLast? = some ',' then [[]] else []) := by
  induction s with
  | nil => simp [commaSeparatedFields, getlineFields]
  | cons c rest ih =>
    cases rest with
    | nil =>
      by_cases hc : c = ','
      · subst hc
        simp [commaSeparatedFields, getlineFields]
      · simp [commaSeparatedFields, getlineFields, hc]
    | cons d rest2 =>
      have hlast : (c :: d :: rest2).getLast? = (d :: rest2).getLast? := by
        simp [List.getLast?_cons_cons]
      have hne : getlineFields (d :: rest2) ≠ [] := by
        rw [Ne, getlineFields_eq_nil]
        simp
      obtain ⟨f, fs, hf⟩ := List.exists_cons_of_ne_nil hne
      have hcond : ((c :: d :: rest2 = [] ∨ (c :: d :: rest2).getLast? = some ',') ↔
          (d :: rest2 = [] ∨ (d :: rest2).getLast? = some ',')) := by
        rw [hlast]
        simp
      have hS : commaSeparatedFields (d :: rest2) =
          f :: (fs ++ (if d :: rest2 = [] ∨ (d :: rest2).getLast? = some ',' then [[]]
            else [])) := by
        rw [ih, hf]
        rfl
      conv => lhs; rw [commaSeparatedFields]
      conv => rhs; rw [getlineFields]
      rw [hS, hf, if_congr hcond rfl rfl]
      by_cases hc : c = ','
      · simp [hc]
      · simp [hc]

/-! ### The trade line -/

theorem fractionText_cases :
    ∀ c, c < 100 →
      fractionText c =
        (if c = 0 then []
        else if c % 10 = 0 then ['.', Nat.digitChar (c / 10)]
        else ['.', Nat.digitChar (c / 10), Nat.digitChar (c % 10)]) := by
  decide

/-! ### The SPSC queue -/

theorem slot_mod {N t i : Nat} (ht : t < N) (hi : i < N) :
    (t + i) % N = if t + i < N then t + i else t + i - N := by
  split
  · rename_i h
    exact Nat.mod_eq_of_lt h
  · rename_i h
    rw [Nat.mod_eq_sub_mod (Nat.le_of_not_lt h)]
    exact Nat.mod_eq_of_lt (by omega)

theorem next_mod {N a : Nat} (ha : a < N) : (a + 1) % N = if a + 1 = N then 0 else a + 1 := by
  have hN1 : 1 < N ∨ N = 1 := by omega
  rcases hN1 with h1 | h1
  · rw [slot_mod ha h1]
    split <;> split <;> omega
  · subst h1
    have : a = 0 := by omega
    subst this
    rfl

theorem queue_size_lt {T : Type} {N : Nat} {q : SPSCQueue T} (h : QueueInv N q) :
    q.size N < N := by
  unfold SPSCQueue.size
  obtain ⟨h1, h2⟩ := h
  split <;> omega

/-- The queue refuses a `push` exactly when it holds `N - 1` elements. -/
theorem queue_full_iff {T : Type} {N : Nat} {q : SPSCQueue T} (h : QueueInv N q) :
    (q.head_ + 1) % N = q.tail_ ↔ q.size N + 1 = N := by
  obtain ⟨h1, h2⟩ := h
  rw [next_mod h1]
  unfold SPSCQueue.size
  split <;> split <;> omega

theorem queue_empty_iff {T : Type} {N : Nat} {q : SPSCQueue T} (h : QueueInv N q) :
    q.tail_ = q.head_ ↔ q.size N = 0 := by
  obtain ⟨h1, h2⟩ := h
  unfold SPSCQueue.size
  split <;> omega

theorem contents_length {T : Type} (N : Nat) (q : SPSCQueue T) :
    (q.contents N).length = q.size N := by
  simp [SPSCQueue.contents]

/-- A successful `push` keeps the indices in range and appends the value to the contents. -/
theorem queue_push_ok {T : Type} {N : Nat} {q : SPSCQueue T} (h : QueueInv N q) (value : T)
    (hfree : (q.head_ + 1) % N ≠ q.tail_) :
    q.push N value =
      (true,
        { buffer_ := fun i => if i = q.head_ then value else q.buffer_ i
          head_ := (q.head_ + 1) % N
          tail_ := q.tail_ }) ∧
    QueueInv N (q.push N value).2 ∧
    (q.push N value).2.contents N = q.contents N ++ [value] := by
  have hpush : q.push N value =
      (true,
        { buffer_ := fun i => if i = q.head_ then value else q.buffer_ i
          head_ := (q.head_ + 1) % N
          tail_ := q.tail_ }) := by
    unfold SPSCQueue.push
    rw [if_neg hfree]
  obtain ⟨h1, h2⟩ := h
  have hnext := next_mod h1
  have hsz : q.size N < N := queue_size_lt ⟨h1, h2⟩
  refine ⟨hpush, ?_, ?_⟩
  · rw [hpush]
    refine ⟨?_, h2⟩
    simp only
    rw [hnext]
    split <;> omega
  · rw [hpush]
    have hsize : SPSCQueue.size N
        { buffer_ := fun i => if i = q.head_ then value else q.buffer_ i
          head_ := (q.head_ + 1) % N, tail_ := q.tail_ } = q.size N + 1 := by
      rw [hnext] at hfree
      simp only [SPSCQueue.size, hnext]
      split_ifs at hfree ⊢ <;> omega
    unfold SPSCQueue.contents
    rw [hsize, List.range_succ, List.map_append]
    congr 1
    · apply List.map_congr_left
      intro i hi
      have hi2 : i < q.size N := List.mem_range.mp hi
      simp only
      have hne : (q.tail_ + i) % N ≠ q.head_ := by
        rw [slot_mod h2 (by omega)]
        simp only [SPSCQueue.size] at hi2
        split_ifs at hi2 ⊢ <;> omega
      rw [if_neg hne]
    · simp only [List.map_cons, List.map_nil, List.cons.injEq, and_true]
      have heq : (q.tail_ + q.size N) % N = q.head_ := by
        rw [slot_mod h2 hsz]
        simp only [SPSCQueue.size]
        split_ifs <;> omega
      rw [if_pos heq]

/-- A successful `pop` keeps the indices in range and takes the oldest element off the
contents. -/
theorem queue_pop_ok {T : Type} [Inhabited T] {N : Nat} {q : SPSCQueue T} (h : QueueInv N q)
    (value : T) (hne : q.tail_ ≠ q.head_) :
    (q.pop N value).1 = true ∧
    QueueInv N (q.pop N value).2.2 ∧
    q.contents N = (q.pop N value).2.1 :: (q.pop N value).2.2.contents N := by
  have hpop : q.pop N value =
      (true, q.buffer_ q.tail_,
        { buffer_ := fun i => if i = q.tail_ then default else q.buffer_ i
          head_ := q.head_
          tail_ := (q.tail_ + 1) % N }) := by
    unfold SPSCQueue.pop
    rw [if_neg hne]
  obtain ⟨h1, h2⟩ := h
  have hnext := next_mod h2
  have hsz : q.size N < N := queue_size_lt ⟨h1, h2⟩
  rw [hpop]
  refine ⟨rfl, ?_, ?_⟩
  · refine ⟨h1, ?_⟩
    simp only
    rw [hnext]
    split <;> omega
  · simp only
    have hsize : q.size N = SPSCQueue.size N
        { buffer_ := fun i => if i = q.tail_ then default else q.buffer_ i
          head_ := q.head_, tail_ := (q.tail_ + 1) % N } + 1 := by
      simp only [SPSCQueue.size, hnext]
      split_ifs <;> omega
    unfold SPSCQueue.contents
    rw [hsize, List.range_succ_eq_map, List.map_cons, List.map_map]
    congr 1
    · simp [Nat.mod_eq_of_lt h2]
    · apply List.map_congr_left
      intro i hi
      have hi2 : i + 1 < q.size N + 0 := by
        have := List.mem_range.mp hi
        omega
      simp only [Function.comp]
      have hslot : (q.tail_ + (i + 1)) % N = ((q.tail_ + 1) % N + i) % N := by
        have e : q.tail_ + (i + 1) = (q.tail_ + 1) + i := by omega
        rw [e, Nat.add_mod, Nat.mod_eq_of_lt (show i < N by omega)]
      have hne2 : (q.tail_ + (i + 1)) % N ≠ q.tail_ := by
        rw [slot_mod h2 (by omega)]
        split <;> omega
      rw [← hslot, if_neg hne2]

/-- Every sequence of calls on a queue with indices in range returns what the bounded FIFO
returns on the contents of the queue, and ends in a queue that holds the final list. -/
theorem queue_run_refines {T : Type} [Inhabited T] (N : Nat) (calls : List (QueueCall T)) :
    ∀ q : SPSCQueue T, QueueInv N q →
      (q.run N calls).1 = (boundedFifoRun N (q.contents N) calls).1 ∧
      (q.run N calls).2.contents N = (boundedFifoRun N (q.contents N) calls).2 ∧
      QueueInv N (q.run N calls).2 := by
  induction calls with
  | nil =>
    intro q h
    exact ⟨by simp [SPSCQueue.run, boundedFifoRun], by simp [SPSCQueue.run, boundedFifoRun], h⟩
  | cons call rest ih =>
    intro q h
    cases call with
    | push value =>
      by_cases hfull : (q.head_ + 1) % N = q.tail_
      · have hpush : q.push N value = (false, q) := by
          unfold SPSCQueue.push
          rw [if_pos hfull]
        have hlen : (q.contents N).length + 1 = N := by
          rw [contents_length]
          exact (queue_full_iff h).mp hfull
        obtain ⟨i1, i2, i3⟩ := ih q h
        simp only [SPSCQueue.run, boundedFifoRun, hpush, if_pos hlen]
        exact ⟨by rw [i1], i2, i3⟩
      · obtain ⟨hpush, hinv, hcont⟩ := queue_push_ok h value hfull
        have hlen : ¬ (q.contents N).length + 1 = N := by
          rw [contents_length]
          exact fun hx => hfull ((queue_full_iff h).mpr hx)
        obtain ⟨i1, i2, i3⟩ := ih (q.push N value).2 hinv
        rw [hcont] at i1 i2
        simp only [SPSCQueue.run, boundedFifoRun, if_neg hlen]
        refine ⟨?_, i2, i3⟩
        rw [i1, hpush]
    | pop out =>
      by_cases hempty : q.tail_ = q.head_
      · have hpop : q.pop N out = (false, out, q) := by
          unfold SPSCQueue.pop
          rw [if_pos hempty]
        have hnil : q.contents N = [] := by
          apply List.eq_nil_of_length_eq_zero
          rw [contents_length]
          exact (queue_empty_iff h).mp hempty
        obtain ⟨i1, i2, i3⟩ := ih q h
        rw [hnil] at i1 i2 ⊢
        simp only [SPSCQueue.run, boundedFifoRun, hpop]
        exact ⟨by rw [i1], i2, i3⟩
      · obtain ⟨hflag, hinv, hcont⟩ := queue_pop_ok h out hempty
        obtain ⟨i1, i2, i3⟩ := ih (q.pop N out).2.2 hinv
        rw [hcont]
        simp only [SPSCQueue.run, boundedFifoRun]
        refine ⟨?_, i2, i3⟩
        rw [i1, hflag]

theorem tradeCount_append (l1 l2 : List Event) :
    tradeCount (l1 ++ l2) = tradeCount l1 + tradeCount l2 := by
  induction l1 with
  | nil => simp [tradeCount]
  | cons ev l ih =>
    cases ev with
    | trade q p =>
      show tradeCount (l ++ l2) + 1 = tradeCount l + 1 + tradeCount l2
      omega
    | fullyFilled id => exact ih
    | partiallyFilled id q => exact ih

theorem wrapSub_self (x : Nat) : wrapSub x x = 0 := by
  unfold wrapSub UINT64_MOD
  omega

/-- What one iteration of the loop does to the opposite book, to the aggressive quantity and to
the number of TRADE lines, in every state: an empty level is erased without a trade, or the
front order is popped with one trade, or the aggressive quantity becomes 0 with one trade while
the book keeps its shape. -/
theorem matchStep_progress {st st1 : LoopState} (h : matchStep st = some st1) :
    0 < st.aggressive_order.quantity ∧
    ((st1.opposite_book.length + 1 = st.opposite_book.length ∧
        restingOrders st1.opposite_book = restingOrders st.opposite_book ∧
        st1.aggressive_order = st.aggressive_order ∧ st1.out = st.out) ∨
      ((restingOrders st1.opposite_book).length + 1 = (restingOrders st.opposite_book).length ∧
        st1.opposite_book.length ≤ st.opposite_book.length ∧
        tradeCount st1.out = tradeCount st.out + 1) ∨
      (st1.aggressive_order.quantity = 0 ∧
        (restingOrders st1.opposite_book).length = (restingOrders st.opposite_book).length ∧
        st1.opposite_book.length = st.opposite_book.length ∧
        0 < (restingOrders st.opposite_book).length ∧
        tradeCount st1.out = tradeCount st.out + 1)) := by
  obtain ⟨book, m, a, out⟩ := st
  unfold matchStep at h
  simp only at h
  split at h
  · rename_i ha
    refine ⟨ha, ?_⟩
    split at h
    · exact absurd h (by simp)
    · rename_i k orders rest
      split at h
      · split at h
        · simp only [Option.some.injEq] at h
          subst h
          exact Or.inl ⟨rfl, rfl, rfl, rfl⟩
        · rename_i r others
          split at h
          · simp only [Option.some.injEq] at h
            subst h
            refine Or.inr (Or.inl ⟨?_, ?_, ?_⟩)
            · simp only [restingOrders_popFront, restingOrders_cons, List.length_append,
                List.length_cons]
              omega
            · simp only [List.length_cons]
              split
              · omega
              · simp only [List.length_cons]
                omega
            · simp [tradeCount_append, tradeCount, emitTradeEvent, emitFullyFilled,
                emitPartiallyFilled]
              split <;> simp [tradeCount]
          · rename_i hr
            simp only [Option.some.injEq] at h
            subst h
            have hmin : min a.quantity r.quantity = a.quantity := by
              rcases Nat.le_total a.quantity r.quantity with hle | hle
              · exact Nat.min_eq_left hle
              · exfalso
                apply hr
                rw [Nat.min_eq_right hle]
                exact wrapSub_self _
            refine Or.inr (Or.inr ⟨?_, ?_, rfl, ?_, ?_⟩)
            · simp only [hmin]
              exact wrapSub_self _
            · simp [restingOrders_cons]
            · simp [restingOrders_cons]
            · simp [tradeCount_append, tradeCount, emitTradeEvent, emitFullyFilled,
                emitPartiallyFilled]
              split <;> simp [tradeCount]
      · exact absurd h (by simp)
  · exact absurd h (by simp)

theorem matchStep_measure_lt {st st1 : LoopState} (h : matchStep st = some st1) :
    loopMeasure st1 < loopMeasure st := by
  obtain ⟨ha, hcases⟩ := matchStep_progress h
  unfold loopMeasure
  rw [if_pos ha]
  rcases hcases with ⟨h1, h2, h3, -⟩ | ⟨h1, h2, -⟩ | ⟨h1, h2, h3, -⟩
  · rw [h2, h3, if_pos ha]
    omega
  · split <;> omega
  · rw [if_neg (by omega)]
    omega

/-- The loop is left within `loopMeasure` iterations, in every state. -/
theorem matchLoop_exit_general :
    ∀ (n : Nat) (st : LoopState), loopMeasure st ≤ n → matchStep (matchLoop n st) = none := by
  intro n
  induction n with
  | zero =>
    intro st hm
    have h0 : ¬ st.aggressive_order.quantity > 0 := by
      intro h
      simp only [loopMeasure, if_pos h] at hm
      omega
    simp only [matchLoop]
    unfold matchStep
    rw [if_neg h0]
  | succ n ih =>
    intro st hm
    simp only [matchLoop]
    cases hs : matchStep st with
    | none => simpa using hs
    | some st1 =>
      simp only
      apply ih
      have := matchStep_measure_lt hs
      omega

theorem matchLoop_exit_bound (st : LoopState) :
    matchStep (matchLoop (loopBound st.opposite_book) st) = none := by
  apply matchLoop_exit_general
  simp only [loopMeasure, loopBound]
  split <;> omega

/-- The loop logs at most one TRADE line per order resting in the opposite book. -/
theorem matchLoop_tradeCount :
    ∀ (n : Nat) (st : LoopState),
      tradeCount (matchLoop n st).out ≤
        tradeCount st.out + (restingOrders st.opposite_book).length := by
  intro n
  induction n with
  | zero => intro st; simp [matchLoop]
  | succ n ih =>
    intro st
    simp only [matchLoop]
    cases hs : matchStep st with
    | none => simp
    | some st1 =>
      simp only
      obtain ⟨-, hcases⟩ := matchStep_progress hs
      have hi := ih st1
      rcases hcases with ⟨-, h2, -, h4⟩ | ⟨h1, -, h3⟩ | ⟨h1, h2, -, h4, h5⟩
      · rw [h2, h4] at hi
        exact hi
      · omega
      · have hstop : matchLoop n st1 = st1 := by
          cases n with
          | zero => rfl
          | succ n =>
            simp only [matchLoop]
            have : matchStep st1 = none := by
              unfold matchStep
              rw [if_neg (by omega)]
            rw [this]
        rw [hstop]
        omega

/-! ### The logger -/

theorem outLinesOf_append (p1 p2 : List Text) :
    outLinesOf (p1 ++ p2) = outLinesOf p1 ++ outLinesOf p2 := by
  simp [outLinesOf]

theorem errLinesOf_append (p1 p2 : List Text) :
    errLinesOf (p1 ++ p2) = errLinesOf p1 ++ errLinesOf p2 := by
  simp [errLinesOf]

theorem err_tag_prefix (m : Text) :
    ("ERR: ".toList).isPrefixOf ("ERR: ".toList ++ m) = true := by
  simp

theorem lines_of_out (m : Text) :
    outLinesOf ["OUT: ".toList ++ m] = [m] ∧ errLinesOf ["OUT: ".toList ++ m] = [] := by
  constructor <;> rfl

theorem lines_of_err (m : Text) :
    outLinesOf ["ERR: ".toList ++ m] = [] ∧ errLinesOf ["ERR: ".toList ++ m] = [m] := by
  have h := err_tag_prefix m
  constructor
  · simp only [outLinesOf, List.filter, h, Bool.not_true, List.map_nil]
  · simp only [errLinesOf, List.filter, h, List.map_cons, List.map_nil]
    rfl

theorem lines_cons_err (e : Text) (rest : List Text)
    (h : ("ERR: ".toList).isPrefixOf e = true) :
    outLinesOf (e :: rest) = outLinesOf rest ∧
    errLinesOf (e :: rest) = e.drop 5 :: errLinesOf rest := by
  constructor
  · simp only [outLinesOf, List.filter, h, Bool.not_true]
  · simp only [errLinesOf, List.filter, h, List.map_cons]

theorem lines_cons_out (e : Text) (rest : List Text)
    (h : ¬ ("ERR: ".toList).isPrefixOf e = true) :
    outLinesOf (e :: rest) = e.drop 5 :: outLinesOf rest ∧
    errLinesOf (e :: rest) = errLinesOf rest := by
  have h2 : ("ERR: ".toList).isPrefixOf e = false := by
    cases hb : ("ERR: ".toList).isPrefixOf e
    · rfl
    · exact absurd hb h
  constructor
  · simp only [outLinesOf, List.filter, h2, Bool.not_false, List.map_cons]
  · simp only [errLinesOf, List.filter, h2]

/-- The worker writes every queued text to the sink of its tag, oldest first, and leaves the
queue empty; `pending.length + 1` iterations are enough. -/
theorem drain_spec :
    ∀ (pending : List Text) (l : Logger), QueueInv LOGGER_CAPACITY l.queue_ →
      l.queue_.contents LOGGER_CAPACITY = pending → (∀ e ∈ pending, 5 ≤ e.length) →
      ∀ fuel, pending.length < fuel →
        ∃ l1, l.drain fuel = some l1 ∧ l1.queue_.tail_ = l1.queue_.head_ ∧
          l1.queue_.contents LOGGER_CAPACITY = [] ∧
          l1.out_stream_ = l.out_stream_ ++ outLinesOf pending ∧
          l1.err_stream_ = l.err_stream_ ++ errLinesOf pending ∧
          l1.enabled_ = l.enabled_ ∧ l1.shutdown_ = l.shutdown_ := by
  intro pending
  induction pending with
  | nil =>
    intro l hinv hc _ fuel hfuel
    obtain ⟨fuel, rfl⟩ : ∃ k, fuel = k + 1 := ⟨fuel - 1, by omega⟩
    have hsize : l.queue_.size LOGGER_CAPACITY = 0 := by
      rw [← contents_length, hc]
      rfl
    have hempty : l.queue_.tail_ = l.queue_.head_ := (queue_empty_iff hinv).mpr hsize
    have hpop : (l.queue_.pop LOGGER_CAPACITY []).1 = false := by
      unfold SPSCQueue.pop
      rw [if_pos hempty]
    have hstep : l.runStep = RunStep.leave ∨ l.runStep = RunStep.idle := by
      unfold Logger.runStep
      rw [if_pos hpop]
      split
      · exact Or.inl rfl
      · exact Or.inr rfl
    refine ⟨l, ?_, hempty, hc, by simp [outLinesOf], by simp [errLinesOf], rfl, rfl⟩
    unfold Logger.drain
    rcases hstep with h | h <;> rw [h]
  | cons e rest ih =>
    intro l hinv hc hlen fuel hfuel
    obtain ⟨fuel, rfl⟩ : ∃ k, fuel = k + 1 := ⟨fuel - 1, by omega⟩
    have hsize : l.queue_.size LOGGER_CAPACITY ≠ 0 := by
      rw [← contents_length, hc]
      simp
    have hne : l.queue_.tail_ ≠ l.queue_.head_ := fun h => hsize ((queue_empty_iff hinv).mp h)
    obtain ⟨hp1, hp2, hp3⟩ := queue_pop_ok hinv ([] : Text) hne
    rw [hc] at hp3
    have hhead : (l.queue_.pop LOGGER_CAPACITY []).2.1 = e := (List.cons.inj hp3).1.symm
    have hrest : (l.queue_.pop LOGGER_CAPACITY []).2.2.contents LOGGER_CAPACITY = rest :=
      (List.cons.inj hp3).2.symm
    have he5 : ¬ e.length < 5 := Nat.not_lt.mpr (hlen e (List.mem_cons_self _ _))
    have hrest5 : ∀ x ∈ rest, 5 ≤ x.length := fun x hx => hlen x (List.mem_cons_of_mem _ hx)
    have hfuel2 : rest.length < fuel := by
      simp only [List.length_cons] at hfuel
      omega
    by_cases herr : ("ERR: ".toList).isPrefixOf e = true
    · have hstep : l.runStep = RunStep.wrote
          { l with queue_ := (l.queue_.pop LOGGER_CAPACITY []).2.2
                   err_stream_ := l.err_stream_ ++ [e.drop 5] } := by
        unfold Logger.runStep
        rw [if_neg (by rw [hp1]; decide), hhead, if_neg he5, if_pos herr]
      obtain ⟨l1, h1, h2, h3, h4, h5, h6, h7⟩ := ih
        { l with queue_ := (l.queue_.pop LOGGER_CAPACITY []).2.2
                 err_stream_ := l.err_stream_ ++ [e.drop 5] } hp2 hrest hrest5 fuel hfuel2
      refine ⟨l1, ?_, h2, h3, ?_, ?_, h6, h7⟩
      · unfold Logger.drain
        rw [hstep]
        exact h1
      · rw [h4, (lines_cons_err e rest herr).1]
      · rw [h5, (lines_cons_err e rest herr).2]
        simp
    · have hstep : l.runStep = RunStep.wrote
          { l with queue_ := (l.queue_.pop LOGGER_CAPACITY []).2.2
                   out_stream_ := l.out_stream_ ++ [e.drop 5] } := by
        unfold Logger.runStep
        rw [if_neg (by rw [hp1]; decide), hhead, if_neg he5, if_neg herr]
      obtain ⟨l1, h1, h2, h3, h4, h5, h6, h7⟩ := ih
        { l with queue_ := (l.queue_.pop LOGGER_CAPACITY []).2.2
                 out_stream_ := l.out_stream_ ++ [e.drop 5] } hp2 hrest hrest5 fuel hfuel2
      refine ⟨l1, ?_, h2, h3, ?_, ?_, h6, h7⟩
      · unfold Logger.drain
        rw [hstep]
        exact h1
      · rw [h4, (lines_cons_out e rest herr).1]
        simp
      · rw [h5, (lines_cons_out e rest herr).2]

/-- An enabled logger whose queue has a free slot puts the tagged message at the back of the
queue and touches nothing else. -/
theorem log_enqueues (l : Logger) (hinv : QueueInv LOGGER_CAPACITY l.queue_)
    (henabled : l.enabled_ = true)
    (hfree : (l.queue_.head_ + 1) % LOGGER_CAPACITY ≠ l.queue_.tail_) (m : Text) :
    (QueueInv LOGGER_CAPACITY (l.log_out m).queue_ ∧
      (l.log_out m).queue_.contents LOGGER_CAPACITY =
        l.queue_.contents LOGGER_CAPACITY ++ ["OUT: ".toList ++ m] ∧
      (l.log_out m).out_stream_ = l.out_stream_ ∧ (l.log_out m).err_stream_ = l.err_stream_ ∧
      (l.log_out m).enabled_ = true ∧ (l.log_out m).shutdown_ = l.shutdown_ ∧
      (l.log_out m).queue_.head_ = (l.queue_.head_ + 1) % LOGGER_CAPACITY ∧
      (l.log_out m).queue_.tail_ = l.queue_.tail_) ∧
    (QueueInv LOGGER_CAPACITY (l.log_err m).queue_ ∧
      (l.log_err m).queue_.contents LOGGER_CAPACITY =
        l.queue_.contents LOGGER_CAPACITY ++ ["ERR: ".toList ++ m] ∧
      (l.log_err m).out_stream_ = l.out_stream_ ∧ (l.log_err m).err_stream_ = l.err_stream_ ∧
      (l.log_err m).enabled_ = true ∧ (l.log_err m).shutdown_ = l.shutdown_ ∧
      (l.log_err m).queue_.head_ = (l.queue_.head_ + 1) % LOGGER_CAPACITY ∧
      (l.log_err m).queue_.tail_ = l.queue_.tail_) := by
  have hne : ¬ l.enabled_ = false := by rw [henabled]; decide
  constructor
  · obtain ⟨h1, h2, h3⟩ := queue_push_ok hinv ("OUT: ".toList ++ m) hfree
    unfold Logger.log_out
    rw [if_neg hne]
    refine ⟨h2, h3, rfl, rfl, henabled, rfl, ?_, ?_⟩
    · simp only [h1]
    · simp only [h1]
  · obtain ⟨h1, h2, h3⟩ := queue_push_ok hinv ("ERR: ".toList ++ m) hfree
    unfold Logger.log_err
    rw [if_neg hne]
    refine ⟨h2, h3, rfl, rfl, henabled, rfl, ?_, ?_⟩
    · simp only [h1]
    · simp only [h1]

/-- An enabled logger whose queue is full is left as it was: the message is dropped. -/
theorem log_drops_when_full (l : Logger) (henabled : l.enabled_ = true)
    (hfull : (l.queue_.head_ + 1) % LOGGER_CAPACITY = l.queue_.tail_) (m : Text) :
    l.log_out m = l ∧ l.log_err m = l := by
  have hne : ¬ l.enabled_ = false := by rw [henabled]; decide
  constructor
  · unfold Logger.log_out SPSCQueue.push
    rw [if_neg hne, if_pos hfull]
  · unfold Logger.log_err SPSCQueue.push
    rw [if_neg hne, if_pos hfull]

/-- The logger after `n < 1000` calls of `log_out` with the same message and no run of the
worker. -/
theorem log_out_repeat (x : Text) :
    ∀ n, n < LOGGER_CAPACITY →
      ((List.replicate n x).foldl Logger.log_out Logger.init).queue_.head_ = n ∧
      ((List.replicate n x).foldl Logger.log_out Logger.init).queue_.tail_ = 0 ∧
      ((List.replicate n x).foldl Logger.log_out Logger.init).enabled_ = true ∧
      ((List.replicate n x).foldl Logger.log_out Logger.init).out_stream_ = [] ∧
      ((List.replicate n x).foldl Logger.log_out Logger.init).err_stream_ = [] ∧
      ((List.replicate n x).foldl Logger.log_out Logger.init).queue_.contents LOGGER_CAPACITY =
        List.replicate n ("OUT: ".toList ++ x) := by
  intro n
  induction n with
  | zero =>
    intro _
    exact ⟨rfl, rfl, rfl, rfl, rfl, rfl⟩
  | succ n ih =>
    intro hn
    obtain ⟨h1, h2, h3, h4, h5, h6⟩ := ih (by omega)
    rw [List.replicate_succ', List.foldl_append]
    simp only [List.foldl_cons, List.foldl_nil]
    have hinv : QueueInv LOGGER_CAPACITY
        ((List.replicate n x).foldl Logger.log_out Logger.init).queue_ := by
      unfold QueueInv
      rw [h1, h2]
      unfold LOGGER_CAPACITY at *
      omega
    have hfree : (((List.replicate n x).foldl Logger.log_out Logger.init).queue_.head_ + 1) %
        LOGGER_CAPACITY ≠
        ((List.replicate n x).foldl Logger.log_out Logger.init).queue_.tail_ := by
      rw [h1, h2]
      unfold LOGGER_CAPACITY at *
      omega
    obtain ⟨⟨-, g2, g3, g4, g5, -, g7, g8⟩, -⟩ := log_enqueues _ hinv h3 hfree x
    refine ⟨?_, by rw [g8, h2], g5, by rw [g3, h4], by rw [g4, h5], ?_⟩
    · rw [g7, h1]
      unfold LOGGER_CAPACITY at *
      omega
    · rw [g2, h6, List.replicate_succ']

theorem lines_of_replicate_out (x : Text) (n : Nat) :
    outLinesOf (List.replicate n ("OUT: ".toList ++ x)) = List.replicate n x ∧
    errLinesOf (List.replicate n ("OUT: ".toList ++ x)) = [] := by
  induction n with
  | zero => exact ⟨rfl, rfl⟩
  | succ n ih =>
    have h : ¬ ("ERR: ".toList).isPrefixOf ("OUT: ".toList ++ x) = true := by
      intro hx
      have hf : ("ERR: ".toList).isPrefixOf ("OUT: ".toList ++ x) = false := rfl
      rw [hf] at hx
      exact absurd hx (by decide)
    rw [List.replicate_succ, (lines_cons_out _ _ h).1, (lines_cons_out _ _ h).2, ih.1, ih.2]
    exact ⟨rfl, rfl⟩

/-! ### The engine over `double` prices -/

theorem double_lt_num {a b : Double} (h : a.lt b = true) :
    ∃ x y, a = Double.num x ∧ b = Double.num y ∧ x < y := by
  cases a with
  | nan => simp [Double.lt] at h
  | num x =>
    cases b with
    | nan => simp [Double.lt] at h
    | num y => exact ⟨x, y, rfl, rfl, by simpa [Double.lt] using h⟩

theorem double_lt_of_num {x y : Int} : (Double.num x).lt (Double.num y) = decide (x < y) := rfl

/-- What the proofs use of a comparator of a book: it is false on NaN, and on numbers it is a
strict total order. -/
theorem dbl_cmpOf_facts (side : Side) :
    (∀ a b, Dbl.cmpOf side a b = true → a ≠ Double.nan ∧ b ≠ Double.nan) ∧
    (∀ a, Dbl.cmpOf side a a = false) ∧
    (∀ a b c, Dbl.cmpOf side a b = true → Dbl.cmpOf side b c = true →
      Dbl.cmpOf side a c = true) ∧
    (∀ a b, a ≠ Double.nan → b ≠ Double.nan → Dbl.cmpOf side a b = false →
      Dbl.cmpOf side b a = false → a = b) := by
  cases side
  · refine ⟨?_, ?_, ?_, ?_⟩
    · intro a b h
      obtain ⟨x, y, rfl, rfl, -⟩ := double_lt_num (show b.lt a = true from h)
      exact ⟨by simp, by simp⟩
    · intro a
      cases a with
      | nan => rfl
      | num x => simp [Dbl.cmpOf, Dbl.buyCmp, Double.lt]
    · intro a b c h1 h2
      obtain ⟨x, y, rfl, rfl, hxy⟩ := double_lt_num (show b.lt a = true from h1)
      obtain ⟨z, w, rfl, hw, hzw⟩ := double_lt_num (show c.lt (Double.num x) = true from h2)
      cases hw
      simp only [Dbl.cmpOf, Dbl.buyCmp, Double.lt, decide_eq_true_eq]
      omega
    · intro a b ha hb h1 h2
      cases a with
      | nan => exact absurd rfl ha
      | num x =>
        cases b with
        | nan => exact absurd rfl hb
        | num y =>
          simp only [Dbl.cmpOf, Dbl.buyCmp, Double.lt, decide_eq_false_iff_not] at h1 h2
          have : x = y := by omega
          rw [this]
  · refine ⟨?_, ?_, ?_, ?_⟩
    · intro a b h
      obtain ⟨x, y, rfl, rfl, -⟩ := double_lt_num (show a.lt b = true from h)
      exact ⟨by simp, by simp⟩
    · intro a
      cases a with
      | nan => rfl
      | num x => simp [Dbl.cmpOf, Dbl.sellCmp, Double.lt]
    · intro a b c h1 h2
      obtain ⟨x, y, rfl, rfl, hxy⟩ := double_lt_num (show a.lt b = true from h1)
      obtain ⟨z, w, hz, rfl, hzw⟩ := double_lt_num (show (Double.num y).lt c = true from h2)
      cases hz
      simp only [Dbl.cmpOf, Dbl.sellCmp, Double.lt, decide_eq_true_eq]
      omega
    · intro a b ha hb h1 h2
      cases a with
      | nan => exact absurd rfl ha
      | num x =>
        cases b with
        | nan => exact absurd rfl hb
        | num y =>
          simp only [Dbl.cmpOf, Dbl.sellCmp, Double.lt, decide_eq_false_iff_not] at h1 h2
          have : x = y := by omega
          rw [this]

theorem dbl_cmp_nan_left (side : Side) (b : Double) : Dbl.cmpOf side Double.nan b = false := by
  cases h : Dbl.cmpOf side Double.nan b
  · rfl
  · exact absurd rfl ((dbl_cmpOf_facts side).1 _ _ h).1

theorem dbl_cmp_nan_right (side : Side) (a : Double) : Dbl.cmpOf side a Double.nan = false := by
  cases h : Dbl.cmpOf side a Double.nan
  · rfl
  · exact absurd rfl ((dbl_cmpOf_facts side).1 _ _ h).2

theorem dbl_pushBack_keys (cmp : Double → Double → Bool) (book : Dbl.Book) (o : Dbl.Order) :
    ∀ l ∈ Dbl.pushBack cmp book o, l.1 = o.price ∨ ∃ l0 ∈ book, l0.1 = l.1 := by
  induction book with
  | nil =>
    intro l hl
    simp only [Dbl.pushBack, List.mem_singleton] at hl
    exact Or.inl (by rw [hl])
  | cons hd rest ih =>
    obtain ⟨k, orders⟩ := hd
    intro l hl
    simp only [Dbl.pushBack] at hl
    split at hl
    · rcases List.mem_cons.mp hl with h | h
      · exact Or.inr ⟨(k, orders), List.mem_cons_self _ _, by rw [h]⟩
      · rcases ih l h with h1 | ⟨l0, hl0, h2⟩
        · exact Or.inl h1
        · exact Or.inr ⟨l0, List.mem_cons_of_mem _ hl0, h2⟩
    · split at hl
      · rcases List.mem_cons.mp hl with h | h
        · exact Or.inl (by rw [h])
        · exact Or.inr ⟨l, h, rfl⟩
      · rcases List.mem_cons.mp hl with h | h
        · exact Or.inr ⟨(k, orders), List.mem_cons_self _ _, by rw [h]⟩
        · exact Or.inr ⟨l, List.mem_cons_of_mem _ h, rfl⟩

theorem dbl_pushBack_shape (side : Side) (book : Dbl.Book) (o : Dbl.Order)
    (h : Dbl.BookShape (Dbl.cmpOf side) book) :
    Dbl.BookShape (Dbl.cmpOf side) (Dbl.pushBack (Dbl.cmpOf side) book o) := by
  obtain ⟨hnan, hirr, htrans, htotal⟩ := dbl_cmpOf_facts side
  rcases h with ⟨hkeys, hsorted, hprice⟩ | ⟨orders, rfl⟩
  · by_cases hp : o.price = Double.nan
    · cases book with
      | nil => exact Or.inr ⟨[o], by simp [Dbl.pushBack, hp]⟩
      | cons hd rest =>
        obtain ⟨k, orders⟩ := hd
        have heq : Dbl.pushBack (Dbl.cmpOf side) ((k, orders) :: rest) o =
            (k, orders ++ [o]) :: rest := by
          simp only [Dbl.pushBack, hp, dbl_cmp_nan_left, dbl_cmp_nan_right]
          simp
        rw [heq]
        refine Or.inl ⟨?_, ?_, ?_⟩
        · intro l hl
          rcases List.mem_cons.mp hl with h | h
          · rw [h]
            exact hkeys (k, orders) (List.mem_cons_self _ _)
          · exact hkeys l (List.mem_cons_of_mem _ h)
        · rw [List.pairwise_cons] at hsorted ⊢
          exact ⟨fun l hl => hsorted.1 l hl, hsorted.2⟩
        · intro l hl x hx hxp
          rcases List.mem_cons.mp hl with h | h
          · rw [h] at hx ⊢
            rcases List.mem_append.mp hx with hx1 | hx1
            · exact hprice (k, orders) (List.mem_cons_self _ _) x hx1 hxp
            · rw [List.mem_singleton.mp hx1] at hxp
              exact absurd hp hxp
          · exact hprice l (List.mem_cons_of_mem _ h) x hx hxp
    · refine Or.inl ⟨?_, ?_, ?_⟩
      · intro l hl
        rcases dbl_pushBack_keys _ book o l hl with h | ⟨l0, hl0, h⟩
        · rw [h]; exact hp
        · rw [← h]; exact hkeys l0 hl0
      · clear hprice
        induction book with
        | nil => simp [Dbl.pushBack]
        | cons hd rest ih =>
          obtain ⟨k, orders⟩ := hd
          rw [List.pairwise_cons] at hsorted
          have hk : k ≠ Double.nan := hkeys (k, orders) (List.mem_cons_self _ _)
          have hkeys2 : ∀ l ∈ rest, l.1 ≠ Double.nan :=
            fun l hl => hkeys l (List.mem_cons_of_mem _ hl)
          simp only [Dbl.pushBack]
          split
          · rename_i hc
            rw [List.pairwise_cons]
            refine ⟨?_, ih hkeys2 hsorted.2⟩
            intro l hl
            rcases dbl_pushBack_keys _ rest o l hl with h | ⟨l0, hl0, h⟩
            · rw [h]; exact hc
            · rw [← h]; exact hsorted.1 l0 hl0
          · split
            · rename_i hc1 hc2
              rw [List.pairwise_cons, List.pairwise_cons]
              refine ⟨?_, hsorted.1, hsorted.2⟩
              intro l hl
              rcases List.mem_cons.mp hl with h | h
              · rw [h]; exact hc2
              · exact htrans _ _ _ hc2 (hsorted.1 l h)
            · rw [List.pairwise_cons]
              exact ⟨hsorted.1, hsorted.2⟩
      · clear hsorted
        induction book with
        | nil =>
          intro l hl x hx _
          simp only [Dbl.pushBack, List.mem_singleton] at hl
          rw [hl] at hx ⊢
          simp only [List.mem_singleton] at hx
          rw [hx]
        | cons hd rest ih =>
          obtain ⟨k, orders⟩ := hd
          have hk : k ≠ Double.nan := hkeys (k, orders) (List.mem_cons_self _ _)
          have hkeys2 : ∀ l ∈ rest, l.1 ≠ Double.nan :=
            fun l hl => hkeys l (List.mem_cons_of_mem _ hl)
          have hprice2 : ∀ l ∈ rest, ∀ x ∈ l.2, x.price ≠ Double.nan → x.price = l.1 :=
            fun l hl => hprice l (List.mem_cons_of_mem _ hl)
          have hhead := hprice (k, orders) (List.mem_cons_self _ _)
          simp only [Dbl.pushBack]
          split
          · intro l hl x hx hxp
            rcases List.mem_cons.mp hl with h | h
            · rw [h] at hx ⊢
              exact hhead x hx hxp
            · exact ih hkeys2 hprice2 l h x hx hxp
          · split
            · intro l hl x hx hxp
              rcases List.mem_cons.mp hl with h | h
              · rw [h] at hx ⊢
                simp only [List.mem_singleton] at hx
                rw [hx]
              · exact hprice l h x hx hxp
            · rename_i hc1 hc2
              have hc1f : Dbl.cmpOf side k o.price = false := by
                cases hb : Dbl.cmpOf side k o.price
                · rfl
                · exact absurd hb hc1
              have hc2f : Dbl.cmpOf side o.price k = false := by
                cases hb : Dbl.cmpOf side o.price k
                · rfl
                · exact absurd hb hc2
              have hkp : k = o.price := htotal k o.price hk hp hc1f hc2f
              intro l hl x hx hxp
              rcases List.mem_cons.mp hl with h | h
              · rw [h] at hx ⊢
                rcases List.mem_append.mp hx with hx1 | hx1
                · exact hhead x hx1 hxp
                · rw [List.mem_singleton.mp hx1]
                  exact hkp.symm
              · exact hprice2 l h x hx hxp
  · refine Or.inr ⟨orders ++ [o], ?_⟩
    simp only [Dbl.pushBack, dbl_cmp_nan_left, dbl_cmp_nan_right]
    simp

theorem dbl_cancelInBook_sub (cmp : Double → Double → Bool) (book : Dbl.Book) (price : Double)
    (order_id : Nat) :
    ∀ l ∈ Dbl.cancelInBook cmp book price order_id,
      ∃ l0 ∈ book, l0.1 = l.1 ∧ ∀ x ∈ l.2, x ∈ l0.2 := by
  induction book with
  | nil =>
    intro l hl
    simp [Dbl.cancelInBook] at hl
  | cons hd rest ih =>
    obtain ⟨k, orders⟩ := hd
    intro l hl
    simp only [Dbl.cancelInBook] at hl
    split at hl
    · rcases List.mem_cons.mp hl with h | h
      · exact ⟨(k, orders), List.mem_cons_self _ _, by rw [h], by rw [h]; exact fun x hx => hx⟩
      · obtain ⟨l0, hl0, h1, h2⟩ := ih l h
        exact ⟨l0, List.mem_cons_of_mem _ hl0, h1, h2⟩
    · split at hl
      · exact ⟨l, hl, rfl, fun x hx => hx⟩
      · split at hl
        · exact ⟨l, List.mem_cons_of_mem _ hl, rfl, fun x hx => hx⟩
        · rcases List.mem_cons.mp hl with h | h
          · refine ⟨(k, orders), List.mem_cons_self _ _, by rw [h], ?_⟩
            rw [h]
            intro x hx
            exact (List.mem_filter.mp hx).1
          · exact ⟨l, List.mem_cons_of_mem _ h, rfl, fun x hx => hx⟩

theorem dbl_cancelInBook_shape (side : Side) (book : Dbl.Book) (price : Double) (order_id : Nat)
    (h : Dbl.BookShape (Dbl.cmpOf side) book) :
    Dbl.BookShape (Dbl.cmpOf side) (Dbl.cancelInBook (Dbl.cmpOf side) book price order_id) := by
  rcases h with ⟨hkeys, hsorted, hprice⟩ | ⟨orders, rfl⟩
  · refine Or.inl ⟨?_, ?_, ?_⟩
    · intro l hl
      obtain ⟨l0, hl0, h1, -⟩ := dbl_cancelInBook_sub _ book price order_id l hl
      rw [← h1]
      exact hkeys l0 hl0
    · clear hkeys hprice
      induction book with
      | nil => simp [Dbl.cancelInBook]
      | cons hd rest ih =>
        obtain ⟨k, orders⟩ := hd
        rw [List.pairwise_cons] at hsorted
        simp only [Dbl.cancelInBook]
        split
        · rw [List.pairwise_cons]
          refine ⟨?_, ih hsorted.2⟩
          intro l hl
          obtain ⟨l0, hl0, h1, -⟩ := dbl_cancelInBook_sub _ rest price order_id l hl
          rw [← h1]
          exact hsorted.1 l0 hl0
        · split
          · rw [List.pairwise_cons]
            exact hsorted
          · split
            · exact hsorted.2
            · rw [List.pairwise_cons]
              exact ⟨hsorted.1, hsorted.2⟩
    · intro l hl x hx hxp
      obtain ⟨l0, hl0, h1, h2⟩ := dbl_cancelInBook_sub _ book price order_id l hl
      rw [← h1]
      exact hprice l0 hl0 x (h2 x hx) hxp
  · simp only [Dbl.cancelInBook, dbl_cmp_nan_left, dbl_cmp_nan_right]
    simp only [Bool.false_eq_true, if_false]
    split
    · exact Or.inl ⟨by simp, by simp, by simp⟩
    · exact Or.inr ⟨_, rfl⟩

theorem dbl_restingOrders_append (b1 b2 : Dbl.Book) :
    Dbl.restingOrders (b1 ++ b2) = Dbl.restingOrders b1 ++ Dbl.restingOrders b2 := by
  induction b1 with
  | nil => rfl
  | cons hd rest ih => simp [Dbl.restingOrders, ih]

/-- The three things an iteration of the loop can do, in every state: erase an empty best level,
pop the front order of the best level after a trade, or reduce it after a trade that brings the
aggressive quantity to 0. In each case the best price passed the test `can_match`. -/
theorem dbl_matchStep_cases {st st1 : Dbl.LoopState} (h : Dbl.matchStep st = some st1) :
    ∃ k orders rest, st.opposite_book = (k, orders) :: rest ∧
      Dbl.canMatch st.aggressive_order k = true ∧
      ((orders = [] ∧ st1.opposite_book = rest ∧ st1.out = st.out) ∨
        (∃ r others evs, orders = r :: others ∧
          st1.opposite_book = (if others.isEmpty then rest else (k, others) :: rest) ∧
          st1.out = st.out ++ evs ∧ Dbl.Event.fullyFilled r.order_id ∈ evs) ∨
        (∃ r others evs newq, orders = r :: others ∧
          st1.opposite_book = (k, { r with quantity := newq } :: others) :: rest ∧
          st1.out = st.out ++ evs ∧ st1.aggressive_order.quantity = 0)) := by
  obtain ⟨book, m, a, out⟩ := st
  unfold Dbl.matchStep at h
  simp only at h
  split at h
  · split at h
    · exact absurd h (by simp)
    · rename_i k orders rest
      split at h
      · rename_i hc
        refine ⟨k, orders, rest, rfl, hc, ?_⟩
        split at h
        · simp only [Option.some.injEq] at h
          subst h
          exact Or.inl ⟨rfl, rfl, rfl⟩
        · rename_i r others
          split at h
          · simp only [Option.some.injEq] at h
            subst h
            exact Or.inr (Or.inl ⟨r, others, _, rfl, rfl, rfl, by simp⟩)
          · rename_i hr
            simp only [Option.some.injEq] at h
            subst h
            have hmin : min a.quantity r.quantity = a.quantity := by
              rcases Nat.le_total a.quantity r.quantity with hle | hle
              · exact Nat.min_eq_left hle
              · exfalso
                apply hr
                rw [Nat.min_eq_right hle]
                exact wrapSub_self _
            refine Or.inr (Or.inr ⟨r, others, _, _, rfl, rfl, rfl, ?_⟩)
            simp only [hmin]
            exact wrapSub_self _
      · exact absurd h (by simp)
  · exact absurd h (by simp)

theorem dbl_matchStep_shape (side : Side) {st st1 : Dbl.LoopState}
    (h : Dbl.matchStep st = some st1) (hs : Dbl.BookShape (Dbl.cmpOf side) st.opposite_book) :
    Dbl.BookShape (Dbl.cmpOf side) st1.opposite_book := by
  obtain ⟨k, orders, rest, hb, -, hcases⟩ := dbl_matchStep_cases h
  rw [hb] at hs
  have htail : Dbl.BookShape (Dbl.cmpOf side) rest := by
    rcases hs with ⟨h1, h2, h3⟩ | ⟨o, ho⟩
    · exact Or.inl ⟨fun l hl => h1 l (List.mem_cons_of_mem _ hl), (List.pairwise_cons.mp h2).2,
        fun l hl => h3 l (List.mem_cons_of_mem _ hl)⟩
    · rw [(List.cons.inj ho).2]
      exact Or.inl ⟨by simp, by simp, by simp⟩
  have hsub : ∀ orders2 : List Dbl.Order,
      (∀ x ∈ orders2, ∃ x0 ∈ orders, x0.price = x.price) →
      Dbl.BookShape (Dbl.cmpOf side) ((k, orders2) :: rest) := by
    intro orders2 hsub
    rcases hs with ⟨h1, h2, h3⟩ | ⟨o, ho⟩
    · refine Or.inl ⟨?_, ?_, ?_⟩
      · intro l hl
        rcases List.mem_cons.mp hl with hh | hh
        · rw [hh]
          exact h1 (k, orders) (List.mem_cons_self _ _)
        · exact h1 l (List.mem_cons_of_mem _ hh)
      · rw [List.pairwise_cons] at h2 ⊢
        exact ⟨h2.1, h2.2⟩
      · intro l hl x hx hxp
        rcases List.mem_cons.mp hl with hh | hh
        · rw [hh] at hx ⊢
          obtain ⟨x0, hx0, hp0⟩ := hsub x hx
          rw [← hp0] at hxp ⊢
          exact h3 (k, orders) (List.mem_cons_self _ _) x0 hx0 hxp
        · exact h3 l (List.mem_cons_of_mem _ hh) x hx hxp
    · have hk : k = Double.nan := (Prod.mk.inj (List.cons.inj ho).1).1
      rw [hk, (List.cons.inj ho).2]
      exact Or.inr ⟨orders2, rfl⟩
  rcases hcases with ⟨-, h2, -⟩ | ⟨r, others, evs, ho, h2, -⟩ | ⟨r, others, evs, newq, ho, h2, -⟩
  · rw [h2]
    exact htail
  · rw [h2]
    split
    · exact htail
    · apply hsub
      intro x hx
      exact ⟨x, by rw [ho]; exact List.mem_cons_of_mem _ hx, rfl⟩
  · rw [h2]
    apply hsub
    intro x hx
    rcases List.mem_cons.mp hx with hh | hh
    · exact ⟨r, by rw [ho]; exact List.mem_cons_self _ _, by rw [hh]⟩
    · exact ⟨x, by rw [ho]; exact List.mem_cons_of_mem _ hh, rfl⟩

theorem dbl_matchLoop_shape (side : Side) :
    ∀ (fuel : Nat) (st : Dbl.LoopState), Dbl.BookShape (Dbl.cmpOf side) st.opposite_book →
      Dbl.BookShape (Dbl.cmpOf side) (Dbl.matchLoop fuel st).opposite_book := by
  intro fuel
  induction fuel with
  | zero => intro st hs; exact hs
  | succ fuel ih =>
    intro st hs
    simp only [Dbl.matchLoop]
    cases hstep : Dbl.matchStep st with
    | none => exact hs
    | some st1 => exact ih st1 (dbl_matchStep_shape side hstep hs)

/-- The loop pops a prefix of the iteration order of the opposite book, logging FILLED for each
popped order, and reduces at most the order right behind that prefix; everything further back
is untouched. -/
theorem dbl_matchLoop_consumed :
    ∀ (fuel : Nat) (st : Dbl.LoopState), ∃ n,
      (Dbl.restingOrders (Dbl.matchLoop fuel st).opposite_book =
          (Dbl.restingOrders st.opposite_book).drop n ∨
        ∃ r tail newq, (Dbl.restingOrders st.opposite_book).drop n = r :: tail ∧
          Dbl.restingOrders (Dbl.matchLoop fuel st).opposite_book =
            { r with quantity := newq } :: tail) ∧
      (∀ i, i < n → ∀ y, (Dbl.restingOrders st.opposite_book).get? i = some y →
        Dbl.Event.fullyFilled y.order_id ∈ (Dbl.matchLoop fuel st).out) ∧
      (∀ ev ∈ st.out, ev ∈ (Dbl.matchLoop fuel st).out) := by
  intro fuel
  induction fuel with
  | zero =>
    intro st
    exact ⟨0, Or.inl rfl, fun i hi => absurd hi (Nat.not_lt_zero _), fun ev h => h⟩
  | succ fuel ih =>
    intro st
    simp only [Dbl.matchLoop]
    cases hstep : Dbl.matchStep st with
    | none => exact ⟨0, Or.inl rfl, fun i hi => absurd hi (Nat.not_lt_zero _), fun ev h => h⟩
    | some st1 =>
      simp only
      obtain ⟨k, orders, rest, hb, -, hcases⟩ := dbl_matchStep_cases hstep
      rcases hcases with ⟨ho, h2, h3⟩ | ⟨r, others, evs, ho, h2, h3, h4⟩ |
        ⟨r, others, evs, newq, ho, h2, h3, h4⟩
      · obtain ⟨n, g1, g2, g3⟩ := ih st1
        have hL : Dbl.restingOrders st.opposite_book = Dbl.restingOrders st1.opposite_book := by
          rw [hb, h2, ho]
          rfl
        rw [hL]
        refine ⟨n, g1, g2, ?_⟩
        intro ev hev
        exact g3 ev (by rw [h3]; exact hev)
      · obtain ⟨n, g1, g2, g3⟩ := ih st1
        have hL : Dbl.restingOrders st.opposite_book =
            r :: Dbl.restingOrders st1.opposite_book := by
          rw [hb, h2, ho]
          cases others <;> rfl
        rw [hL]
        refine ⟨n + 1, ?_, ?_, ?_⟩
        · simpa using g1
        · intro i hi y hy
          cases i with
          | zero =>
            simp only [List.get?_cons_zero, Option.some.injEq] at hy
            rw [← hy]
            exact g3 _ (by rw [h3]; exact List.mem_append_right _ h4)
          | succ i =>
            simp only [List.get?_cons_succ] at hy
            exact g2 i (by omega) y hy
        · intro ev hev
          exact g3 ev (by rw [h3]; exact List.mem_append_left _ hev)
      · have hstop : Dbl.matchLoop fuel st1 = st1 := by
          cases fuel with
          | zero => rfl
          | succ fuel =>
            simp only [Dbl.matchLoop]
            have : Dbl.matchStep st1 = none := by
              unfold Dbl.matchStep
              rw [if_neg (by omega)]
            rw [this]
        rw [hstop]
        refine ⟨0, Or.inr ⟨r, others ++ Dbl.restingOrders rest, newq, ?_, ?_⟩,
          fun i hi => absurd hi (Nat.not_lt_zero _), ?_⟩
        · rw [hb, ho]
          rfl
        · rw [h2]
          rfl
        · intro ev hev
          rw [h3]
          exact List.mem_append_left _ hev

/-- A book whose only key is NaN is never matched against: the test `can_match` fails. -/
theorem dbl_matchLoop_nan (fuel : Nat) (st : Dbl.LoopState) (orders : List Dbl.Order)
    (h : st.opposite_book = [(Double.nan, orders)]) : Dbl.matchLoop fuel st = st := by
  have hstep : Dbl.matchStep st = none := by
    cases hs : Dbl.matchStep st with
    | none => rfl
    | some st1 =>
      obtain ⟨k, o, rest, hb, hc, -⟩ := dbl_matchStep_cases hs
      rw [h] at hb
      have hk : k = Double.nan := (Prod.mk.inj (List.cons.inj hb).1).1.symm
      rw [hk] at hc
      unfold Dbl.canMatch at hc
      cases hside : st.aggressive_order.side <;> rw [hside] at hc <;>
        cases hp : st.aggressive_order.price <;> rw [hp] at hc <;> simp [Double.le] at hc
  cases fuel with
  | zero => rfl
  | succ fuel =>
    simp only [Dbl.matchLoop]
    rw [hstep]

theorem dbl_matchStep_aggressive {st st1 : Dbl.LoopState} (h : Dbl.matchStep st = some st1) :
    st1.aggressive_order.side = st.aggressive_order.side ∧
    st1.aggressive_order.order_id = st.aggressive_order.order_id ∧
    st1.aggressive_order.price = st.aggressive_order.price := by
  obtain ⟨book, m, a, out⟩ := st
  unfold Dbl.matchStep at h
  simp only at h
  split at h
  · split at h
    · exact absurd h (by simp)
    · split at h
      · split at h
        · simp only [Option.some.injEq] at h
          subst h
          exact ⟨rfl, rfl, rfl⟩
        · split at h
          · simp only [Option.some.injEq] at h
            subst h
            exact ⟨rfl, rfl, rfl⟩
          · simp only [Option.some.injEq] at h
            subst h
            exact ⟨rfl, rfl, rfl⟩
      · exact absurd h (by simp)
  · exact absurd h (by simp)

theorem dbl_matchLoop_aggressive :
    ∀ (fuel : Nat) (st : Dbl.LoopState),
      (Dbl.matchLoop fuel st).aggressive_order.side = st.aggressive_order.side ∧
      (Dbl.matchLoop fuel st).aggressive_order.order_id = st.aggressive_order.order_id ∧
      (Dbl.matchLoop fuel st).aggressive_order.price = st.aggressive_order.price := by
  intro fuel
  induction fuel with
  | zero => intro st; exact ⟨rfl, rfl, rfl⟩
  | succ fuel ih =>
    intro st
    simp only [Dbl.matchLoop]
    cases hstep : Dbl.matchStep st with
    | none => exact ⟨rfl, rfl, rfl⟩
    | some st1 =>
      obtain ⟨h1, h2, h3⟩ := dbl_matchStep_aggressive hstep
      obtain ⟨g1, g2, g3⟩ := ih st1
      exact ⟨g1.trans h1, g2.trans h2, g3.trans h3⟩

/-- What `addOrder` does to the two books and what it logs, in terms of the loop of
`matchOrder`: with an id already in the index nothing changes; otherwise the opposite book is the
one the loop leaves and the own book is untouched or received the rest of the order. -/
theorem dbl_addOrder_books (e : Dbl.Engine) (id q : Nat) (p : Double) (side : Side) :
    ((e.m_orderMap id).isSome = true ∧ (Dbl.addOrder e id q p side).engine = e ∧
      (Dbl.addOrder e id q p side).out = []) ∨
    ((e.m_orderMap id).isSome = false ∧
      (Dbl.addOrder e id q p side).engine.bookOf side.opposite =
        (Dbl.loopResult e ⟨id, q, p, side⟩).opposite_book ∧
      (Dbl.addOrder e id q p side).out = (Dbl.loopResult e ⟨id, q, p, side⟩).out ∧
      ((Dbl.addOrder e id q p side).engine.bookOf side = e.bookOf side ∨
        ∃ o, (Dbl.addOrder e id q p side).engine.bookOf side =
          Dbl.pushBack (Dbl.cmpOf side) (e.bookOf side) o)) := by
  cases hsome : (e.m_orderMap id).isSome
  · right
    refine ⟨rfl, ?_⟩
    have hside := (dbl_matchLoop_aggressive
      (Dbl.loopBound (e.bookOf side.opposite)) (Dbl.loopStart e ⟨id, q, p, side⟩)).1
    unfold Dbl.addOrder
    rw [hsome]
    simp only [Bool.false_eq_true, if_false]
    cases side
    · have hs2 : (Dbl.matchOrder e ⟨id, q, p, Side.Buy⟩).2.1.side = Side.Buy := hside
      split
      · refine ⟨?_, rfl, Or.inr ⟨(Dbl.matchOrder e ⟨id, q, p, Side.Buy⟩).2.1, ?_⟩⟩
        · unfold Dbl.addToBook
          rw [hs2]
          rfl
        · unfold Dbl.addToBook
          rw [hs2]
          rfl
      · exact ⟨rfl, rfl, Or.inl rfl⟩
    · have hs2 : (Dbl.matchOrder e ⟨id, q, p, Side.Sell⟩).2.1.side = Side.Sell := hside
      split
      · refine ⟨?_, rfl, Or.inr ⟨(Dbl.matchOrder e ⟨id, q, p, Side.Sell⟩).2.1, ?_⟩⟩
        · unfold Dbl.addToBook
          rw [hs2]
          rfl
        · unfold Dbl.addToBook
          rw [hs2]
          rfl
      · exact ⟨rfl, rfl, Or.inl rfl⟩
  · left
    refine ⟨rfl, ?_, ?_⟩
    · unfold Dbl.addOrder
      rw [hsome]
      rfl
    · unfold Dbl.addOrder
      rw [hsome]
      rfl

theorem dbl_side_cases (s side : Side) : s = side ∨ s = side.opposite := by
  cases s <;> cases side <;> simp [Side.opposite]

theorem dbl_addOrder_shape (e : Dbl.Engine) (id q : Nat) (p : Double) (side : Side)
    (h : ∀ s, Dbl.BookShape (Dbl.cmpOf s) (e.bookOf s)) :
    ∀ s, Dbl.BookShape (Dbl.cmpOf s) ((Dbl.addOrder e id q p side).engine.bookOf s) := by
  intro s
  rcases dbl_addOrder_books e id q p side with ⟨-, h1, -⟩ | ⟨-, h1, -, h3⟩
  · rw [h1]
    exact h s
  · rcases dbl_side_cases s side with rfl | rfl
    · rcases h3 with h3 | ⟨o, h3⟩
      · rw [h3]
        exact h s
      · rw [h3]
        exact dbl_pushBack_shape s _ o (h s)
    · rw [h1]
      exact dbl_matchLoop_shape side.opposite _ _ (h side.opposite)

theorem dbl_cancelOrder_shape (e : Dbl.Engine) (id : Nat)
    (h : ∀ s, Dbl.BookShape (Dbl.cmpOf s) (e.bookOf s)) :
    ∀ s, Dbl.BookShape (Dbl.cmpOf s) ((Dbl.cancelOrder e id).engine.bookOf s) := by
  intro s
  unfold Dbl.cancelOrder
  cases hm : e.m_orderMap id with
  | none => exact h s
  | some o =>
    simp only
    cases hside : o.side
    · simp only
      cases s
      · exact dbl_cancelInBook_shape Side.Buy _ _ _ (h Side.Buy)
      · exact h Side.Sell
    · simp only
      cases s
      · exact h Side.Buy
      · exact dbl_cancelInBook_shape Side.Sell _ _ _ (h Side.Sell)

/-- Every reachable engine, NaN prices included, has books of the shape `BookShape`. -/
theorem dbl_reachable_shape {e : Dbl.Engine} (h : Dbl.Reachable e) :
    ∀ s, Dbl.BookShape (Dbl.cmpOf s) (e.bookOf s) := by
  induction h with
  | empty =>
    intro s
    cases s <;> exact Or.inl ⟨by simp [Dbl.Engine.bookOf, Dbl.Engine.empty],
      by simp [Dbl.Engine.bookOf, Dbl.Engine.empty],
      by simp [Dbl.Engine.bookOf, Dbl.Engine.empty]⟩
  | add _ id q p side _ _ ih => exact dbl_addOrder_shape _ id q p side ih
  | cancel _ id _ ih => exact dbl_cancelOrder_shape _ id ih

/-- The order that stands at a place of the book is the order at the rank of that place in the
iteration order. -/
theorem dbl_standsAt_rank :
    ∀ (book : Dbl.Book) (level pos : Nat) (o : Dbl.Order), Dbl.StandsAt book level pos o →
      (Dbl.restingOrders book).get? (Dbl.rankOf book level pos) = some o := by
  intro book
  induction book with
  | nil =>
    intro level pos o h
    obtain ⟨l, hl, -⟩ := h
    simp at hl
  | cons hd rest ih =>
    intro level pos o h
    obtain ⟨l, hl, ho⟩ := h
    cases level with
    | zero =>
      simp only [List.get?_cons_zero, Option.some.injEq] at hl
      subst hl
      have hlt : pos < hd.2.length := by
        rcases List.get?_eq_some.mp ho with ⟨hlt, -⟩
        exact hlt
      show (hd.2 ++ Dbl.restingOrders rest).get? (0 + pos) = some o
      rw [Nat.zero_add, List.get?_eq_getElem?, List.getElem?_append_left hlt,
        ← List.get?_eq_getElem?]
      exact ho
    | succ level =>
      simp only [List.get?_cons_succ] at hl
      have h2 := ih level pos o ⟨l, hl, ho⟩
      show (hd.2 ++ Dbl.restingOrders rest).get?
        ((hd.2 ++ Dbl.restingOrders (rest.take level)).length + pos) = some o
      rw [List.length_append, Nat.add_assoc, List.get?_eq_getElem?,
        List.getElem?_append_right (Nat.le_add_right _ _), Nat.add_sub_cancel_left,
        ← List.get?_eq_getElem?]
      exact h2

theorem dbl_offset_step :
    ∀ (book : Dbl.Book) (i : Nat) (l : Dbl.Level), book.get? i = some l →
      (Dbl.restingOrders (book.take (i + 1))).length =
        (Dbl.restingOrders (book.take i)).length + l.2.length := by
  intro book
  induction book with
  | nil =>
    intro i l h
    simp at h
  | cons hd rest ih =>
    intro i l h
    cases i with
    | zero =>
      simp only [List.get?_cons_zero, Option.some.injEq] at h
      subst h
      simp [Dbl.restingOrders]
    | succ i =>
      simp only [List.get?_cons_succ] at h
      have := ih i l h
      simp only [List.take_succ_cons, Dbl.restingOrders, List.length_append] at this ⊢
      omega

theorem dbl_offset_mono (book : Dbl.Book) (i : Nat) :
    ∀ j, i ≤ j →
      (Dbl.restingOrders (book.take i)).length ≤ (Dbl.restingOrders (book.take j)).length := by
  intro j hij
  obtain ⟨d, rfl⟩ : ∃ d, j = i + d := ⟨j - i, by omega⟩
  clear hij
  induction d with
  | zero => exact Nat.le_refl _
  | succ d ih =>
    cases hg : book.get? (i + d) with
    | none =>
      have hlen : book.length ≤ i + d := by
        rcases Nat.lt_or_ge (i + d) book.length with hlt | hge
        · have := List.get?_eq_some.mpr ⟨hlt, rfl⟩
          rw [hg] at this
          exact absurd this (by simp)
        · exact hge
      have e1 : book.take (i + (d + 1)) = book := List.take_of_length_le (by omega)
      have e2 : book.take (i + d) = book := List.take_of_length_le hlen
      rw [e1]
      rw [e2] at ih
      exact ih
    | some l =>
      have := dbl_offset_step book (i + d) l hg
      rw [← Nat.add_assoc, this]
      omega

/-- In a book with ordered numeric keys, an order that ranks ahead of another one stands before
it in the iteration order. -/
theorem dbl_rank_lt (side : Side) (book : Dbl.Book)
    (hsorted : book.Pairwise (fun l1 l2 => Dbl.cmpOf side l1.1 l2.1 = true))
    (hprice : ∀ l ∈ book, ∀ o ∈ l.2, o.price ≠ Double.nan → o.price = l.1)
    (ylevel ypos : Nat) (y : Dbl.Order) (xlevel xpos : Nat) (x : Dbl.Order)
    (hy : Dbl.StandsAt book ylevel ypos y) (hx : Dbl.StandsAt book xlevel xpos x)
    (hahead : Dbl.RanksAhead side ylevel ypos y xlevel xpos x) :
    Dbl.rankOf book ylevel ypos < Dbl.rankOf book xlevel xpos := by
  obtain ⟨hnan, hirr, htrans, -⟩ := dbl_cmpOf_facts side
  rcases hahead with hc | ⟨-, hl, hp⟩
  · obtain ⟨ly, hly, hoy⟩ := hy
    obtain ⟨lx, hlx, hox⟩ := hx
    obtain ⟨hyn, hxn⟩ := hnan _ _ hc
    obtain ⟨hylt, hyget⟩ := List.get?_eq_some.mp hly
    obtain ⟨hxlt, hxget⟩ := List.get?_eq_some.mp hlx
    have hymem : ly ∈ book := by rw [← hyget]; exact List.get_mem _ _ _
    have hxmem : lx ∈ book := by rw [← hxget]; exact List.get_mem _ _ _
    have hyo : y ∈ ly.2 := List.get?_mem hoy
    have hxo : x ∈ lx.2 := List.get?_mem hox
    have hky : y.price = ly.1 := hprice ly hymem y hyo hyn
    have hkx : x.price = lx.1 := hprice lx hxmem x hxo hxn
    rw [hky, hkx] at hc
    have hlevel : ylevel < xlevel := by
      rcases Nat.lt_trichotomy ylevel xlevel with h | h | h
      · exact h
      · exfalso
        subst h
        rw [hly] at hlx
        rw [Option.some.inj hlx] at hc
        rw [hirr] at hc
        exact absurd hc (by decide)
      · exfalso
        have hp := (List.pairwise_iff_get.mp hsorted) ⟨xlevel, hxlt⟩ ⟨ylevel, hylt⟩ h
        rw [hxget, hyget] at hp
        have := htrans _ _ _ hc hp
        rw [hirr] at this
        exact absurd this (by decide)
    have hposlt : ypos < ly.2.length := (List.get?_eq_some.mp hoy).1
    have h1 := dbl_offset_step book ylevel ly hly
    have h2 := dbl_offset_mono book (ylevel + 1) xlevel hlevel
    unfold Dbl.rankOf
    omega
  · unfold Dbl.rankOf
    rw [hl]
    omega

theorem dbl_reachable_S4 : Dbl.Reachable Dbl.scenarioS4 :=
  Dbl.Reachable.add
    (Dbl.Reachable.add Dbl.Reachable.empty 30 4 (Double.num 9900) Side.Buy (by decide)
      (by decide))
    31 6 (Double.num 9900) Side.Buy (by decide) (by decide)

theorem dbl_reachable_nanFirst : Dbl.Reachable Dbl.scenarioNaNFirst :=
  Dbl.Reachable.add Dbl.Reachable.empty 1 5 Double.nan Side.Buy (by decide) (by decide)

theorem dbl_reachable_nanAdds : Dbl.Reachable Dbl.scenarioNaNAdds :=
  Dbl.Reachable.add
    (Dbl.Reachable.add
      (Dbl.Reachable.add Dbl.Reachable.empty 1 5 (Double.num 10000) Side.Buy (by decide)
        (by decide))
      2 5 Double.nan Side.Buy (by decide) (by decide))
    3 5 (Double.num 10500) Side.Buy (by decide) (by decide)

theorem dbl_reachable_nan : Dbl.Reachable Dbl.scenarioNaN :=
  Dbl.Reachable.cancel dbl_reachable_nanAdds 2 (by decide)

/-- The four messages of `nanMessages` are accepted without a diagnostic and leave the engine
`Dbl.scenarioNaN`. -/
theorem dbl_nanMessages_run :
    (Dbl.runMessages stodCents Dbl.Engine.empty nanMessages).map
        (fun r => r.engine.m_buyOrderBook) = some Dbl.scenarioNaN.m_buyOrderBook ∧
    (Dbl.runMessages stodCents Dbl.Engine.empty nanMessages).map
        (fun r => r.engine.m_sellOrderBook) = some Dbl.scenarioNaN.m_sellOrderBook ∧
    (Dbl.runMessages stodCents Dbl.Engine.empty nanMessages).map
        (fun r => (r.engine.m_orderMap 1, r.engine.m_orderMap 2, r.engine.m_orderMap 3)) =
      some (Dbl.scenarioNaN.m_orderMap 1, Dbl.scenarioNaN.m_orderMap 2,
        Dbl.scenarioNaN.m_orderMap 3) ∧
    (Dbl.runMessages stodCents Dbl.Engine.empty nanMessages).map (fun r => r.err) = some [] :=
  ⟨by decide, by decide, by decide, by decide⟩

/-! ### The engine over exact prices is the engine over `double` prices without NaN -/

theorem dbl_cmpOf_num (side : Side) (a b : Int) :
    Dbl.cmpOf side (Double.num a) (Double.num b) = cmpOf side a b := by
  cases side <;> rfl

theorem dbl_ofBook_resting (book : Book) :
    Dbl.restingOrders (Dbl.ofBook book) = (restingOrders book).map Dbl.ofOrder := by
  induction book with
  | nil => rfl
  | cons hd rest ih =>
    show (hd.2.map Dbl.ofOrder) ++ Dbl.restingOrders (Dbl.ofBook rest) = _
    rw [ih]
    simp [restingOrders]

theorem dbl_ofBook_loopBound (book : Book) :
    Dbl.loopBound (Dbl.ofBook book) = loopBound book := by
  unfold Dbl.loopBound loopBound
  rw [dbl_ofBook_resting]
  simp [Dbl.ofBook]

theorem dbl_ofBook_pushBack (side : Side) (book : Book) (o : Order) :
    Dbl.pushBack (Dbl.cmpOf side) (Dbl.ofBook book) (Dbl.ofOrder o) =
      Dbl.ofBook (pushBack (cmpOf side) book o) := by
  induction book with
  | nil => rfl
  | cons hd rest ih =>
    obtain ⟨k, orders⟩ := hd
    have hl : Dbl.pushBack (Dbl.cmpOf side)
        (Dbl.ofBook ((k, orders) :: rest)) (Dbl.ofOrder o) =
        if cmpOf side k o.price = true then
          (Double.num k, orders.map Dbl.ofOrder) ::
            Dbl.pushBack (Dbl.cmpOf side) (Dbl.ofBook rest) (Dbl.ofOrder o)
        else if cmpOf side o.price k = true then
          (Double.num o.price, [Dbl.ofOrder o]) :: (Double.num k, orders.map Dbl.ofOrder) ::
            Dbl.ofBook rest
        else (Double.num k, orders.map Dbl.ofOrder ++ [Dbl.ofOrder o]) :: Dbl.ofBook rest := by
      show Dbl.pushBack (Dbl.cmpOf side)
        ((Double.num k, orders.map Dbl.ofOrder) :: Dbl.ofBook rest) (Dbl.ofOrder o) = _
      simp only [Dbl.pushBack]
      have hp : (Dbl.ofOrder o).price = Double.num o.price := rfl
      rw [hp, dbl_cmpOf_num, dbl_cmpOf_num]
    have hr : pushBack (cmpOf side) ((k, orders) :: rest) o =
        if k = o.price then (k, orders ++ [o]) :: rest
        else if cmpOf side o.price k = true then (o.price, [o]) :: (k, orders) :: rest
        else (k, orders) :: pushBack (cmpOf side) rest o := by
      simp only [pushBack]
    rw [hl, hr, ih]
    by_cases hk : k = o.price
    · have hirr : cmpOf side k o.price = false ∧ cmpOf side o.price k = false := by
        rw [hk]
        cases side <;> simp [cmpOf, buyCmp, sellCmp]
      rw [if_pos hk, hirr.1, hirr.2]
      simp [Dbl.ofBook]
    · rw [if_neg hk]
      by_cases hc : cmpOf side o.price k = true
      · have hc2 : cmpOf side k o.price = false := by
          cases side <;> simp only [cmpOf, buyCmp, sellCmp, decide_eq_true_eq,
            decide_eq_false_iff_not] at hc ⊢ <;> omega
        simp [Dbl.ofBook, Dbl.ofOrder, hc, hc2]
      · have hc2 : cmpOf side k o.price = true := by
          cases side <;> simp only [cmpOf, buyCmp, sellCmp, decide_eq_true_eq] at hc ⊢ <;> omega
        simp [Dbl.ofBook, hc, hc2]

theorem dbl_ofIndex_erase (m : Nat → Option Order) (id : Nat) :
    Dbl.ofIndex (eraseOrder m id) = Dbl.eraseOrder (Dbl.ofIndex m) id := by
  funext k
  unfold Dbl.ofIndex eraseOrder Dbl.eraseOrder
  split <;> rfl

theorem dbl_ofIndex_insert (m : Nat → Option Order) (o : Order) :
    Dbl.ofIndex (insertOrder m o) = Dbl.insertOrder (Dbl.ofIndex m) (Dbl.ofOrder o) := by
  funext k
  unfold Dbl.ofIndex insertOrder Dbl.insertOrder
  show Option.map Dbl.ofOrder (if k = o.order_id then some o else m k) =
    if k = o.order_id then some (Dbl.ofOrder o) else Option.map Dbl.ofOrder (m k)
  split <;> rfl

theorem dbl_ofIndex_setQuantity (m : Nat → Option Order) (id q : Nat) :
    Dbl.ofIndex (setQuantity m id q) = Dbl.setQuantity (Dbl.ofIndex m) id q := by
  funext k
  unfold Dbl.ofIndex setQuantity Dbl.setQuantity
  split
  · cases hm : m id <;> simp [hm, Dbl.ofOrder]
  · rfl

theorem dbl_canMatch_of (a : Order) (k : Int) :
    Dbl.canMatch (Dbl.ofOrder a) (Double.num k) = canMatch a k := by
  obtain ⟨id, q, p, side⟩ := a
  cases side <;> rfl

/-- One iteration of the match loop over `double` prices, on a state without NaN, is the
iteration over exact prices. -/
theorem dbl_matchStep_of (st : LoopState) :
    Dbl.matchStep (Dbl.ofLoopState st) = (matchStep st).map Dbl.ofLoopState := by
  obtain ⟨book, m, a, out⟩ := st
  unfold Dbl.matchStep matchStep
  show (if (Dbl.ofOrder a).quantity > 0 then _ else _) = _
  have hq : (Dbl.ofOrder a).quantity = a.quantity := rfl
  simp only [hq]
  by_cases ha : a.quantity > 0
  · rw [if_pos ha, if_pos ha]
    cases book with
    | nil => rfl
    | cons hd rest =>
      obtain ⟨k, orders⟩ := hd
      show (if Dbl.canMatch (Dbl.ofOrder a) (Double.num k) = true then _ else _) = _
      rw [dbl_canMatch_of]
      by_cases hc : canMatch a k = true
      · simp only [hc, if_true]
        cases orders with
        | nil => rfl
        | cons r others =>
          show (if wrapSub (Dbl.ofOrder r).quantity
              (min a.quantity (Dbl.ofOrder r).quantity) = 0 then _ else _) = _
          have hr : (Dbl.ofOrder r).quantity = r.quantity := rfl
          simp only [hr]
          by_cases hz : wrapSub r.quantity (min a.quantity r.quantity) = 0
          · simp only [hz, if_true, Option.map_some']
            congr 1
            simp only [Dbl.ofLoopState, Dbl.LoopState.mk.injEq]
            refine ⟨?_, (dbl_ofIndex_erase m r.order_id).symm, rfl, ?_⟩
            · cases others <;> rfl
            · by_cases hpos : wrapSub a.quantity (min a.quantity r.quantity) > 0 <;>
                simp [hpos, Dbl.ofEvent, Dbl.ofOrder, emitTradeEvent, emitFullyFilled,
                  emitPartiallyFilled]
          · simp only [hz, if_false, Option.map_some']
            congr 1
            simp only [Dbl.ofLoopState, Dbl.LoopState.mk.injEq]
            refine ⟨rfl, (dbl_ofIndex_setQuantity m r.order_id _).symm, rfl, ?_⟩
            by_cases hpos : wrapSub a.quantity (min a.quantity r.quantity) > 0 <;>
              simp [hpos, Dbl.ofEvent, Dbl.ofOrder, emitTradeEvent, emitFullyFilled,
                emitPartiallyFilled]
      · simp only [hc, if_false]
        rfl
  · rw [if_neg ha, if_neg ha]
    rfl

theorem dbl_matchLoop_of :
    ∀ (fuel : Nat) (st : LoopState),
      Dbl.matchLoop fuel (Dbl.ofLoopState st) = Dbl.ofLoopState (matchLoop fuel st) := by
  intro fuel
  induction fuel with
  | zero => intro st; rfl
  | succ fuel ih =>
    intro st
    simp only [Dbl.matchLoop, matchLoop]
    rw [dbl_matchStep_of]
    cases matchStep st with
    | none => rfl
    | some st1 => exact ih st1

theorem dbl_matchOrder_of (e : Engine) (a : Order) :
    Dbl.matchOrder (Dbl.ofEngine e) (Dbl.ofOrder a) =
      (Dbl.ofEngine (matchOrder e a).1, Dbl.ofOrder (matchOrder e a).2.1,
        (matchOrder e a).2.2.map Dbl.ofEvent) := by
  obtain ⟨id, q, p, side⟩ := a
  cases side
  · have h := dbl_matchLoop_of (loopBound e.m_sellOrderBook)
      { opposite_book := e.m_sellOrderBook, m_orderMap := e.m_orderMap,
        aggressive_order := ⟨id, q, p, Side.Buy⟩, out := [] }
    show (_, _, _) = _
    unfold matchOrder
    simp only
    have hb : Dbl.loopBound (Dbl.ofEngine e).m_sellOrderBook = loopBound e.m_sellOrderBook :=
      dbl_ofBook_loopBound _
    rw [hb]
    have hst : ({ opposite_book := (Dbl.ofEngine e).m_sellOrderBook,
                  m_orderMap := (Dbl.ofEngine e).m_orderMap,
                  aggressive_order := Dbl.ofOrder ⟨id, q, p, Side.Buy⟩,
                  out := [] } : Dbl.LoopState) =
        Dbl.ofLoopState ⟨e.m_sellOrderBook, e.m_orderMap, ⟨id, q, p, Side.Buy⟩, []⟩ := rfl
    rw [hst, h]
    rfl
  · have h := dbl_matchLoop_of (loopBound e.m_buyOrderBook)
      { opposite_book := e.m_buyOrderBook, m_orderMap := e.m_orderMap,
        aggressive_order := ⟨id, q, p, Side.Sell⟩, out := [] }
    show (_, _, _) = _
    unfold matchOrder
    simp only
    have hb : Dbl.loopBound (Dbl.ofEngine e).m_buyOrderBook = loopBound e.m_buyOrderBook :=
      dbl_ofBook_loopBound _
    rw [hb]
    have hst : ({ opposite_book := (Dbl.ofEngine e).m_buyOrderBook,
                  m_orderMap := (Dbl.ofEngine e).m_orderMap,
                  aggressive_order := Dbl.ofOrder ⟨id, q, p, Side.Sell⟩,
                  out := [] } : Dbl.LoopState) =
        Dbl.ofLoopState ⟨e.m_buyOrderBook, e.m_orderMap, ⟨id, q, p, Side.Sell⟩, []⟩ := rfl
    rw [hst, h]
    rfl

theorem dbl_addToBook_of (e : Engine) (o : Order) :
    Dbl.addToBook (Dbl.ofEngine e) (Dbl.ofOrder o) = Dbl.ofEngine (addToBook e o) := by
  obtain ⟨id, q, p, side⟩ := o
  cases side
  · have h1 := dbl_ofBook_pushBack Side.Buy e.m_buyOrderBook ⟨id, q, p, Side.Buy⟩
    have h2 := dbl_ofIndex_insert e.m_orderMap ⟨id, q, p, Side.Buy⟩
    show ({ m_buyOrderBook := _, m_sellOrderBook := _, m_orderMap := _ } : Dbl.Engine) = _
    simp only [Dbl.ofEngine, addToBook, Dbl.Engine.mk.injEq]
    exact ⟨h1, trivial, h2.symm⟩
  · have h1 := dbl_ofBook_pushBack Side.Sell e.m_sellOrderBook ⟨id, q, p, Side.Sell⟩
    have h2 := dbl_ofIndex_insert e.m_orderMap ⟨id, q, p, Side.Sell⟩
    show ({ m_buyOrderBook := _, m_sellOrderBook := _, m_orderMap := _ } : Dbl.Engine) = _
    simp only [Dbl.ofEngine, addToBook, Dbl.Engine.mk.injEq]
    exact ⟨trivial, h1, h2.symm⟩

/-- On an engine without NaN and with a price that is a number, `addOrder` over `double` prices
does what `addOrder` over exact prices does. -/
theorem dbl_addOrder_of (e : Engine) (id q : Nat) (p : Int) (side : Side) :
    (Dbl.addOrder (Dbl.ofEngine e) id q (Double.num p) side).engine =
      Dbl.ofEngine (addOrder e id q p side).engine ∧
    (Dbl.addOrder (Dbl.ofEngine e) id q (Double.num p) side).out =
      (addOrder e id q p side).out.map Dbl.ofEvent ∧
    (Dbl.addOrder (Dbl.ofEngine e) id q (Double.num p) side).err =
      (addOrder e id q p side).err := by
  have hsome : ((Dbl.ofEngine e).m_orderMap id).isSome = (e.m_orderMap id).isSome := by
    show ((e.m_orderMap id).map Dbl.ofOrder).isSome = _
    cases e.m_orderMap id <;> rfl
  have hm := dbl_matchOrder_of e ⟨id, q, p, side⟩
  have ho : Dbl.ofOrder ⟨id, q, p, side⟩ = ⟨id, q, Double.num p, side⟩ := rfl
  rw [ho] at hm
  unfold Dbl.addOrder addOrder
  rw [hsome]
  by_cases hs : (e.m_orderMap id).isSome = true
  · rw [if_pos hs, if_pos hs]
    exact ⟨rfl, rfl, rfl⟩
  · rw [if_neg hs, if_neg hs]
    simp only [hm]
    have hq : (Dbl.ofOrder (matchOrder e ⟨id, q, p, side⟩).2.1).quantity =
        (matchOrder e ⟨id, q, p, side⟩).2.1.quantity := rfl
    rw [hq]
    by_cases hpos : (matchOrder e ⟨id, q, p, side⟩).2.1.quantity > 0
    · rw [if_pos hpos, if_pos hpos]
      exact ⟨dbl_addToBook_of _ _, rfl, rfl⟩
    · rw [if_neg hpos, if_neg hpos]
      exact ⟨rfl, rfl, rfl⟩

theorem dbl_removeById_of (orders : List Order) (id : Nat) :
    Dbl.removeById (orders.map Dbl.ofOrder) id = (removeById orders id).map Dbl.ofOrder := by
  induction orders with
  | nil => rfl
  | cons o rest ih =>
    unfold Dbl.removeById removeById at *
    simp only [List.map_cons, List.filter_cons]
    have : (Dbl.ofOrder o).order_id = o.order_id := rfl
    rw [this]
    split
    · rw [List.map_cons, ih]
    · exact ih

theorem cancelInBook_absent (book : Book) (price : Int) (id : Nat)
    (h : ∀ l ∈ book, l.1 ≠ price) : cancelInBook book price id = book := by
  induction book with
  | nil => rfl
  | cons hd rest ih =>
    obtain ⟨k, orders⟩ := hd
    simp only [cancelInBook]
    rw [if_neg (h (k, orders) (List.mem_cons_self _ _))]
    rw [ih (fun l hl => h l (List.mem_cons_of_mem _ hl))]

theorem dbl_ofBook_cancelInBook (side : Side) (book : Book) (price : Int) (id : Nat)
    (hs : book.Pairwise (fun l1 l2 => cmpOf side l1.1 l2.1 = true)) :
    Dbl.cancelInBook (Dbl.cmpOf side) (Dbl.ofBook book) (Double.num price) id =
      Dbl.ofBook (cancelInBook book price id) := by
  induction book with
  | nil => rfl
  | cons hd rest ih =>
    obtain ⟨k, orders⟩ := hd
    rw [List.pairwise_cons] at hs
    have hl : Dbl.cancelInBook (Dbl.cmpOf side) (Dbl.ofBook ((k, orders) :: rest))
        (Double.num price) id =
        if cmpOf side k price = true then
          (Double.num k, orders.map Dbl.ofOrder) ::
            Dbl.cancelInBook (Dbl.cmpOf side) (Dbl.ofBook rest) (Double.num price) id
        else if cmpOf side price k = true then
          (Double.num k, orders.map Dbl.ofOrder) :: Dbl.ofBook rest
        else if (Dbl.removeById (orders.map Dbl.ofOrder) id).isEmpty then Dbl.ofBook rest
        else (Double.num k, Dbl.removeById (orders.map Dbl.ofOrder) id) :: Dbl.ofBook rest := by
      show Dbl.cancelInBook (Dbl.cmpOf side)
        ((Double.num k, orders.map Dbl.ofOrder) :: Dbl.ofBook rest) (Double.num price) id = _
      simp only [Dbl.cancelInBook]
      rw [dbl_cmpOf_num, dbl_cmpOf_num]
    have hr : cancelInBook ((k, orders) :: rest) price id =
        if k = price then
          if (removeById orders id).isEmpty then rest else (k, removeById orders id) :: rest
        else (k, orders) :: cancelInBook rest price id := by
      simp only [cancelInBook]
    rw [hl, hr, ih hs.2, dbl_removeById_of]
    by_cases hk : k = price
    · have hirr : cmpOf side k price = false ∧ cmpOf side price k = false := by
        rw [hk]
        cases side <;> simp [cmpOf, buyCmp, sellCmp]
      rw [if_pos hk, hirr.1, hirr.2]
      cases hrem : removeById orders id <;> simp [Dbl.ofBook]
    · rw [if_neg hk]
      by_cases hc : cmpOf side price k = true
      · have hc2 : cmpOf side k price = false := by
          cases side <;> simp only [cmpOf, buyCmp, sellCmp, decide_eq_true_eq,
            decide_eq_false_iff_not] at hc ⊢ <;> omega
        have habs : ∀ l ∈ rest, l.1 ≠ price := by
          intro l hl heq
          have h1 := hs.1 l hl
          rw [heq] at h1
          cases side <;> simp only [cmpOf, buyCmp, sellCmp, decide_eq_true_eq] at hc h1 <;>
            omega
        rw [cancelInBook_absent rest price id habs]
        simp [Dbl.ofBook, hc, hc2]
      · have hc2 : cmpOf side k price = true := by
          cases side <;> simp only [cmpOf, buyCmp, sellCmp, decide_eq_true_eq] at hc ⊢ <;> omega
        simp [Dbl.ofBook, hc, hc2]

/-- On an engine with ordered books and no NaN, `cancelOrder` over `double` prices does what
`cancelOrder` over exact prices does. -/
theorem dbl_cancelOrder_of (e : Engine) (hinv : Inv e) (id : Nat) :
    (Dbl.cancelOrder (Dbl.ofEngine e) id).engine = Dbl.ofEngine (cancelOrder e id).engine ∧
    (Dbl.cancelOrder (Dbl.ofEngine e) id).out = (cancelOrder e id).out.map Dbl.ofEvent ∧
    (Dbl.cancelOrder (Dbl.ofEngine e) id).err = (cancelOrder e id).err := by
  have hbuy := dbl_ofBook_cancelInBook Side.Buy e.m_buyOrderBook
  have hsell := dbl_ofBook_cancelInBook Side.Sell e.m_sellOrderBook
  have hsb : e.m_buyOrderBook.Pairwise (fun l1 l2 => cmpOf Side.Buy l1.1 l2.1 = true) :=
    hinv.ownOK.sorted
  have hss : e.m_sellOrderBook.Pairwise (fun l1 l2 => cmpOf Side.Sell l1.1 l2.1 = true) :=
    hinv.oppOK.sorted
  unfold Dbl.cancelOrder cancelOrder
  have hmap : (Dbl.ofEngine e).m_orderMap id = (e.m_orderMap id).map Dbl.ofOrder := rfl
  rw [hmap]
  cases hm : e.m_orderMap id with
  | none => exact ⟨rfl, rfl, rfl⟩
  | some o =>
    obtain ⟨oid, q, p, side⟩ := o
    cases side
    · refine ⟨?_, rfl, rfl⟩
      simp only [Option.map_some', Dbl.ofOrder]
      show ({ m_buyOrderBook := _, m_sellOrderBook := _, m_orderMap := _ } : Dbl.Engine) = _
      simp only [Dbl.ofEngine, Dbl.Engine.mk.injEq]
      exact ⟨hbuy p id hsb, trivial, (dbl_ofIndex_erase _ _).symm⟩
    · refine ⟨?_, rfl, rfl⟩
      simp only [Option.map_some', Dbl.ofOrder]
      show ({ m_buyOrderBook := _, m_sellOrderBook := _, m_orderMap := _ } : Dbl.Engine) = _
      simp only [Dbl.ofEngine, Dbl.Engine.mk.injEq]
      exact ⟨trivial, hsell p id hss, (dbl_ofIndex_erase _ _).symm⟩

/-- Every state of the engine over exact prices, reached by `addOrder` and `cancelOrder`, is
a state the engine over `double` prices reaches by the same calls. -/
theorem dbl_reachable_of {e : Engine} (h : Reachable e) : Dbl.Reachable (Dbl.ofEngine e) := by
  induction h with
  | empty => exact Dbl.Reachable.empty
  | add h id q p side hid hq ih =>
    rw [← (dbl_addOrder_of _ id q p side).1]
    exact Dbl.Reachable.add ih id q (Double.num p) side hid hq
  | cancel h id hid ih =>
    rw [← (dbl_cancelOrder_of _ (reachable_inv h) id).1]
    exact Dbl.Reachable.cancel ih id hid

/-! ### The two engines reach the same states when no price is NaN -/

/-- The states the engine over `double` prices reaches by calls whose prices are numbers are
exactly the states of the engine over exact prices. -/
theorem dbl_reachableNum_iff (d : Dbl.Engine) :
    Dbl.ReachableNum d ↔ ∃ e, Reachable e ∧ Dbl.ofEngine e = d := by
  constructor
  · intro h
    induction h with
    | empty => exact ⟨Engine.empty, Reachable.empty, rfl⟩
    | add h id q p side hid hq ih =>
      obtain ⟨e, he, rfl⟩ := ih
      exact ⟨(addOrder e id q p side).engine, Reachable.add he id q p side hid hq,
        (dbl_addOrder_of e id q p side).1.symm⟩
    | cancel h id hid ih =>
      obtain ⟨e, he, rfl⟩ := ih
      exact ⟨(cancelOrder e id).engine, Reachable.cancel he id hid,
        (dbl_cancelOrder_of e (reachable_inv he) id).1.symm⟩
  · rintro ⟨e, he, rfl⟩
    induction he with
    | empty => exact Dbl.ReachableNum.empty
    | add h id q p side hid hq ih =>
      rw [← (dbl_addOrder_of _ id q p side).1]
      exact Dbl.ReachableNum.add ih id q p side hid hq
    | cancel h id hid ih =>
      rw [← (dbl_cancelOrder_of _ (reachable_inv h) id).1]
      exact Dbl.ReachableNum.cancel ih id hid

/-- A state reached with prices that are numbers is a state reached with `double` prices. -/
theorem dbl_reachable_of_num {d : Dbl.Engine} (h : Dbl.ReachableNum d) : Dbl.Reachable d := by
  induction h with
  | empty => exact Dbl.Reachable.empty
  | add h id q p side hid hq ih => exact Dbl.Reachable.add ih id q (Double.num p) side hid hq
  | cancel h id hid ih => exact Dbl.Reachable.cancel ih id hid

/-! ### Stored quantities and levels in the states reached with any `double` price -/

theorem dbl_pushBack_filled (cmp : Double → Double → Bool) (book : Dbl.Book) (o : Dbl.Order)
    (hb : Dbl.LevelsFilled book) (ho : 0 < o.quantity) :
    Dbl.LevelsFilled (Dbl.pushBack cmp book o) := by
  induction book with
  | nil =>
    intro l hl
    simp only [Dbl.pushBack, List.mem_singleton] at hl
    subst hl
    refine ⟨by simp, ?_⟩
    intro x hx
    rw [List.mem_singleton.mp hx]
    exact ho
  | cons hd rest ih =>
    obtain ⟨k, orders⟩ := hd
    have hhd := hb (k, orders) (List.mem_cons_self _ _)
    have hrest : Dbl.LevelsFilled rest := fun l hl => hb l (List.mem_cons_of_mem _ hl)
    intro l hl
    simp only [Dbl.pushBack] at hl
    split at hl
    · rcases List.mem_cons.mp hl with h | h
      · rw [h]
        exact hhd
      · exact ih hrest l h
    · split at hl
      · rcases List.mem_cons.mp hl with h | h
        · rw [h]
          refine ⟨by simp, ?_⟩
          intro x hx
          rw [List.mem_singleton.mp hx]
          exact ho
        · exact hb l h
      · rcases List.mem_cons.mp hl with h | h
        · rw [h]
          refine ⟨by simp, ?_⟩
          intro x hx
          rcases List.mem_append.mp hx with hx | hx
          · exact hhd.2 x hx
          · rw [List.mem_singleton.mp hx]
            exact ho
        · exact hrest l h

theorem dbl_cancelInBook_filled (cmp : Double → Double → Bool) (book : Dbl.Book)
    (price : Double) (order_id : Nat) (hb : Dbl.LevelsFilled book) :
    Dbl.LevelsFilled (Dbl.cancelInBook cmp book price order_id) := by
  induction book with
  | nil =>
    intro l hl
    simp [Dbl.cancelInBook] at hl
  | cons hd rest ih =>
    obtain ⟨k, orders⟩ := hd
    have hhd := hb (k, orders) (List.mem_cons_self _ _)
    have hrest : Dbl.LevelsFilled rest := fun l hl => hb l (List.mem_cons_of_mem _ hl)
    intro l hl
    simp only [Dbl.cancelInBook] at hl
    split at hl
    · rcases List.mem_cons.mp hl with h | h
      · rw [h]
        exact hhd
      · exact ih hrest l h
    · split at hl
      · exact hb l hl
      · split at hl
        · exact hrest l hl
        · rename_i hne
          rcases List.mem_cons.mp hl with h | h
          · rw [h]
            refine ⟨?_, ?_⟩
            · intro hnil
              apply hne
              have hnil2 : Dbl.removeById orders order_id = [] := hnil
              rw [hnil2]
              rfl
            · intro x hx
              exact hhd.2 x (List.mem_of_mem_filter hx)
          · exact hrest l h

theorem dbl_eraseOrder_filled (m : Nat → Option Dbl.Order) (order_id : Nat)
    (hm : Dbl.IndexFilled m) : Dbl.IndexFilled (Dbl.eraseOrder m order_id) := by
  intro id o h
  unfold Dbl.eraseOrder at h
  split at h
  · exact absurd h (by simp)
  · exact hm id o h

theorem dbl_insertOrder_filled (m : Nat → Option Dbl.Order) (order : Dbl.Order)
    (hm : Dbl.IndexFilled m) (ho : 0 < order.quantity) :
    Dbl.IndexFilled (Dbl.insertOrder m order) := by
  intro id o h
  unfold Dbl.insertOrder at h
  split at h
  · rw [← Option.some.inj h]
    exact ho
  · exact hm id o h

theorem dbl_setQuantity_filled (m : Nat → Option Dbl.Order) (order_id quantity : Nat)
    (hm : Dbl.IndexFilled m) (hq : 0 < quantity) :
    Dbl.IndexFilled (Dbl.setQuantity m order_id quantity) := by
  intro id o h
  unfold Dbl.setQuantity at h
  split at h
  · cases hmo : m order_id with
    | none =>
      rw [hmo] at h
      rw [← Option.some.inj h]
      exact hq
    | some o0 =>
      rw [hmo] at h
      rw [← Option.some.inj h]
      exact hq
  · exact hm id o h

/-- One run of the loop body keeps every level filled and every stored quantity above 0. -/
theorem dbl_matchStep_filled {st st1 : Dbl.LoopState} (h : Dbl.matchStep st = some st1)
    (hb : Dbl.LevelsFilled st.opposite_book) (hm : Dbl.IndexFilled st.m_orderMap) :
    Dbl.LevelsFilled st1.opposite_book ∧ Dbl.IndexFilled st1.m_orderMap := by
  obtain ⟨book, m, a, out⟩ := st
  unfold Dbl.matchStep at h
  simp only at h
  split at h
  · split at h
    · exact absurd h (by simp)
    · rename_i k orders rest
      have hrest : Dbl.LevelsFilled rest := fun l hl => hb l (List.mem_cons_of_mem _ hl)
      have hhd := hb (k, orders) (List.mem_cons_self _ _)
      split at h
      · split at h
        · simp only [Option.some.injEq] at h
          subst h
          exact ⟨hrest, hm⟩
        · rename_i r others
          have hothers : ∀ x ∈ others, 0 < x.quantity :=
            fun x hx => hhd.2 x (List.mem_cons_of_mem _ hx)
          split at h
          · simp only [Option.some.injEq] at h
            subst h
            refine ⟨?_, dbl_eraseOrder_filled _ _ hm⟩
            show Dbl.LevelsFilled (if others.isEmpty then rest else (k, others) :: rest)
            split
            · exact hrest
            · rename_i hne
              intro l hl
              rcases List.mem_cons.mp hl with hh | hh
              · rw [hh]
                refine ⟨?_, hothers⟩
                intro hnil
                apply hne
                have hnil2 : others = [] := hnil
                rw [hnil2]
                rfl
              · exact hrest l hh
          · rename_i hr
            simp only [Option.some.injEq] at h
            subst h
            have hpos : 0 < wrapSub r.quantity (min a.quantity r.quantity) :=
              Nat.pos_of_ne_zero hr
            refine ⟨?_, dbl_setQuantity_filled _ _ _ hm hpos⟩
            intro l hl
            rcases List.mem_cons.mp hl with hh | hh
            · rw [hh]
              refine ⟨by simp, ?_⟩
              intro x hx
              rcases List.mem_cons.mp hx with hx | hx
              · rw [hx]
                exact hpos
              · exact hothers x hx
            · exact hrest l hh
      · exact absurd h (by simp)
  · exact absurd h (by simp)

theorem dbl_matchLoop_filled :
    ∀ (fuel : Nat) (st : Dbl.LoopState), Dbl.LevelsFilled st.opposite_book →
      Dbl.IndexFilled st.m_orderMap →
      Dbl.LevelsFilled (Dbl.matchLoop fuel st).opposite_book ∧
        Dbl.IndexFilled (Dbl.matchLoop fuel st).m_orderMap := by
  intro fuel
  induction fuel with
  | zero => intro st hb hm; exact ⟨hb, hm⟩
  | succ fuel ih =>
    intro st hb hm
    simp only [Dbl.matchLoop]
    cases hstep : Dbl.matchStep st with
    | none => exact ⟨hb, hm⟩
    | some st1 =>
      obtain ⟨h1, h2⟩ := dbl_matchStep_filled hstep hb hm
      exact ih st1 h1 h2

theorem dbl_addOrder_filled (e : Dbl.Engine) (id q : Nat) (p : Double) (side : Side)
    (hbuy : Dbl.LevelsFilled e.m_buyOrderBook) (hsell : Dbl.LevelsFilled e.m_sellOrderBook)
    (hm : Dbl.IndexFilled e.m_orderMap) :
    Dbl.LevelsFilled (Dbl.addOrder e id q p side).engine.m_buyOrderBook ∧
    Dbl.LevelsFilled (Dbl.addOrder e id q p side).engine.m_sellOrderBook ∧
    Dbl.IndexFilled (Dbl.addOrder e id q p side).engine.m_orderMap := by
  unfold Dbl.addOrder
  split
  · exact ⟨hbuy, hsell, hm⟩
  · cases side with
    | Buy =>
      have hl := dbl_matchLoop_filled (Dbl.loopBound e.m_sellOrderBook)
        ⟨e.m_sellOrderBook, e.m_orderMap, ⟨id, q, p, Side.Buy⟩, []⟩ hsell hm
      have hside := (dbl_matchLoop_aggressive (Dbl.loopBound e.m_sellOrderBook)
        ⟨e.m_sellOrderBook, e.m_orderMap, ⟨id, q, p, Side.Buy⟩, []⟩).1
      simp only [Dbl.matchOrder]
      split
      · rename_i hpos
        simp only [Dbl.addToBook]
        simp only at hside
        rw [hside]
        exact ⟨dbl_pushBack_filled _ _ _ hbuy hpos, hl.1,
          dbl_insertOrder_filled _ _ hl.2 hpos⟩
      · exact ⟨hbuy, hl.1, hl.2⟩
    | Sell =>
      have hl := dbl_matchLoop_filled (Dbl.loopBound e.m_buyOrderBook)
        ⟨e.m_buyOrderBook, e.m_orderMap, ⟨id, q, p, Side.Sell⟩, []⟩ hbuy hm
      have hside := (dbl_matchLoop_aggressive (Dbl.loopBound e.m_buyOrderBook)
        ⟨e.m_buyOrderBook, e.m_orderMap, ⟨id, q, p, Side.Sell⟩, []⟩).1
      simp only [Dbl.matchOrder]
      split
      · rename_i hpos
        simp only [Dbl.addToBook]
        simp only at hside
        rw [hside]
        exact ⟨hl.1, dbl_pushBack_filled _ _ _ hsell hpos,
          dbl_insertOrder_filled _ _ hl.2 hpos⟩
      · exact ⟨hl.1, hsell, hl.2⟩

theorem dbl_cancelOrder_filled (e : Dbl.Engine) (id : Nat)
    (hbuy : Dbl.LevelsFilled e.m_buyOrderBook) (hsell : Dbl.LevelsFilled e.m_sellOrderBook)
    (hm : Dbl.IndexFilled e.m_orderMap) :
    Dbl.LevelsFilled (Dbl.cancelOrder e id).engine.m_buyOrderBook ∧
    Dbl.LevelsFilled (Dbl.cancelOrder e id).engine.m_sellOrderBook ∧
    Dbl.IndexFilled (Dbl.cancelOrder e id).engine.m_orderMap := by
  unfold Dbl.cancelOrder
  split
  · exact ⟨hbuy, hsell, hm⟩
  · rename_i order _
    cases hs : order.side with
    | Buy =>
      exact ⟨dbl_cancelInBook_filled _ _ _ _ hbuy, hsell, dbl_eraseOrder_filled _ _ hm⟩
    | Sell =>
      exact ⟨hbuy, dbl_cancelInBook_filled _ _ _ _ hsell, dbl_eraseOrder_filled _ _ hm⟩

/-- In every state reached by `addOrder` and `cancelOrder` calls with any `double` price, NaN
included, every level of either book holds an order, and every stored order and every index
entry has a quantity above 0. -/
theorem dbl_reachable_filled {e : Dbl.Engine} (h : Dbl.Reachable e) :
    Dbl.LevelsFilled e.m_buyOrderBook ∧ Dbl.LevelsFilled e.m_sellOrderBook ∧
      Dbl.IndexFilled e.m_orderMap := by
  induction h with
  | empty =>
    refine ⟨?_, ?_, ?_⟩
    · intro l hl
      exact absurd hl (List.not_mem_nil _)
    · intro l hl
      exact absurd hl (List.not_mem_nil _)
    · intro id o ho
      exact absurd ho (by simp [Dbl.Engine.empty])
  | add h id q p side hid hq ih =>
    exact dbl_addOrder_filled _ id q p side ih.1 ih.2.1 ih.2.2
  | cancel h id hid ih =>
    exact dbl_cancelOrder_filled _ id ih.1 ih.2.1 ih.2.2

/-! ## Claims about the book invariants -/

/-- C1 (uncrossed book): in every state reachable by `addOrder` and `cancelOrder` calls, every
resting Buy order is priced strictly below every resting Sell order; in particular, when both
sides are non-empty, the highest resting Buy price is strictly less than the lowest resting
Sell price. -/
theorem uncrossed_book (e : Engine) (h : Reachable e) :
    (∀ b ∈ restingOrders e.m_buyOrderBook, ∀ s ∈ restingOrders e.m_sellOrderBook,
      b.price < s.price) ∧
    (∀ bid ask : Int, highestPrice (restingOrders e.m_buyOrderBook) = some bid →
      lowestPrice (restingOrders e.m_sellOrderBook) = some ask → bid < ask) := by
  have hinv : Inv e := reachable_inv h
  have hall : ∀ b ∈ restingOrders e.m_buyOrderBook, ∀ s ∈ restingOrders e.m_sellOrderBook,
      b.price < s.price := by
    intro b hb s hs
    obtain ⟨lb, hlb, hb2⟩ := mem_restingOrders.mp hb
    obtain ⟨ls, hls, hs2⟩ := mem_restingOrders.mp hs
    rw [(hinv.ownOK.orders lb hlb b hb2).1, (hinv.oppOK.orders ls hls s hs2).1]
    exact hinv.uncrossed lb hlb ls hls
  refine ⟨hall, ?_⟩
  intro bid ask hbid hask
  obtain ⟨b, hb, rfl⟩ := highestPrice_mem hbid
  obtain ⟨s, hs, rfl⟩ := lowestPrice_mem hask
  exact hall b hb s hs

/-- Witness of C1 on scenario S1: best bid 100.00, best ask 101.00. -/
theorem uncrossed_book_witness :
    Reachable scenarioS1 ∧
    highestPrice (restingOrders scenarioS1.m_buyOrderBook) = some 10000 ∧
    lowestPrice (restingOrders scenarioS1.m_sellOrderBook) = some 10100 ∧
    (∀ bid ask : Int, highestPrice (restingOrders scenarioS1.m_buyOrderBook) = some bid →
      lowestPrice (restingOrders scenarioS1.m_sellOrderBook) = some ask → bid < ask) :=
  ⟨reachable_S1, by decide, by decide, (uncrossed_book scenarioS1 reachable_S1).2⟩

/-- C2, as stated, fails on states the code reaches with a NaN price, which `processTokens`
accepts. After the adds of ids 1 (100.00), 2 (NaN) and 3 (105.00), all buys, the index entry of
id 2 records the price NaN, but order 2 is stored in the level with key 100.00 and no level has
the key NaN. After `cancelOrder(2)`, reached by the messages `nanMessages`, order 2 is still
stored in the buy book and has no index entry. -/
theorem book_index_agreement_counterexample :
    Dbl.Reachable Dbl.scenarioNaNAdds ∧
    Dbl.scenarioNaNAdds.m_orderMap 2 = some ⟨2, 5, Double.nan, Side.Buy⟩ ∧
    Dbl.scenarioNaNAdds.m_buyOrderBook =
      [(Double.num 10500, [⟨3, 5, Double.num 10500, Side.Buy⟩]),
        (Double.num 10000,
          [⟨1, 5, Double.num 10000, Side.Buy⟩, ⟨2, 5, Double.nan, Side.Buy⟩])] ∧
    (∀ l ∈ Dbl.scenarioNaNAdds.m_buyOrderBook, l.1 ≠ Double.nan) ∧
    Dbl.Reachable Dbl.scenarioNaN ∧
    (Dbl.runMessages stodCents Dbl.Engine.empty nanMessages).map
        (fun r => r.engine.m_buyOrderBook) = some Dbl.scenarioNaN.m_buyOrderBook ∧
    (⟨2, 5, Double.nan, Side.Buy⟩ : Dbl.Order) ∈
      Dbl.restingOrders Dbl.scenarioNaN.m_buyOrderBook ∧
    Dbl.scenarioNaN.m_orderMap 2 = none :=
  ⟨dbl_reachable_nanAdds, by decide, by decide, by decide, dbl_reachable_nan,
    dbl_nanMessages_run.1, by decide, by decide⟩

/-- C2 (amended, book/index agreement): in every state reachable by `addOrder` and `cancelOrder`
calls whose prices are exact comparable numbers (no NaN), an index entry `o` under `id` has
`order_id = id`, the id occurs exactly once among the orders of both books, and that occurrence
is `o` itself (same side, price and quantity), stored in the level found under `o.price` in the
book of `o.side`; conversely every order stored in either book is the index entry of its id. -/
theorem book_index_agreement (e : Engine) (h : Reachable e) :
    (∀ id o, e.m_orderMap id = some o →
      o.order_id = id ∧
      ((restingOrders e.m_buyOrderBook ++ restingOrders e.m_sellOrderBook).map
        Order.order_id).count id = 1 ∧
      ∃ orders, findLevel (e.bookOf o.side) o.price = some orders ∧ o ∈ orders) ∧
    (∀ o ∈ restingOrders e.m_buyOrderBook ++ restingOrders e.m_sellOrderBook,
      e.m_orderMap o.order_id = some o) := by
  have hinv : Inv e := reachable_inv h
  constructor
  · intro id o hm
    have hS := (inv_iff_side e o.side).mp hinv
    obtain ⟨hid, hmem⟩ := sideInv_mem_own hS hm rfl
    refine ⟨hid, ?_, findLevel_of_mem hS.ownOK hmem⟩
    have hnd := nodup_ids_comm hinv.nodup
    apply List.count_eq_one_of_mem hnd
    obtain ⟨-, hmem2⟩ := (hinv.index id o).mp hm
    rw [← hid]
    exact List.mem_map_of_mem _ (List.mem_append.mpr hmem2.symm)
  · intro o ho
    exact (hinv.index o.order_id o).mpr ⟨rfl, (List.mem_append.mp ho).symm⟩

/-- Witness of the amended C2 on scenario S1. -/
theorem book_index_agreement_witness :
    Reachable scenarioS1 ∧
    scenarioS1.m_orderMap 2 = some ⟨2, 5, 10100, Side.Sell⟩ ∧
    (∀ o ∈ restingOrders scenarioS1.m_buyOrderBook ++ restingOrders scenarioS1.m_sellOrderBook,
      scenarioS1.m_orderMap o.order_id = some o) :=
  ⟨reachable_S1, by decide, (book_index_agreement scenarioS1 reachable_S1).2⟩

/-! ## Claims about the match loop -/

/-- C3 (maker price and min quantity): whenever the match loop run by `addOrder` in a reachable
state executes an iteration, from the loop state after `n` iterations with aggressive order `A`
and front order `R` of the best opposite level, the TRADE logged by that iteration has quantity
`min A.quantity R.quantity` and price `R.price` (the key of the best level); the trade quantity
exceeds neither quantity, and both 64-bit subtractions give the exact difference (no wrap). -/
theorem trade_min_quantity_maker_price (e : Engine) (h : Reachable e) (id q : Nat) (p : Int)
    (side : Side) (hq : q < UINT64_MOD) (n : Nat) (st1 : LoopState)
    (hstep : matchStep (loopAt e ⟨id, q, p, side⟩ n) = some st1) :
    ∃ k R rs rest ev2 ev3,
      (loopAt e ⟨id, q, p, side⟩ n).opposite_book = (k, R :: rs) :: rest ∧ R.price = k ∧
      st1.out = (loopAt e ⟨id, q, p, side⟩ n).out ++
        [emitTradeEvent (min (loopAt e ⟨id, q, p, side⟩ n).aggressive_order.quantity R.quantity)
          R.price, ev2, ev3] ∧
      min (loopAt e ⟨id, q, p, side⟩ n).aggressive_order.quantity R.quantity ≤
        (loopAt e ⟨id, q, p, side⟩ n).aggressive_order.quantity ∧
      min (loopAt e ⟨id, q, p, side⟩ n).aggressive_order.quantity R.quantity ≤ R.quantity ∧
      wrapSub (loopAt e ⟨id, q, p, side⟩ n).aggressive_order.quantity
          (min (loopAt e ⟨id, q, p, side⟩ n).aggressive_order.quantity R.quantity) +
        min (loopAt e ⟨id, q, p, side⟩ n).aggressive_order.quantity R.quantity =
        (loopAt e ⟨id, q, p, side⟩ n).aggressive_order.quantity ∧
      wrapSub R.quantity
          (min (loopAt e ⟨id, q, p, side⟩ n).aggressive_order.quantity R.quantity) +
        min (loopAt e ⟨id, q, p, side⟩ n).aggressive_order.quantity R.quantity = R.quantity ∧
      st1.aggressive_order.quantity =
        wrapSub (loopAt e ⟨id, q, p, side⟩ n).aggressive_order.quantity
          (min (loopAt e ⟨id, q, p, side⟩ n).aggressive_order.quantity R.quantity) := by
  have hL := loopInv_at (reachable_inv h) ⟨id, q, p, side⟩ hq n
  obtain ⟨k, R, rs, rest, hbook, hk, -, hA, -, hR, haq, hout⟩ := step_events hL hstep
  generalize loopAt e ⟨id, q, p, side⟩ n = st at *
  have h1 : min st.aggressive_order.quantity R.quantity ≤ st.aggressive_order.quantity :=
    Nat.min_le_left _ _
  have h2 : min st.aggressive_order.quantity R.quantity ≤ R.quantity := Nat.min_le_right _ _
  refine ⟨k, R, rs, rest, _, _, hbook, hk, hout, h1, h2, ?_, ?_, ?_⟩
  · rw [wrapSub_eq h1 hA]; omega
  · rw [wrapSub_eq h2 hR]; omega
  · rw [wrapSub_eq h1 hA]; exact haq

/-- Witness of C3 on scenario S2: the first iteration of the buy of 5 at 100.00 (id 11) against
the resting sell 10 trades `min 5 5 = 5` at the maker price 100.00. -/
theorem trade_min_quantity_maker_price_witness :
    Reachable scenarioS2 ∧ (5 : Nat) < UINT64_MOD ∧
    ∃ st1, matchStep (loopAt scenarioS2 ⟨11, 5, 10000, Side.Buy⟩ 0) = some st1 ∧
      ∃ k R rs rest ev2 ev3,
        (loopAt scenarioS2 ⟨11, 5, 10000, Side.Buy⟩ 0).opposite_book = (k, R :: rs) :: rest ∧
        R.price = k ∧
        st1.out = (loopAt scenarioS2 ⟨11, 5, 10000, Side.Buy⟩ 0).out ++
          [emitTradeEvent
            (min (loopAt scenarioS2 ⟨11, 5, 10000, Side.Buy⟩ 0).aggressive_order.quantity
              R.quantity) R.price, ev2, ev3] :=
  ⟨reachable_S2, by decide, _, rfl,
    (trade_min_quantity_maker_price scenarioS2 reachable_S2 11 5 10000 Side.Buy (by decide) 0 _
      rfl).imp fun _ hk => hk.imp fun _ hR => hR.imp fun _ hrs => hrs.imp fun _ hrest =>
        hrest.imp fun _ h2 => h2.imp fun _ h3 => ⟨h3.1, h3.2.1, h3.2.2.1⟩⟩

/-- C4 (price-time priority): for every state reachable by `addOrder` and `cancelOrder` calls
with any `double` price, NaN included, and every `addOrder` (of an id not in the index or in it),
there is a number `n` such that the call removes exactly the first `n` orders of the iteration
order of the opposite book, logging FILLED for each of them, and changes at most the order
right behind them, whose quantity it replaces; every order further back is stored as before.
The order that stands at a place of the book (level number, position in the queue) is the one
at the rank of that place in the iteration order. If an order `x` of the opposite side is removed
(its rank is below `n`) or reduced (its rank is `n` and the book after the call differs from
the rest of the book before), then every order `y` that ranked ahead of `x` before the call
(strictly better price, or the same price and earlier in the queue of the same level) has a rank
below `n`: it was completely filled and removed by the same call. -/
theorem price_time_priority (e : Dbl.Engine) (h : Dbl.Reachable e) (id q : Nat) (p : Double)
    (side : Side) :
    ∃ n,
      (Dbl.restingOrders ((Dbl.addOrder e id q p side).engine.bookOf side.opposite) =
          (Dbl.restingOrders (e.bookOf side.opposite)).drop n ∨
        ∃ r tail newq, (Dbl.restingOrders (e.bookOf side.opposite)).drop n = r :: tail ∧
          Dbl.restingOrders ((Dbl.addOrder e id q p side).engine.bookOf side.opposite) =
            { r with quantity := newq } :: tail) ∧
      (∀ i, i < n → ∀ y, (Dbl.restingOrders (e.bookOf side.opposite)).get? i = some y →
        Dbl.Event.fullyFilled y.order_id ∈ (Dbl.addOrder e id q p side).out) ∧
      (∀ level pos o, Dbl.StandsAt (e.bookOf side.opposite) level pos o →
        (Dbl.restingOrders (e.bookOf side.opposite)).get?
          (Dbl.rankOf (e.bookOf side.opposite) level pos) = some o) ∧
      ∀ xlevel xpos x ylevel ypos y,
        Dbl.StandsAt (e.bookOf side.opposite) xlevel xpos x →
        Dbl.StandsAt (e.bookOf side.opposite) ylevel ypos y →
        Dbl.RanksAhead side.opposite ylevel ypos y xlevel xpos x →
        (Dbl.rankOf (e.bookOf side.opposite) xlevel xpos < n ∨
          (Dbl.rankOf (e.bookOf side.opposite) xlevel xpos = n ∧
            Dbl.restingOrders ((Dbl.addOrder e id q p side).engine.bookOf side.opposite) ≠
              (Dbl.restingOrders (e.bookOf side.opposite)).drop n)) →
        Dbl.rankOf (e.bookOf side.opposite) ylevel ypos < n := by
  have hshape := dbl_reachable_shape h side.opposite
  have hrank := dbl_standsAt_rank (e.bookOf side.opposite)
  have hnothing : Dbl.restingOrders ((Dbl.addOrder e id q p side).engine.bookOf side.opposite) =
      Dbl.restingOrders (e.bookOf side.opposite) →
      ∃ n,
      (Dbl.restingOrders ((Dbl.addOrder e id q p side).engine.bookOf side.opposite) =
          (Dbl.restingOrders (e.bookOf side.opposite)).drop n ∨
        ∃ r tail newq, (Dbl.restingOrders (e.bookOf side.opposite)).drop n = r :: tail ∧
          Dbl.restingOrders ((Dbl.addOrder e id q p side).engine.bookOf side.opposite) =
            { r with quantity := newq } :: tail) ∧
      (∀ i, i < n → ∀ y, (Dbl.restingOrders (e.bookOf side.opposite)).get? i = some y →
        Dbl.Event.fullyFilled y.order_id ∈ (Dbl.addOrder e id q p side).out) ∧
      (∀ level pos o, Dbl.StandsAt (e.bookOf side.opposite) level pos o →
        (Dbl.restingOrders (e.bookOf side.opposite)).get?
          (Dbl.rankOf (e.bookOf side.opposite) level pos) = some o) ∧
      ∀ xlevel xpos x ylevel ypos y,
        Dbl.StandsAt (e.bookOf side.opposite) xlevel xpos x →
        Dbl.StandsAt (e.bookOf side.opposite) ylevel ypos y →
        Dbl.RanksAhead side.opposite ylevel ypos y xlevel xpos x →
        (Dbl.rankOf (e.bookOf side.opposite) xlevel xpos < n ∨
          (Dbl.rankOf (e.bookOf side.opposite) xlevel xpos = n ∧
            Dbl.restingOrders ((Dbl.addOrder e id q p side).engine.bookOf side.opposite) ≠
              (Dbl.restingOrders (e.bookOf side.opposite)).drop n)) →
        Dbl.rankOf (e.bookOf side.opposite) ylevel ypos < n := by
    intro hsame
    refine ⟨0, Or.inl (by rw [hsame]; rfl), fun i hi => absurd hi (Nat.not_lt_zero _), hrank, ?_⟩
    intro xlevel xpos x ylevel ypos y _ _ _ htouched
    rcases htouched with h0 | ⟨-, hne⟩
    · exact absurd h0 (Nat.not_lt_zero _)
    · exact absurd (by rw [hsame]; rfl) hne
  rcases dbl_addOrder_books e id q p side with ⟨-, h1, -⟩ | ⟨-, h1, h2, -⟩
  · exact hnothing (by rw [h1])
  · rcases hshape with ⟨-, hsorted, hprice⟩ | ⟨orders, hnan⟩
    · obtain ⟨n, g1, g2, -⟩ := dbl_matchLoop_consumed
        (Dbl.loopBound (e.bookOf side.opposite)) (Dbl.loopStart e ⟨id, q, p, side⟩)
      have hres : (Dbl.addOrder e id q p side).engine.bookOf side.opposite =
          (Dbl.matchLoop (Dbl.loopBound (e.bookOf side.opposite))
            (Dbl.loopStart e ⟨id, q, p, side⟩)).opposite_book := h1
      have hout : (Dbl.addOrder e id q p side).out =
          (Dbl.matchLoop (Dbl.loopBound (e.bookOf side.opposite))
            (Dbl.loopStart e ⟨id, q, p, side⟩)).out := h2
      have hstart : (Dbl.loopStart e ⟨id, q, p, side⟩).opposite_book =
          e.bookOf side.opposite := rfl
      rw [hstart] at g1 g2
      rw [← hres] at g1
      rw [← hout] at g2
      refine ⟨n, g1, g2, hrank, ?_⟩
      intro xlevel xpos x ylevel ypos y hx hy hahead htouched
      have hlt := dbl_rank_lt side.opposite (e.bookOf side.opposite) hsorted hprice
        ylevel ypos y xlevel xpos x hy hx hahead
      rcases htouched with h0 | ⟨h0, -⟩ <;> omega
    · apply hnothing
      rw [h1]
      have := dbl_matchLoop_nan (Dbl.loopBound (e.bookOf side.opposite))
        (Dbl.loopStart e ⟨id, q, p, side⟩) orders hnan
      show Dbl.restingOrders (Dbl.matchLoop (Dbl.loopBound (e.bookOf side.opposite))
        (Dbl.loopStart e ⟨id, q, p, side⟩)).opposite_book = _
      rw [this]
      rfl

/-- Witness of C4 on scenario S4: orders 30 then 31 rest at 99.00 and 30 ranks ahead of 31; the
sell of 5 (id 32) fills 30 completely and reduces 31 to 5. -/
theorem price_time_priority_witness :
    Dbl.Reachable Dbl.scenarioS4 ∧
    Dbl.StandsAt (Dbl.scenarioS4.bookOf Side.Buy) 0 0 ⟨30, 4, Double.num 9900, Side.Buy⟩ ∧
    Dbl.StandsAt (Dbl.scenarioS4.bookOf Side.Buy) 0 1 ⟨31, 6, Double.num 9900, Side.Buy⟩ ∧
    Dbl.RanksAhead Side.Buy 0 0 ⟨30, 4, Double.num 9900, Side.Buy⟩ 0 1
      ⟨31, 6, Double.num 9900, Side.Buy⟩ ∧
    (Dbl.addOrder Dbl.scenarioS4 32 5 (Double.num 9900) Side.Sell).engine.m_buyOrderBook =
      [(Double.num 9900, [⟨31, 5, Double.num 9900, Side.Buy⟩])] ∧
    (Dbl.addOrder Dbl.scenarioS4 32 5 (Double.num 9900) Side.Sell).out =
      [Dbl.Event.trade 4 (Double.num 9900), Dbl.Event.partiallyFilled 32 1,
        Dbl.Event.fullyFilled 30, Dbl.Event.trade 1 (Double.num 9900),
        Dbl.Event.fullyFilled 32, Dbl.Event.partiallyFilled 31 5] ∧
    ∃ n,
      (Dbl.restingOrders
          ((Dbl.addOrder Dbl.scenarioS4 32 5 (Double.num 9900) Side.Sell).engine.bookOf
            Side.Sell.opposite) =
          (Dbl.restingOrders (Dbl.scenarioS4.bookOf Side.Sell.opposite)).drop n ∨
        ∃ r tail newq,
          (Dbl.restingOrders (Dbl.scenarioS4.bookOf Side.Sell.opposite)).drop n = r :: tail ∧
          Dbl.restingOrders
              ((Dbl.addOrder Dbl.scenarioS4 32 5 (Double.num 9900) Side.Sell).engine.bookOf
                Side.Sell.opposite) =
            { r with quantity := newq } :: tail) ∧
      (∀ i, i < n → ∀ y,
        (Dbl.restingOrders (Dbl.scenarioS4.bookOf Side.Sell.opposite)).get? i = some y →
        Dbl.Event.fullyFilled y.order_id ∈
          (Dbl.addOrder Dbl.scenarioS4 32 5 (Double.num 9900) Side.Sell).out) ∧
      (∀ level pos o, Dbl.StandsAt (Dbl.scenarioS4.bookOf Side.Sell.opposite) level pos o →
        (Dbl.restingOrders (Dbl.scenarioS4.bookOf Side.Sell.opposite)).get?
          (Dbl.rankOf (Dbl.scenarioS4.bookOf Side.Sell.opposite) level pos) = some o) ∧
      ∀ xlevel xpos x ylevel ypos y,
        Dbl.StandsAt (Dbl.scenarioS4.bookOf Side.Sell.opposite) xlevel xpos x →
        Dbl.StandsAt (Dbl.scenarioS4.bookOf Side.Sell.opposite) ylevel ypos y →
        Dbl.RanksAhead Side.Sell.opposite ylevel ypos y xlevel xpos x →
        (Dbl.rankOf (Dbl.scenarioS4.bookOf Side.Sell.opposite) xlevel xpos < n ∨
          (Dbl.rankOf (Dbl.scenarioS4.bookOf Side.Sell.opposite) xlevel xpos = n ∧
            Dbl.restingOrders
                ((Dbl.addOrder Dbl.scenarioS4 32 5 (Double.num 9900) Side.Sell).engine.bookOf
                  Side.Sell.opposite) ≠
              (Dbl.restingOrders (Dbl.scenarioS4.bookOf Side.Sell.opposite)).drop n)) →
        Dbl.rankOf (Dbl.scenarioS4.bookOf Side.Sell.opposite) ylevel ypos < n :=
  ⟨dbl_reachable_S4, ⟨_, rfl, rfl⟩, ⟨_, rfl, rfl⟩, Or.inr ⟨rfl, rfl, by decide⟩, by decide,
    by decide,
    price_time_priority Dbl.scenarioS4 dbl_reachable_S4 32 5 (Double.num 9900) Side.Sell⟩

/-- C5 (event order per match step): for an `addOrder` of an id without index entry in a
reachable state, the lines logged on the out channel are exactly those of the match loop; they
form consecutive triples (TRADE, fill notice of the aggressive id, fill notice of a resting
order) and their number is a multiple of 3; and every iteration executed by the loop appends
exactly one triple: TRADE of `min A.quantity R.quantity` at `R.price`, then PARTIAL for the
aggressive id with its remaining quantity if that is positive and FILLED otherwise, then FILLED
for the resting id if its quantity reached 0 and PARTIAL with its remaining quantity
otherwise. -/
theorem events_form_triples (e : Engine) (h : Reachable e) (id q : Nat) (p : Int) (side : Side)
    (hq : q < UINT64_MOD) (hfresh : e.m_orderMap id = none) :
    (addOrder e id q p side).out =
      (loopAt e ⟨id, q, p, side⟩ (loopBound (e.bookOf side.opposite))).out ∧
    (loopAt e ⟨id, q, p, side⟩ 0).out = [] ∧
    TriplesFrom id q (addOrder e id q p side).out ∧
    (addOrder e id q p side).out.length % 3 = 0 ∧
    ∀ n st1, matchStep (loopAt e ⟨id, q, p, side⟩ n) = some st1 →
      (loopAt e ⟨id, q, p, side⟩ n).aggressive_order.order_id = id ∧
      ∃ k R rs rest,
        (loopAt e ⟨id, q, p, side⟩ n).opposite_book = (k, R :: rs) :: rest ∧
        loopAt e ⟨id, q, p, side⟩ (n + 1) = st1 ∧
        st1.out = (loopAt e ⟨id, q, p, side⟩ n).out ++
          [Event.trade
            (min (loopAt e ⟨id, q, p, side⟩ n).aggressive_order.quantity R.quantity) R.price,
            if (loopAt e ⟨id, q, p, side⟩ n).aggressive_order.quantity -
                min (loopAt e ⟨id, q, p, side⟩ n).aggressive_order.quantity R.quantity > 0 then
              Event.partiallyFilled id
                ((loopAt e ⟨id, q, p, side⟩ n).aggressive_order.quantity -
                  min (loopAt e ⟨id, q, p, side⟩ n).aggressive_order.quantity R.quantity)
            else Event.fullyFilled id,
            if R.quantity -
                min (loopAt e ⟨id, q, p, side⟩ n).aggressive_order.quantity R.quantity = 0 then
              Event.fullyFilled R.order_id
            else Event.partiallyFilled R.order_id
              (R.quantity -
                min (loopAt e ⟨id, q, p, side⟩ n).aggressive_order.quantity R.quantity)] := by
  have hstart := loopInv_start (reachable_inv h) ⟨id, q, p, side⟩ hq
  obtain ⟨hout, -⟩ := addOrder_fresh e id q p side hfresh
  obtain ⟨evs, h1, h2, h3⟩ :=
    matchLoop_triples (loopBound (e.bookOf side.opposite)) _ hstart
  have hres : (loopResult e ⟨id, q, p, side⟩).out = evs := by
    simpa [loopStart] using h1
  refine ⟨hout, rfl, ?_, ?_, ?_⟩
  · rw [hout, hres]; exact h2
  · rw [hout, hres]; exact h3
  · intro n st1 hstep
    have hL := loopInv_at (reachable_inv h) ⟨id, q, p, side⟩ hq n
    have hid : (loopAt e ⟨id, q, p, side⟩ n).aggressive_order.order_id = id :=
      (matchLoop_aggressive n (loopStart e ⟨id, q, p, side⟩)).1
    obtain ⟨k, R, rs, rest, hbook, -, -, -, -, -, -, hout2⟩ := step_events hL hstep
    refine ⟨hid, k, R, rs, rest, hbook, ?_, ?_⟩
    · simp only [loopAt, matchLoop_succ] at hstep ⊢
      rw [hstep]
    · rw [hid] at hout2
      exact hout2

/-- Witness of C5 on scenario S3: the buy of 10 at 101.00 (id 22) sweeps two levels and logs two
triples. -/
theorem events_form_triples_witness :
    Reachable scenarioS3 ∧ (10 : Nat) < UINT64_MOD ∧ scenarioS3.m_orderMap 22 = none ∧
    (addOrder scenarioS3 22 10 10100 Side.Buy).out =
      [Event.trade 3 10000, Event.partiallyFilled 22 7, Event.fullyFilled 20,
        Event.trade 2 10100, Event.partiallyFilled 22 5, Event.fullyFilled 21] ∧
    TriplesFrom 22 10 (addOrder scenarioS3 22 10 10100 Side.Buy).out ∧
    (addOrder scenarioS3 22 10 10100 Side.Buy).out.length % 3 = 0 :=
  ⟨reachable_S3, by decide, by decide, by decide,
    (events_form_triples scenarioS3 reachable_S3 22 10 10100 Side.Buy (by decide)
      (by decide)).2.2.1,
    (events_form_triples scenarioS3 reachable_S3 22 10 10100 Side.Buy (by decide)
      (by decide)).2.2.2.1⟩

/-! ## Claims about `addOrder` and `cancelOrder` -/

/-- C6, as stated, fails on a state the code reaches with a NaN price: after
`addOrder(1, 5, NaN, Buy)` the buy book is one level with the key NaN; `addOrder(2, 5, 50.00,
Buy)`, with id 2 not in the index, trades nothing and rests with its 5, but it is appended to
the level with the key NaN, and the book has no level at the price 50.00. -/
theorem residual_rests_last_counterexample :
    Dbl.Reachable Dbl.scenarioNaNFirst ∧
    Dbl.scenarioNaNFirst.m_orderMap 2 = none ∧
    (Dbl.addOrder Dbl.scenarioNaNFirst 2 5 (Double.num 5000) Side.Buy).out = [] ∧
    (Dbl.addOrder Dbl.scenarioNaNFirst 2 5 (Double.num 5000) Side.Buy).engine.m_orderMap 2 =
      some ⟨2, 5, Double.num 5000, Side.Buy⟩ ∧
    (Dbl.addOrder Dbl.scenarioNaNFirst 2 5 (Double.num 5000) Side.Buy).engine.m_buyOrderBook =
      [(Double.nan, [⟨1, 5, Double.nan, Side.Buy⟩, ⟨2, 5, Double.num 5000, Side.Buy⟩])] ∧
    (∀ l ∈ (Dbl.addOrder Dbl.scenarioNaNFirst 2 5 (Double.num 5000)
        Side.Buy).engine.m_buyOrderBook, l.1 ≠ Double.num 5000) ∧
    (Dbl.runMessages stodCents Dbl.Engine.empty
        ["0,1,0,5,nan".toList, "0,2,0,5,50.00".toList]).map
        (fun r => r.engine.m_buyOrderBook) =
      some [(Double.nan, [⟨1, 5, Double.nan, Side.Buy⟩, ⟨2, 5, Double.num 5000, Side.Buy⟩])] :=
  ⟨dbl_reachable_nanFirst, by decide, by decide, by decide, by decide, by decide, by decide⟩

/-- C6 (amended, residual rests last): for `addOrder e id q p side` with `id` not in the index of
a state reachable with prices that are exact comparable numbers (no NaN), `p` being such a
number, the trades of the call take at most `q`; afterwards `id` is in the index if and
only if the residual `q` minus the traded quantity is positive; in that case its index entry is
the order `(id, residual, p, side)`, which is the last order of the level found under `p` in its
own book, behind the orders that level held before; every other level of its own book is
unchanged, and the orders that were already on its own side are stored unchanged in the same
iteration order. With residual 0 the own book is unchanged. -/
theorem residual_rests_last (e : Engine) (h : Reachable e) (id q : Nat) (p : Int) (side : Side)
    (hq : q < UINT64_MOD) (hfresh : e.m_orderMap id = none) :
    tradedQuantity (addOrder e id q p side).out ≤ q ∧
    (((addOrder e id q p side).engine.m_orderMap id).isSome = true ↔
      0 < q - tradedQuantity (addOrder e id q p side).out) ∧
    (0 < q - tradedQuantity (addOrder e id q p side).out →
      (addOrder e id q p side).engine.m_orderMap id =
        some ⟨id, q - tradedQuantity (addOrder e id q p side).out, p, side⟩ ∧
      findLevel ((addOrder e id q p side).engine.bookOf side) p =
        some ((findLevel (e.bookOf side) p).getD [] ++
          [⟨id, q - tradedQuantity (addOrder e id q p side).out, p, side⟩])) ∧
    (q - tradedQuantity (addOrder e id q p side).out = 0 →
      (addOrder e id q p side).engine.bookOf side = e.bookOf side) ∧
    (∀ p2, p2 ≠ p →
      findLevel ((addOrder e id q p side).engine.bookOf side) p2 =
        findLevel (e.bookOf side) p2) ∧
    removeById (restingOrders ((addOrder e id q p side).engine.bookOf side)) id =
      restingOrders (e.bookOf side) := by
  have hinv := reachable_inv h
  have hS := (inv_iff_side e side).mp hinv
  obtain ⟨hout, -, -, hown, hmap⟩ := addOrder_fresh e id q p side hfresh
  obtain ⟨hA, hle, -, hnone, hownfresh⟩ := loopResult_facts hinv id q p side hq hfresh
  rw [hout, hown, hmap, hA]
  simp only
  generalize tradedQuantity (loopResult e ⟨id, q, p, side⟩).out = t at *
  by_cases hpos : 0 < q - t
  · have hif : ∀ {α : Type} (a b : α), (if q - t > 0 then a else b) = a :=
      fun a b => if_pos hpos
    simp only [hif]
    refine ⟨hle, ?_, ?_, ?_, ?_, ?_⟩
    · simp only [insertOrder, if_true, Option.isSome_some, true_iff]
      exact hpos
    · intro _
      exact ⟨by simp [insertOrder], findLevel_pushBack_same ⟨id, q - t, p, side⟩ hS.ownOK.sorted⟩
    · intro h0
      omega
    · intro p2 hp2
      exact findLevel_pushBack_other _ _ ⟨id, q - t, p, side⟩ hp2
    · exact restingOrders_pushBack_filter _ _ ⟨id, q - t, p, side⟩ hownfresh
  · have hif : ∀ {α : Type} (a b : α), (if q - t > 0 then a else b) = b :=
      fun a b => if_neg hpos
    simp only [hif]
    refine ⟨hle, ?_, ?_, ?_, ?_, ?_⟩
    · simp [hnone, hpos]
    · intro h0
      exact absurd h0 hpos
    · intro _
      trivial
    · intro p2 _
      trivial
    · exact removeById_of_fresh hownfresh

/-- Witness of the amended C6 on scenario S3: the buy of 10 at 101.00 (id 22) trades 5 and rests
with 5. -/
theorem residual_rests_last_witness :
    Reachable scenarioS3 ∧ (10 : Nat) < UINT64_MOD ∧ scenarioS3.m_orderMap 22 = none ∧
    tradedQuantity (addOrder scenarioS3 22 10 10100 Side.Buy).out = 5 ∧
    (((addOrder scenarioS3 22 10 10100 Side.Buy).engine.m_orderMap 22).isSome = true ↔
      0 < 10 - tradedQuantity (addOrder scenarioS3 22 10 10100 Side.Buy).out) :=
  ⟨reachable_S3, by decide, by decide, by decide,
    (residual_rests_last scenarioS3 reachable_S3 22 10 10100 Side.Buy (by decide)
      (by decide)).2.1⟩

/-- C7 (semantic errors leave the engine unchanged): in every engine state, `addOrder` with an
id that is in the index and `cancelOrder` with an id that is not in the index return the engine
as it was, log nothing on the out channel and log exactly one diagnostic on the err channel. -/
theorem semantic_errors_leave_engine_unchanged (e : Engine) :
    (∀ id q p side, (e.m_orderMap id).isSome = true →
      (addOrder e id q p side).engine = e ∧ (addOrder e id q p side).out = [] ∧
      (addOrder e id q p side).err = ["Duplicate order ID: " ++ toString id] ∧
      (addOrder e id q p side).err.length = 1) ∧
    (∀ id, e.m_orderMap id = none →
      (cancelOrder e id).engine = e ∧ (cancelOrder e id).out = [] ∧
      (cancelOrder e id).err = ["Order not found: " ++ toString id] ∧
      (cancelOrder e id).err.length = 1) := by
  constructor
  · intro id q p side hdup
    simp [addOrder, hdup]
  · intro id hnone
    simp [cancelOrder, hnone]

/-- Witness of C7 on scenario S6: the second add of id 50 is rejected and the buy of 5 at 100.00
remains; cancelling the unknown id 51 changes nothing. -/
theorem semantic_errors_leave_engine_unchanged_witness :
    (scenarioS6.m_orderMap 50).isSome = true ∧ scenarioS6.m_orderMap 51 = none ∧
    scenarioS6.m_buyOrderBook = [(10000, [⟨50, 5, 10000, Side.Buy⟩])] ∧
    (addOrder scenarioS6 50 7 10100 Side.Buy).engine = scenarioS6 ∧
    (cancelOrder scenarioS6 51).engine = scenarioS6 :=
  ⟨by decide, by decide, by decide,
    ((semantic_errors_leave_engine_unchanged scenarioS6).1 50 7 10100 Side.Buy (by decide)).1,
    ((semantic_errors_leave_engine_unchanged scenarioS6).2 51 (by decide)).1⟩

/-- C8, as stated, fails on a state the code reaches with a NaN price: in `scenarioNaNAdds` id 2
is in the index with the price NaN; `cancelOrder(2)` looks the price up, gets the level with the
key 105.00, removes nothing there and erases the index entry, so afterwards order 2 is still in
the buy book, which is as it was. -/
theorem cancel_removes_exactly_one_counterexample :
    Dbl.Reachable Dbl.scenarioNaNAdds ∧
    Dbl.scenarioNaNAdds.m_orderMap 2 = some ⟨2, 5, Double.nan, Side.Buy⟩ ∧
    Dbl.findLevel Dbl.buyCmp Dbl.scenarioNaNAdds.m_buyOrderBook Double.nan =
      some (Double.num 10500, [⟨3, 5, Double.num 10500, Side.Buy⟩]) ∧
    (Dbl.cancelOrder Dbl.scenarioNaNAdds 2).engine.m_orderMap 2 = none ∧
    (Dbl.cancelOrder Dbl.scenarioNaNAdds 2).engine.m_buyOrderBook =
      Dbl.scenarioNaNAdds.m_buyOrderBook ∧
    (⟨2, 5, Double.nan, Side.Buy⟩ : Dbl.Order) ∈
      Dbl.restingOrders (Dbl.cancelOrder Dbl.scenarioNaNAdds 2).engine.m_buyOrderBook ∧
    (Dbl.cancelOrder Dbl.scenarioNaNAdds 2).err = [] :=
  ⟨dbl_reachable_nanAdds, by decide, by decide, by decide, by decide, by decide, by decide⟩

/-- C8 (amended, cancel removes exactly one order): for an id with index entry `o` in a state
reachable with prices that are exact comparable numbers (no NaN),
after `cancelOrder` the id has no index entry and is the id of no stored order; the iteration
order of the book of `o.side` is the one before with exactly `o` taken out; the level under
`o.price` is gone if and only if `o` was its only order, and otherwise holds its former orders
without `o` in the same order; every other level, the opposite book and every other index entry
are unchanged; and nothing is logged on the out channel. -/
theorem cancel_removes_exactly_one (e : Engine) (h : Reachable e) (id : Nat) (o : Order)
    (hm : e.m_orderMap id = some o) :
    (cancelOrder e id).engine.m_orderMap id = none ∧
    (∀ x ∈ restingOrders (cancelOrder e id).engine.m_buyOrderBook ++
        restingOrders (cancelOrder e id).engine.m_sellOrderBook, x.order_id ≠ id) ∧
    (∃ l1 l2, restingOrders (e.bookOf o.side) = l1 ++ o :: l2 ∧
      restingOrders ((cancelOrder e id).engine.bookOf o.side) = l1 ++ l2) ∧
    (findLevel ((cancelOrder e id).engine.bookOf o.side) o.price = none ↔
      findLevel (e.bookOf o.side) o.price = some [o]) ∧
    (∃ l1 l2, findLevel (e.bookOf o.side) o.price = some (l1 ++ o :: l2) ∧
      (l1 ++ l2 ≠ [] →
        findLevel ((cancelOrder e id).engine.bookOf o.side) o.price = some (l1 ++ l2))) ∧
    (∀ p2, p2 ≠ o.price →
      findLevel ((cancelOrder e id).engine.bookOf o.side) p2 =
        findLevel (e.bookOf o.side) p2) ∧
    (cancelOrder e id).engine.bookOf o.side.opposite = e.bookOf o.side.opposite ∧
    (∀ id2, id2 ≠ id → (cancelOrder e id).engine.m_orderMap id2 = e.m_orderMap id2) ∧
    (cancelOrder e id).out = [] := by
  have hinv := reachable_inv h
  have hinv2 : Inv (cancelOrder e id).engine := inv_cancelOrder hinv id
  have hS := (inv_iff_side e o.side).mp hinv
  obtain ⟨h1, h2, h3, h4, -⟩ := cancelOrder_found e id o hm
  obtain ⟨hoid, homem⟩ := sideInv_mem_own hS hm rfl
  have hp : ∀ o2 ∈ restingOrders (e.bookOf o.side), o2.order_id = id → o2.price = o.price := by
    intro o2 ho2 hid2
    rw [sideInv_unique hS (Or.inr ho2) (Or.inr homem) (hid2.trans hoid.symm)]
  have hro := restingOrders_cancelInBook o.price id hS.ownOK hp
  have hnd : ((restingOrders (e.bookOf o.side)).map Order.order_id).Nodup :=
    List.Nodup.sublist (List.Sublist.map _ (List.sublist_append_right _ _)) hS.nodup
  obtain ⟨os, hfind, hoos⟩ := findLevel_of_mem hS.ownOK homem
  have hndos : (os.map Order.order_id).Nodup :=
    List.Nodup.sublist (List.Sublist.map _ (findLevel_sublist hfind)) hnd
  obtain ⟨l1, l2, hl, hrem⟩ := removeById_unique hndos hoos
  rw [hoid] at hrem
  have hsame := findLevel_cancelInBook_same o.price id hS.ownOK.sorted
  rw [hfind] at hsame
  simp only [hrem] at hsame
  have hmnone : (cancelOrder e id).engine.m_orderMap id = none := by
    rw [h3]; simp [eraseOrder]
  refine ⟨hmnone, ?_, ?_, ?_, ?_, ?_, h2, ?_, h4⟩
  · intro x hx hxid
    have := (hinv2.index x.order_id x).mpr ⟨rfl, (List.mem_append.mp hx).symm⟩
    rw [hxid, hmnone] at this
    exact absurd this (by simp)
  · obtain ⟨a1, a2, ha, harem⟩ := removeById_unique hnd homem
    rw [hoid] at harem
    exact ⟨a1, a2, ha, by rw [h1, hro, harem]⟩
  · rw [h1, hsame, hfind, hl]
    cases l1 with
    | nil =>
      cases l2 with
      | nil => simp
      | cons _ _ => simp
    | cons _ _ => simp
  · refine ⟨l1, l2, by rw [hfind, hl], ?_⟩
    intro hne
    rw [h1, hsame]
    have : (l1 ++ l2).isEmpty = false := by
      cases hl12 : l1 ++ l2 with
      | nil => exact absurd hl12 hne
      | cons _ _ => rfl
    simp [this]
  · intro p2 hp2
    rw [h1]
    exact findLevel_cancelInBook_other _ _ _ hp2
  · intro id2 hid2
    rw [h3]
    simp [eraseOrder, hid2]

/-- Witness of the amended C8 on scenario S4: cancelling id 30 leaves id 31 alone in the level at
99.00. -/
theorem cancel_removes_exactly_one_witness :
    Reachable scenarioS4 ∧ scenarioS4.m_orderMap 30 = some ⟨30, 4, 9900, Side.Buy⟩ ∧
    (cancelOrder scenarioS4 30).engine.m_buyOrderBook = [(9900, [⟨31, 6, 9900, Side.Buy⟩])] ∧
    (cancelOrder scenarioS4 30).engine.m_orderMap 30 = none ∧
    (cancelOrder scenarioS4 30).out = [] :=
  ⟨reachable_S4, by decide, by decide,
    (cancel_removes_exactly_one scenarioS4 reachable_S4 30 ⟨30, 4, 9900, Side.Buy⟩
      (by decide)).1,
    (cancel_removes_exactly_one scenarioS4 reachable_S4 30 ⟨30, 4, 9900, Side.Buy⟩
      (by decide)).2.2.2.2.2.2.2.2⟩

/-- C9, as stated, fails in two ways. On scenario S2 the buy of 5 at 100.00 (id 11) fills the
resting sell 10 completely, so after `addOrder` and `cancelOrder` of id 11 the sell book and the
index entry of id 10 are gone and the engine is not the one before the add. On the state
`Dbl.scenarioNaN`, which the code reaches with a NaN price and in which a stale order 2 rests
without index entry, `addOrder(2, 5, 100.00, Buy)` trades nothing and the following
`cancelOrder(2)` removes the new order 2 together with the stale one, so the buy book is not the
one before the add although no trade took place. -/
theorem add_cancel_round_trip_counterexample :
    (Reachable scenarioS2 ∧ scenarioS2.m_orderMap 11 = none ∧ (5 : Nat) < UINT64_MOD ∧
      scenarioS2.m_sellOrderBook = [(10000, [⟨10, 5, 10000, Side.Sell⟩])] ∧
      (cancelOrder (addOrder scenarioS2 11 5 10000 Side.Buy).engine 11).engine.m_sellOrderBook
        = [] ∧
      (cancelOrder (addOrder scenarioS2 11 5 10000 Side.Buy).engine 11).engine ≠ scenarioS2) ∧
    (Dbl.Reachable Dbl.scenarioNaN ∧ Dbl.scenarioNaN.m_orderMap 2 = none ∧
      Dbl.scenarioNaN.m_buyOrderBook =
        [(Double.num 10500, [⟨3, 5, Double.num 10500, Side.Buy⟩]),
          (Double.num 10000,
            [⟨1, 5, Double.num 10000, Side.Buy⟩, ⟨2, 5, Double.nan, Side.Buy⟩])] ∧
      (Dbl.addOrder Dbl.scenarioNaN 2 5 (Double.num 10000) Side.Buy).out = [] ∧
      (Dbl.cancelOrder (Dbl.addOrder Dbl.scenarioNaN 2 5 (Double.num 10000) Side.Buy).engine
        2).engine.m_buyOrderBook =
        [(Double.num 10500, [⟨3, 5, Double.num 10500, Side.Buy⟩]),
          (Double.num 10000, [⟨1, 5, Double.num 10000, Side.Buy⟩])] ∧
      (Dbl.cancelOrder (Dbl.addOrder Dbl.scenarioNaN 2 5 (Double.num 10000) Side.Buy).engine
        2).engine.m_buyOrderBook ≠ Dbl.scenarioNaN.m_buyOrderBook) :=
  ⟨⟨reachable_S2, by decide, by decide, by decide, by decide,
      fun heq => absurd (congrArg (fun e => e.m_sellOrderBook) heq) (by decide)⟩,
    ⟨dbl_reachable_nan, by decide, by decide, by decide, by decide, by decide⟩⟩

/-- C9 (amended, add-then-cancel round trip): for an id not in the index of a state reachable
with prices that are exact comparable numbers (no NaN), and such a price for the add,
`addOrder` followed by `cancelOrder` of that id gives back the engine as it was before the add
(both books and the index) if and only if the add logged nothing on the out channel, that is,
executed no trade. -/
theorem add_cancel_round_trip_iff_no_trade (e : Engine) (h : Reachable e) (id q : Nat) (p : Int)
    (side : Side) (hq : q < UINT64_MOD) (hfresh : e.m_orderMap id = none) :
    (cancelOrder (addOrder e id q p side).engine id).engine = e ↔
      (addOrder e id q p side).out = [] := by
  have hinv := reachable_inv h
  have hS := (inv_iff_side e side).mp hinv
  obtain ⟨hout, -, hopp, hown, hmap⟩ := addOrder_fresh e id q p side hfresh
  obtain ⟨hA, hle, hcons, hnone, hownfresh⟩ := loopResult_facts hinv id q p side hq hfresh
  obtain ⟨hsil1, hsil2⟩ := loopResult_silent hinv id q p side hq
  rw [hA] at hown hmap
  simp only at hown hmap
  have hoppfinal : (cancelOrder (addOrder e id q p side).engine id).engine.bookOf side.opposite
      = (loopResult e ⟨id, q, p, side⟩).opposite_book := by
    by_cases hpos : q - tradedQuantity (loopResult e ⟨id, q, p, side⟩).out > 0
    · have hm1 : (addOrder e id q p side).engine.m_orderMap id =
          some ⟨id, q - tradedQuantity (loopResult e ⟨id, q, p, side⟩).out, p, side⟩ := by
        rw [hmap, if_pos hpos]; simp [insertOrder]
      rw [(cancelOrder_found _ id _ hm1).2.1, hopp]
    · have hm1 : (addOrder e id q p side).engine.m_orderMap id = none := by
        rw [hmap, if_neg hpos]; exact hnone
      simp only [cancelOrder, hm1]
      exact hopp
  constructor
  · intro heq
    rw [hout]
    by_contra hne
    have hpos := hsil2 hne
    rw [heq] at hoppfinal
    rw [← hoppfinal] at hcons
    omega
  · intro hempty
    rw [hout] at hempty
    have hst := hsil1 hempty
    rw [hempty] at hown hmap
    simp only [tradedQuantity, Nat.sub_zero] at hown hmap
    rw [hst] at hopp hmap
    simp only [loopStart] at hopp hmap
    by_cases hpos : q > 0
    · rw [if_pos hpos] at hown hmap
      have hm1 : (addOrder e id q p side).engine.m_orderMap id = some ⟨id, q, p, side⟩ := by
        rw [hmap]; simp [insertOrder]
      obtain ⟨c1, c2, c3, -, -⟩ := cancelOrder_found _ id _ hm1
      simp only at c1 c2
      refine engine_ext side ?_ ?_ ?_
      · rw [c1, hown]
        exact cancelInBook_pushBack _ _ ⟨id, q, p, side⟩ hS.ownOK.nonempty hownfresh
      · rw [c2, hopp]
      · rw [c3, hmap]
        funext k
        simp only [eraseOrder, insertOrder]
        split
        · rename_i hk
          rw [hk, hfresh]
        · rfl
    · rw [if_neg hpos] at hown hmap
      have hm1 : (addOrder e id q p side).engine.m_orderMap id = none := by
        rw [hmap]; exact hfresh
      simp only [cancelOrder, hm1]
      exact engine_ext side hown hopp hmap

/-- Witness of the amended C9 on scenario S6: a buy of 7 at 101.00 (id 51) meets no sell, rests,
and is cancelled again. -/
theorem add_cancel_round_trip_iff_no_trade_witness :
    Reachable scenarioS6 ∧ (7 : Nat) < UINT64_MOD ∧ scenarioS6.m_orderMap 51 = none ∧
    (addOrder scenarioS6 51 7 10100 Side.Buy).out = [] ∧
    (cancelOrder (addOrder scenarioS6 51 7 10100 Side.Buy).engine 51).engine = scenarioS6 :=
  ⟨reachable_S6, by decide, by decide, by decide,
    (add_cancel_round_trip_iff_no_trade scenarioS6 reachable_S6 51 7 10100 Side.Buy (by decide)
      (by decide)).mpr (by decide)⟩

/-- C10, as stated, fails on a state the code reaches with a NaN price: in `scenarioNaN` id 2 is
not in the index, but a stale order 2 still rests in the buy book. `addOrder(2, 12, 100.00,
Sell)` trades 5 + 5 + 2 = 12, the last trade against the stale order 2, whose reduction writes an
index entry under id 2 with quantity 3; so id 2 rests with 3 afterwards and the traded quantity
12 is not 12 minus that quantity. -/
theorem conservation_of_quantity_counterexample :
    Dbl.Reachable Dbl.scenarioNaN ∧
    Dbl.scenarioNaN.m_orderMap 2 = none ∧
    (Dbl.addOrder Dbl.scenarioNaN 2 12 (Double.num 10000) Side.Sell).out =
      [Dbl.Event.trade 5 (Double.num 10500), Dbl.Event.partiallyFilled 2 7,
        Dbl.Event.fullyFilled 3, Dbl.Event.trade 5 (Double.num 10000),
        Dbl.Event.partiallyFilled 2 2, Dbl.Event.fullyFilled 1, Dbl.Event.trade 2 Double.nan,
        Dbl.Event.fullyFilled 2, Dbl.Event.partiallyFilled 2 3] ∧
    Dbl.tradedQuantity (Dbl.addOrder Dbl.scenarioNaN 2 12 (Double.num 10000) Side.Sell).out =
      12 ∧
    (Dbl.addOrder Dbl.scenarioNaN 2 12 (Double.num 10000) Side.Sell).engine.m_buyOrderBook =
      [(Double.num 10000, [⟨2, 3, Double.nan, Side.Buy⟩])] ∧
    Dbl.restingQuantity (Dbl.addOrder Dbl.scenarioNaN 2 12 (Double.num 10000) Side.Sell).engine
      2 = 3 ∧
    Dbl.tradedQuantity (Dbl.addOrder Dbl.scenarioNaN 2 12 (Double.num 10000) Side.Sell).out ≠
      12 - Dbl.restingQuantity
        (Dbl.addOrder Dbl.scenarioNaN 2 12 (Double.num 10000) Side.Sell).engine 2 :=
  ⟨dbl_reachable_nan, by decide, by decide, by decide, by decide, by decide, by decide⟩

/-- C10 (amended, conservation of quantity): for `addOrder e id q p side` with `id` not in the
index of a state reachable with prices that are exact comparable numbers (no NaN), `p` being
such a number, the sum of the TRADE quantities logged by the call plus the total quantity
resting on the opposite side afterwards is the total that rested there before, and the sum plus
the quantity with which `id` rests afterwards (0 if it does not rest) is `q`. Consequently, over
any sequence of adds from a reachable state, the sum of all TRADE quantities is the total
quantity matched out of resting orders. -/
theorem conservation_of_quantity (e : Engine) (h : Reachable e) (id q : Nat) (p : Int)
    (side : Side) (hq : q < UINT64_MOD) (hfresh : e.m_orderMap id = none) :
    tradedQuantity (addOrder e id q p side).out +
        totalQuantity (restingOrders ((addOrder e id q p side).engine.bookOf side.opposite)) =
      totalQuantity (restingOrders (e.bookOf side.opposite)) ∧
    tradedQuantity (addOrder e id q p side).out =
      totalQuantity (restingOrders (e.bookOf side.opposite)) -
        totalQuantity (restingOrders ((addOrder e id q p side).engine.bookOf side.opposite)) ∧
    tradedQuantity (addOrder e id q p side).out +
      restingQuantity (addOrder e id q p side).engine id = q ∧
    tradedQuantity (addOrder e id q p side).out =
      q - restingQuantity (addOrder e id q p side).engine id ∧
    ∀ reqs : List AddRequest, (∀ r ∈ reqs, r.quantity < UINT64_MOD) →
      tradedQuantity (runAdds e reqs).2 = matchedOut e reqs := by
  have hinv := reachable_inv h
  obtain ⟨h1, h2⟩ := addOrder_conservation hinv id q p side hq hfresh
  exact ⟨h1, by omega, h2, by omega, fun reqs hb => runAdds_conservation reqs e hinv hb⟩

/-- Witness of the amended C10 on scenario S3: the buy of 10 at 101.00 (id 22) trades
3 + 2 = 5, the sell side loses 5 and the buy rests with 5. -/
theorem conservation_of_quantity_witness :
    Reachable scenarioS3 ∧ (10 : Nat) < UINT64_MOD ∧ scenarioS3.m_orderMap 22 = none ∧
    tradedQuantity (addOrder scenarioS3 22 10 10100 Side.Buy).out = 5 ∧
    totalQuantity (restingOrders (scenarioS3.bookOf Side.Sell)) = 5 ∧
    restingQuantity (addOrder scenarioS3 22 10 10100 Side.Buy).engine 22 = 5 ∧
    tradedQuantity (addOrder scenarioS3 22 10 10100 Side.Buy).out +
      restingQuantity (addOrder scenarioS3 22 10 10100 Side.Buy).engine 22 = 10 :=
  ⟨reachable_S3, by decide, by decide, by decide, by decide, by decide,
    (conservation_of_quantity scenarioS3 reachable_S3 22 10 10100 Side.Buy (by decide)
      (by decide)).2.2.1⟩

/-- C11 (no zero-quantity order): in every state reachable by `addOrder` and `cancelOrder` calls
(an `addOrder` with quantity 0 included), every order stored in either book and every entry of
the order index has a quantity greater than 0. -/
theorem no_zero_quantity (e : Engine) (h : Reachable e) :
    (∀ o ∈ restingOrders e.m_buyOrderBook ++ restingOrders e.m_sellOrderBook, 0 < o.quantity) ∧
    (∀ id o, e.m_orderMap id = some o → 0 < o.quantity) := by
  have hinv : Inv e := reachable_inv h
  have hbook : ∀ o ∈ restingOrders e.m_buyOrderBook ++ restingOrders e.m_sellOrderBook,
      0 < o.quantity := by
    intro o ho
    rcases List.mem_append.mp ho with ho | ho
    · obtain ⟨l, hl, hol⟩ := mem_restingOrders.mp ho
      exact (hinv.ownOK.orders l hl o hol).2.2.1
    · obtain ⟨l, hl, hol⟩ := mem_restingOrders.mp ho
      exact (hinv.oppOK.orders l hl o hol).2.2.1
  refine ⟨hbook, ?_⟩
  intro id o hm
  obtain ⟨-, hmem⟩ := (hinv.index id o).mp hm
  exact hbook o (List.mem_append.mpr hmem.symm)

/-- Witness of C11: after scenario S1 an `addOrder` with quantity 0 stores nothing, and the two
resting orders have positive quantities. -/
theorem no_zero_quantity_witness :
    Reachable scenarioZeroQuantity ∧
    restingOrders scenarioZeroQuantity.m_buyOrderBook ++
        restingOrders scenarioZeroQuantity.m_sellOrderBook =
      [⟨1, 10, 10000, Side.Buy⟩, ⟨2, 5, 10100, Side.Sell⟩] ∧
    scenarioZeroQuantity.m_orderMap 3 = none ∧
    (∀ o ∈ restingOrders scenarioZeroQuantity.m_buyOrderBook ++
        restingOrders scenarioZeroQuantity.m_sellOrderBook, 0 < o.quantity) :=
  ⟨reachable_zeroQuantity, by decide, by decide,
    (no_zero_quantity scenarioZeroQuantity reachable_zeroQuantity).1⟩

/-- C12 (no empty level): in every state reachable by `addOrder` and `cancelOrder` calls, every
price level present in the buy book or in the sell book holds a non-empty queue of orders. -/
theorem no_empty_level (e : Engine) (h : Reachable e) :
    (∀ l ∈ e.m_buyOrderBook, l.2 ≠ []) ∧ (∀ l ∈ e.m_sellOrderBook, l.2 ≠ []) :=
  ⟨(reachable_inv h).ownOK.nonempty, (reachable_inv h).oppOK.nonempty⟩

/-- Witness of C12 on scenario S4 after cancelling id 30: the level at 99.00 still holds id 31;
cancelling id 31 as well erases the level. -/
theorem no_empty_level_witness :
    Reachable (cancelOrder scenarioS4 30).engine ∧
    (cancelOrder (cancelOrder scenarioS4 30).engine 31).engine.m_buyOrderBook = [] ∧
    (∀ l ∈ (cancelOrder scenarioS4 30).engine.m_buyOrderBook, l.2 ≠ []) :=
  ⟨Reachable.cancel reachable_S4 30 (by decide), by decide,
    (no_empty_level (cancelOrder scenarioS4 30).engine
      (Reachable.cancel reachable_S4 30 (by decide))).1⟩

/-! ## Claims about `processMessage` -/

/-- C13 (scenario S3 end to end): with `std::stod` reading the texts 100.00 and 101.00 as these
prices, `processMessage` applied in order, from an empty engine, to `0,20,1,3,100.00`,
`0,21,1,2,101.00` and `0,22,0,10,101.00` logs on the out channel exactly TRADE of 3 at 100.00,
PARTIAL for order 22 with 7, FILLED for order 20, TRADE of 2 at 101.00, PARTIAL for order 22
with 5, FILLED for order 21, and logs nothing on the err channel; afterwards the sell book is
empty and the buy book is the single level 101.00 holding only order 22 with quantity 5. -/
theorem scenario_S3_end_to_end (stod : Text → Conversion Double)
    (h100 : stod "100.00".toList = Conversion.ok (Double.num 10000))
    (h101 : stod "101.00".toList = Conversion.ok (Double.num 10100)) :
    (runMessages stod Engine.empty
      ["0,20,1,3,100.00".toList, "0,21,1,2,101.00".toList, "0,22,0,10,101.00".toList]).map
        (fun r => r.out) =
      some [Event.trade 3 10000, Event.partiallyFilled 22 7, Event.fullyFilled 20,
        Event.trade 2 10100, Event.partiallyFilled 22 5, Event.fullyFilled 21] ∧
    (runMessages stod Engine.empty
      ["0,20,1,3,100.00".toList, "0,21,1,2,101.00".toList, "0,22,0,10,101.00".toList]).map
        (fun r => r.err) = some [] ∧
    (runMessages stod Engine.empty
      ["0,20,1,3,100.00".toList, "0,21,1,2,101.00".toList, "0,22,0,10,101.00".toList]).map
        (fun r => r.engine.m_sellOrderBook) = some [] ∧
    (runMessages stod Engine.empty
      ["0,20,1,3,100.00".toList, "0,21,1,2,101.00".toList, "0,22,0,10,101.00".toList]).map
        (fun r => r.engine.m_buyOrderBook) = some [(10100, [⟨22, 5, 10100, Side.Buy⟩])] ∧
    (runMessages stod Engine.empty
      ["0,20,1,3,100.00".toList, "0,21,1,2,101.00".toList, "0,22,0,10,101.00".toList]).map
        (fun r => r.engine.m_orderMap 22) = some (some ⟨22, 5, 10100, Side.Buy⟩) := by
  have hstod : ∀ m ∈ ["0,20,1,3,100.00".toList, "0,21,1,2,101.00".toList,
      "0,22,0,10,101.00".toList],
      stod ((messageToToken m []).2.1.getD 4 []) =
        stodCents ((messageToToken m []).2.1.getD 4 []) := by
    intro m hm
    simp only [List.mem_cons, List.mem_singleton, List.not_mem_nil, or_false] at hm
    have t1 : (messageToToken "0,20,1,3,100.00".toList []).2.1.getD 4 [] = "100.00".toList := by
      decide
    have t2 : (messageToToken "0,21,1,2,101.00".toList []).2.1.getD 4 [] = "101.00".toList := by
      decide
    have t3 : (messageToToken "0,22,0,10,101.00".toList []).2.1.getD 4 [] = "101.00".toList := by
      decide
    have c1 : stodCents "100.00".toList = Conversion.ok (Double.num 10000) := by decide
    have c2 : stodCents "101.00".toList = Conversion.ok (Double.num 10100) := by decide
    rcases hm with rfl | rfl | rfl
    · rw [t1, h100, c1]
    · rw [t2, h101, c2]
    · rw [t3, h101, c2]
  rw [runMessages_congr stod stodCents _ Engine.empty hstod]
  exact ⟨by decide, by decide, by decide, by decide, by decide⟩

/-- Witness of C13: the instance `stodCents` reads the two price texts as required. -/
theorem scenario_S3_end_to_end_witness :
    stodCents "100.00".toList = Conversion.ok (Double.num 10000) ∧
    stodCents "101.00".toList = Conversion.ok (Double.num 10100) ∧
    (runMessages stodCents Engine.empty
      ["0,20,1,3,100.00".toList, "0,21,1,2,101.00".toList, "0,22,0,10,101.00".toList]).map
        (fun r => r.out) =
      some [Event.trade 3 10000, Event.partiallyFilled 22 7, Event.fullyFilled 20,
        Event.trade 2 10100, Event.partiallyFilled 22 5, Event.fullyFilled 21] ∧
    (runMessages stodCents Engine.empty
      ["0,20,1,3,100.00".toList, "0,21,1,2,101.00".toList, "0,22,0,10,101.00".toList]).map
        (fun r => r.err) = some [] ∧
    (runMessages stodCents Engine.empty
      ["0,20,1,3,100.00".toList, "0,21,1,2,101.00".toList, "0,22,0,10,101.00".toList]).map
        (fun r => r.engine.m_sellOrderBook) = some [] ∧
    (runMessages stodCents Engine.empty
      ["0,20,1,3,100.00".toList, "0,21,1,2,101.00".toList, "0,22,0,10,101.00".toList]).map
        (fun r => r.engine.m_buyOrderBook) = some [(10100, [⟨22, 5, 10100, Side.Buy⟩])] ∧
    (runMessages stodCents Engine.empty
      ["0,20,1,3,100.00".toList, "0,21,1,2,101.00".toList, "0,22,0,10,101.00".toList]).map
        (fun r => r.engine.m_orderMap 22) = some (some ⟨22, 5, 10100, Side.Buy⟩) :=
  ⟨by decide, by decide, scenario_S3_end_to_end stodCents (by decide) (by decide)⟩

/-! ## Claims about the validator -/

/-- C14 (side validation), evaluated on the code: `processTokens` tests the side token against
the literal 0 only and takes every other token as Sell. An add message whose tag, order id,
quantity and price pass is accepted whatever its side token is; the generator's intentionally
invalid message `0,1000001,2,10,1000.00` is accepted as a Sell order (`sz = 5`, no diagnostic),
and `processMessage` lets it rest on the sell side. -/
theorem side_token_other_than_zero_is_sell :
    (∀ (stod : Text → Conversion Double) (tokens : List Text) (msg_type sz : Int) (id q : Nat)
      (p : Double),
      stoi (tokens.getD 0 []) = Conversion.ok 0 → tokens.length = 5 →
      stoull (tokens.getD 1 []) = Conversion.ok id → (tokens.getD 3 []).head? ≠ some '-' →
      stoull (tokens.getD 3 []) = Conversion.ok q → stod (tokens.getD 4 []) = Conversion.ok p →
      q ≠ 0 → p.leZero = false → tokens.getD 2 [] ≠ ['0'] →
      processTokens stod tokens msg_type sz =
        { order :=
            { order_id := some id, quantity := some q, price := some p, side := some Side.Sell }
          msg_type := 0, sz := 5, err := [] }) ∧
    (messageToToken "0,1000001,2,10,1000.00".toList []).2.1 =
      ["0".toList, "1000001".toList, "2".toList, "10".toList, "1000.00".toList] ∧
    processTokens stodCents
        ["0".toList, "1000001".toList, "2".toList, "10".toList, "1000.00".toList] (-1) (-1) =
      { order :=
          { order_id := some 1000001, quantity := some 10, price := some (Double.num 100000),
            side := some Side.Sell }
        msg_type := 0, sz := 5, err := [] } ∧
    (processMessage stodCents Engine.empty "0,1000001,2,10,1000.00".toList).map
        (fun r => (r.engine.m_sellOrderBook, r.err)) =
      some ([(100000, [⟨1000001, 10, 100000, Side.Sell⟩])], []) := by
  refine ⟨?_, by decide, by decide, by decide⟩
  intro stod tokens msg_type sz id q p htag hlen hid hneg hq hp hq0 hp0 hside
  rw [processTokens_add_accepts stod tokens msg_type sz htag hlen hid hneg hq hp hq0 hp0,
    if_neg hside]

/-- C15, as stated, fails on the cancel message `1,12abc`: the order id token contains
characters that are not decimal digits, yet `processTokens` accepts the message (`sz = 2`, no
diagnostic) with order id 12. The same holds for the token ` 12` with a leading blank. -/
theorem order_id_validation_counterexample :
    (∃ c ∈ "12abc".toList, c.isDigit = false) ∧
    processTokens stodCents ["1".toList, "12abc".toList] (-1) (-1) =
      { order := { order_id := some 12, quantity := none, price := none, side := none }
        msg_type := 1, sz := 2, err := [] } ∧
    processTokens stodCents ["1".toList, " 12".toList] (-1) (-1) =
      { order := { order_id := some 12, quantity := none, price := none, side := none }
        msg_type := 1, sz := 2, err := [] } :=
  ⟨⟨'a', by decide, by decide⟩, by decide, by decide⟩

/-- C15 (amended, order-id validation): `processTokens` reads the order id token with
`std::stoull`, which skips leading white space, accepts a sign, converts the leading run of
decimal digits and ignores what follows. For every token list: if that run is empty or its
value does not fit in 64 bits, the message is rejected (one diagnostic, `sz` and the order
untouched); an order id is assigned only if the run is non-empty and fits, and without a minus
sign the order carries exactly the base-10 value of the run; a token of decimal digits only is
its own run, so the order then carries exactly the base-10 value of the token; and a cancel
message (tag 1, two tokens) whose run is non-empty and fits is accepted. -/
theorem order_id_validation_amended (stod : Text → Conversion Double) (tokens : List Text)
    (msg_type sz : Int) :
    (((subjectSequence (tokens.getD 1 [])).2 = [] ∨
        UINT64_MOD ≤ digitsValue (subjectSequence (tokens.getD 1 [])).2) →
      (processTokens stod tokens msg_type sz).order = ParsedOrder.unassigned ∧
      (processTokens stod tokens msg_type sz).sz = sz ∧
      (processTokens stod tokens msg_type sz).err.length = 1) ∧
    (∀ id, (processTokens stod tokens msg_type sz).order.order_id = some id →
      (subjectSequence (tokens.getD 1 [])).2 ≠ [] ∧
      digitsValue (subjectSequence (tokens.getD 1 [])).2 < UINT64_MOD ∧
      id < UINT64_MOD ∧
      ((subjectSequence (tokens.getD 1 [])).1 = false →
        id = digitsValue (subjectSequence (tokens.getD 1 [])).2)) ∧
    (tokens.getD 1 [] ≠ [] → (∀ c ∈ tokens.getD 1 [], c.isDigit = true) →
      ∀ id, (processTokens stod tokens msg_type sz).order.order_id = some id →
        id = digitsValue (tokens.getD 1 [])) ∧
    (stoi (tokens.getD 0 []) = Conversion.ok 1 → tokens.length = 2 →
      (subjectSequence (tokens.getD 1 [])).2 ≠ [] →
      digitsValue (subjectSequence (tokens.getD 1 [])).2 < UINT64_MOD →
      ∃ id, (processTokens stod tokens msg_type sz).order.order_id = some id ∧
        (processTokens stod tokens msg_type sz).sz = 2 ∧
        (processTokens stod tokens msg_type sz).err = []) := by
  have hassigned : ∀ id, (processTokens stod tokens msg_type sz).order.order_id = some id →
      stoull (tokens.getD 1 []) = Conversion.ok id := by
    intro id hid
    rcases processTokens_cases stod tokens msg_type sz with
      ⟨-, -, id2, q, p, h1, -, -, -, -, -, heq⟩ | ⟨-, -, id2, h1, heq⟩ | ⟨hun, -⟩
    · rw [heq] at hid
      simp only [Option.some.injEq] at hid
      rw [← hid]; exact h1
    · rw [heq] at hid
      simp only [Option.some.injEq] at hid
      rw [← hid]; exact h1
    · rw [hun] at hid
      simp [ParsedOrder.unassigned] at hid
  refine ⟨?_, ?_, ?_, ?_⟩
  · intro hbad
    have herr := stoull_error hbad
    rcases processTokens_cases stod tokens msg_type sz with
      ⟨-, -, id2, q, p, h1, -⟩ | ⟨-, -, id2, h1, -⟩ | ⟨hun, hsz, herrlen, -⟩
    · rw [herr] at h1
      exact absurd h1 (by simp)
    · rw [herr] at h1
      exact absurd h1 (by simp)
    · exact ⟨hun, hsz, herrlen⟩
  · intro id hid
    exact stoull_ok (hassigned id hid)
  · intro hne hdigits id hid
    have hsub := subjectSequence_digits hne hdigits
    have := (stoull_ok (hassigned id hid)).2.2.2
    rw [hsub] at this
    exact this rfl
  · intro htag hlen hne hfit
    have hok : ∃ id, stoull (tokens.getD 1 []) = Conversion.ok id := by
      unfold stoull
      rw [if_neg hne, if_neg (Nat.not_le.mpr hfit)]
      split <;> exact ⟨_, rfl⟩
    obtain ⟨id, hid⟩ := hok
    rw [processTokens_cancel_accepts stod tokens msg_type sz htag hlen hid]
    exact ⟨id, rfl, rfl, rfl⟩

/-- Witness of the amended C15: the generator's invalid message `0,abc,0,10,1000.00` has no
digit in its order id token and is rejected; the cancel message `1,40` carries the value 40. -/
theorem order_id_validation_amended_witness :
    (subjectSequence "abc".toList).2 = [] ∧
    (processTokens stodCents
      ["0".toList, "abc".toList, "0".toList, "10".toList, "1000.00".toList] (-1) (-1)).sz
      = -1 ∧
    (processTokens stodCents ["1".toList, "40".toList] (-1) (-1)).order.order_id = some 40 ∧
    (40 : Nat) = digitsValue "40".toList :=
  ⟨by decide,
    ((order_id_validation_amended stodCents
      ["0".toList, "abc".toList, "0".toList, "10".toList, "1000.00".toList] (-1) (-1)).1
      (Or.inl (by decide))).2.1,
    by decide,
    (order_id_validation_amended stodCents ["1".toList, "40".toList] (-1) (-1)).2.2.1
      (by decide) (by decide) 40 (by decide)⟩

/-- C16 (range validation), evaluated on the code: for every list of 5 tokens, a quantity token
that begins with a minus sign, a quantity that parses to 0 and a price that parses to a value that
is `<= 0` each lead to a rejection, and an accepted add has a quantity greater than 0 and a
price for which `price <= 0` is false. That test is also false for NaN: the message
`0,1,0,5,nan` is accepted (`sz = 5`, no diagnostic) with a NaN price, which is not greater
than 0. The generator's messages with quantity `-5` and with price `-1000.00` are rejected. -/
theorem range_validation_misses_nan :
    (∀ (stod : Text → Conversion Double) (tokens : List Text) (msg_type sz : Int),
      tokens.length = 5 →
      ((tokens.getD 3 []).head? = some '-' ∨ stoull (tokens.getD 3 []) = Conversion.ok 0 ∨
        ∃ p, stod (tokens.getD 4 []) = Conversion.ok p ∧ p.leZero = true) →
      (processTokens stod tokens msg_type sz).order = ParsedOrder.unassigned ∧
      (processTokens stod tokens msg_type sz).sz = sz ∧
      (processTokens stod tokens msg_type sz).err.length = 1) ∧
    (∀ (stod : Text → Conversion Double) (tokens : List Text) (msg_type sz : Int) (q : Nat)
      (p : Double),
      (processTokens stod tokens msg_type sz).order.quantity = some q →
      (processTokens stod tokens msg_type sz).order.price = some p →
      0 < q ∧ p.leZero = false) ∧
    processTokens stodCents
        ["0".toList, "1".toList, "0".toList, "5".toList, "nan".toList] (-1) (-1) =
      { order :=
          { order_id := some 1, quantity := some 5, price := some Double.nan,
            side := some Side.Buy }
        msg_type := 0, sz := 5, err := [] } ∧
    Double.leZero Double.nan = false ∧ Double.gtZero Double.nan = false ∧
    (processTokens stodCents
      ["0".toList, "7".toList, "0".toList, "-5".toList, "1000.00".toList] (-1) (-1)).sz = -1 ∧
    (processTokens stodCents
      ["0".toList, "7".toList, "0".toList, "5".toList, "-1000.00".toList] (-1) (-1)).sz
      = -1 := by
  refine ⟨?_, ?_, by decide, rfl, rfl, by decide, by decide⟩
  · intro stod tokens msg_type sz hlen5 hbad
    rcases processTokens_cases stod tokens msg_type sz with
      ⟨-, -, id, q, p, -, hneg, hq, hp, hq0, hp0, -⟩ | ⟨-, hlen, id, -, heq⟩ |
      ⟨hun, hsz, herrlen, -⟩
    · rcases hbad with h | h | ⟨p2, h1, h2⟩
      · exact absurd h hneg
      · rw [hq] at h
        exact absurd (Conversion.ok.inj h) hq0
      · rw [hp] at h1
        rw [← Conversion.ok.inj h1, hp0] at h2
        exact absurd h2 (by simp)
    · rw [hlen5] at hlen
      exact absurd hlen (by decide)
    · exact ⟨hun, hsz, herrlen⟩
  · intro stod tokens msg_type sz q p hq hp
    rcases processTokens_cases stod tokens msg_type sz with
      ⟨-, -, id, q2, p2, -, -, -, -, hq0, hp0, heq⟩ | ⟨-, -, id, -, heq⟩ | ⟨hun, -⟩
    · rw [heq] at hq hp
      simp only [Option.some.injEq] at hq hp
      subst hq hp
      exact ⟨Nat.pos_of_ne_zero hq0, hp0⟩
    · rw [heq] at hq
      simp at hq
    · rw [hun] at hq
      simp [ParsedOrder.unassigned] at hq

/-- C17 (tag and arity validation): for every non-empty token list, called with `sz` not
positive, `processTokens` yields an add (`msg_type = 0` and `sz > 0` afterwards) only when the
leading tag parses to 0 and there are exactly 5 tokens, and a cancel (`msg_type = 1` and
`sz > 0`) only when the leading tag parses to 1 and there are exactly 2 tokens; `sz` is then the
token count. For any other leading tag or token count it logs exactly one diagnostic, assigns
no field of the order and leaves `sz` unchanged. -/
theorem tag_and_arity_validation (stod : Text → Conversion Double) (tokens : List Text)
    (msg_type sz : Int) (hne : tokens ≠ []) (hsz : sz ≤ 0) :
    ((processTokens stod tokens msg_type sz).msg_type = 0 ∧
        0 < (processTokens stod tokens msg_type sz).sz →
      stoi (tokens.getD 0 []) = Conversion.ok 0 ∧ tokens.length = 5 ∧
      (processTokens stod tokens msg_type sz).sz = 5) ∧
    ((processTokens stod tokens msg_type sz).msg_type = 1 ∧
        0 < (processTokens stod tokens msg_type sz).sz →
      stoi (tokens.getD 0 []) = Conversion.ok 1 ∧ tokens.length = 2 ∧
      (processTokens stod tokens msg_type sz).sz = 2) ∧
    (0 < (processTokens stod tokens msg_type sz).sz →
      (processTokens stod tokens msg_type sz).msg_type = 0 ∨
      (processTokens stod tokens msg_type sz).msg_type = 1) ∧
    (¬ (stoi (tokens.getD 0 []) = Conversion.ok 0 ∧ tokens.length = 5) →
      ¬ (stoi (tokens.getD 0 []) = Conversion.ok 1 ∧ tokens.length = 2) →
      (processTokens stod tokens msg_type sz).err.length = 1 ∧
      (processTokens stod tokens msg_type sz).order = ParsedOrder.unassigned ∧
      (processTokens stod tokens msg_type sz).sz = sz) := by
  have _ := hne
  rcases processTokens_cases stod tokens msg_type sz with
    ⟨htag, hlen, id, q, p, -, -, -, -, -, -, heq⟩ | ⟨htag, hlen, id, -, heq⟩ |
    ⟨hun, hsz2, herrlen, -⟩
  · rw [heq]
    refine ⟨fun _ => ⟨htag, hlen, rfl⟩, fun h => absurd h.1 (by simp), fun _ => Or.inl rfl,
      fun h => absurd ⟨htag, hlen⟩ h⟩
  · rw [heq]
    refine ⟨fun h => absurd h.1 (by simp), fun _ => ⟨htag, hlen, rfl⟩, fun _ => Or.inr rfl,
      fun _ h => absurd ⟨htag, hlen⟩ h⟩
  · refine ⟨fun h => ?_, fun h => ?_, fun h => ?_, fun _ _ => ⟨herrlen, hun, hsz2⟩⟩
    · rw [hsz2] at h
      omega
    · rw [hsz2] at h
      omega
    · rw [hsz2] at h
      omega

/-- Witness of C17: the cancel message `1,40` is yielded as a cancel, and the three-token list
`1,40,7` is rejected with one diagnostic. -/
theorem tag_and_arity_validation_witness :
    ["1".toList, "40".toList] ≠ [] ∧ (-1 : Int) ≤ 0 ∧
    (processTokens stodCents ["1".toList, "40".toList] (-1) (-1)).msg_type = 1 ∧
    (processTokens stodCents ["1".toList, "40".toList] (-1) (-1)).sz = 2 ∧
    stoi "1".toList = Conversion.ok 1 ∧
    (processTokens stodCents ["1".toList, "40".toList, "7".toList] (-1) (-1)).err.length = 1 ∧
    (processTokens stodCents ["1".toList, "40".toList, "7".toList] (-1) (-1)).sz = -1 :=
  ⟨by decide, by decide, by decide, by decide,
    ((tag_and_arity_validation stodCents ["1".toList, "40".toList] (-1) (-1) (by decide)
      (by decide)).2.1 ⟨by decide, by decide⟩).1,
    ((tag_and_arity_validation stodCents ["1".toList, "40".toList, "7".toList] (-1) (-1)
      (by decide) (by decide)).2.2.2 (fun h => absurd h.2 (by decide))
      (fun h => absurd h.2 (by decide))).1,
    ((tag_and_arity_validation stodCents ["1".toList, "40".toList, "7".toList] (-1) (-1)
      (by decide) (by decide)).2.2.2 (fun h => absurd h.2 (by decide))
      (fun h => absurd h.2 (by decide))).2.2⟩

/-! ## Claims about the tokenizer -/

/-- C18, as stated, fails on the message `1,5,`: it has three comma-separated fields, the last
one empty, but `messageToToken` produces the two tokens `1` and `5` only, and joining them with
a comma gives `1,5`, not the message. -/
theorem tokenizer_round_trip_counterexample :
    commaSeparatedFields "1,5,".toList = ["1".toList, "5".toList, []] ∧
    messageToToken "1,5,".toList [] = (true, ["1".toList, "5".toList], []) ∧
    joinComma (messageToToken "1,5,".toList []).2.1 = "1,5".toList ∧
    joinComma (messageToToken "1,5,".toList []).2.1 ≠ "1,5,".toList :=
  ⟨by decide, by decide, by decide, by decide⟩

/-- C18 (amended, tokenizer): for every message, `messageToToken` called with an empty token
list produces the comma-separated fields of the message in order, untrimmed, except that an
empty field at the very end (behind a final comma, or of the empty message) is not produced; no
token contains a comma; joining the tokens with commas reproduces the message exactly when the
message does not end with a comma, and reproduces it without its final comma when it does; the
call returns false exactly when the message is empty, with no token and one diagnostic. -/
theorem tokenizer_fields_amended (message : Text) :
    commaSeparatedFields message =
      (messageToToken message []).2.1 ++
        (if message = [] ∨ message.getLast? = some ',' then [[]] else []) ∧
    (∀ t ∈ (messageToToken message []).2.1, ',' ∉ t) ∧
    (message.getLast? ≠ some ',' → joinComma (messageToToken message []).2.1 = message) ∧
    (message.getLast? = some ',' →
      joinComma (messageToToken message []).2.1 ++ [','] = message) ∧
    ((messageToToken message []).1 = false ↔ message = []) ∧
    (message = [] → (messageToToken message []).2.1 = [] ∧
      (messageToToken message []).2.2 = [Diagnostic.unknownMessage message]) ∧
    (message ≠ [] → (messageToToken message []).2.2 = []) := by
  have htok : (messageToToken message []).2.1 = getlineFields message := by
    rw [messageToToken_tokens]; rfl
  have hflag : (messageToToken message []).1 = !(getlineFields message).isEmpty := by
    rw [messageToToken_flag]; rfl
  have hiff : (messageToToken message []).1 = false ↔ message = [] := by
    rw [hflag, ← getlineFields_eq_nil]
    cases getlineFields message <;> simp
  refine ⟨?_, ?_, ?_, ?_, hiff, ?_, ?_⟩
  · rw [htok]; exact commaSeparatedFields_eq message
  · rw [htok]; exact getlineFields_no_comma message
  · rw [htok]; exact (joinComma_getlineFields message).1
  · rw [htok]; exact (joinComma_getlineFields message).2
  · intro h
    refine ⟨by rw [htok, h]; rfl, ?_⟩
    have hf := hiff.mpr h
    unfold messageToToken at hf ⊢
    split
    · rename_i h2
      rw [if_pos h2] at hf
      exact absurd hf (by simp)
    · rfl
  · intro h
    have hf : (messageToToken message []).1 ≠ false := fun hx => h (hiff.mp hx)
    unfold messageToToken at hf ⊢
    split
    · rfl
    · rename_i h2
      rw [if_neg h2] at hf
      exact absurd rfl hf

/-- Witness of the amended C18: the add message of scenario S2 has no final comma and is
reproduced by joining its five tokens. -/
theorem tokenizer_fields_amended_witness :
    "0,10,1,5,100.00".toList.getLast? ≠ some ',' ∧
    (messageToToken "0,10,1,5,100.00".toList []).2.1 =
      ["0".toList, "10".toList, "1".toList, "5".toList, "100.00".toList] ∧
    joinComma (messageToToken "0,10,1,5,100.00".toList []).2.1 = "0,10,1,5,100.00".toList :=
  ⟨by decide, by decide,
    (tokenizer_fields_amended "0,10,1,5,100.00".toList).2.2.1 (by decide)⟩

/-! ## Claims about the event text -/

/-- C19, as stated, fails for quantity 5 and price 100.00: `emitTradeEvent` streams the price
with the default format, so the line is `2,5,100`, not `2,5,100.00`. -/
theorem trade_event_text_counterexample :
    tradeEventLine 5 10000 = some "2,5,100".toList ∧
    tradeEventLine 5 10000 ≠ some "2,5,100.00".toList ∧
    fixedTwoText 10000 = "100.00".toList :=
  ⟨by decide, by decide, by decide⟩

/-- C19 (amended, trade event text): for every trade quantity `q` and every price `p` from 0 up
to, but excluding, 10000.00 with at most two fractional digits, the line `emitTradeEvent` hands
to the out channel is `2,`, the decimal digits of `q`, a comma and `p` in the default stream
format: the integer digits of `p`, followed by nothing if `p` is integral, by the point and one
digit if only the second fractional digit is 0, and by the point and both fractional digits
otherwise. The line has the fixed two-digit form of the specification exactly when the second
fractional digit of `p` is not 0. -/
theorem trade_event_text_amended (q : Nat) (p : Int) (h0 : 0 ≤ p) (hp : p < 1000000) :
    tradeEventLine q p =
      some ("2,".toList ++ natText q ++ [','] ++ natText (p.toNat / 100) ++
        (if p.toNat % 100 = 0 then []
        else if p.toNat % 10 = 0 then ['.', Nat.digitChar (p.toNat % 100 / 10)]
        else ['.', Nat.digitChar (p.toNat % 100 / 10), Nat.digitChar (p.toNat % 10)])) ∧
    (tradeEventLine q p = some ("2,".toList ++ natText q ++ [','] ++ fixedTwoText p) ↔
      p.toNat % 10 ≠ 0) := by
  obtain ⟨n, rfl⟩ := Int.eq_ofNat_of_zero_le h0
  have hn : n < 1000000 := by omega
  have hneg : ¬ ((n : Int) < 0) := by omega
  have hmod : n % 100 % 10 = n % 10 := by omega
  have hline : tradeEventLine q (n : Int) =
      some ("2,".toList ++ natText q ++ [','] ++ (natText (n / 100) ++
        (if n % 100 = 0 then []
        else if n % 10 = 0 then ['.', Nat.digitChar (n % 100 / 10)]
        else ['.', Nat.digitChar (n % 100 / 10), Nat.digitChar (n % 10)]))) := by
    unfold tradeEventLine defaultDoubleText
    simp only [Int.natAbs_ofNat, hn, if_true, hneg, if_false, List.nil_append]
    rw [fractionText_cases (n % 100) (Nat.mod_lt _ (by decide)), hmod]
  have hfixed : fixedTwoText (n : Int) =
      natText (n / 100) ++ ['.', Nat.digitChar (n % 100 / 10), Nat.digitChar (n % 10)] := by
    unfold fixedTwoText
    simp only [Int.natAbs_ofNat, hneg, if_false, List.nil_append, hmod]
  simp only [Int.toNat_ofNat]
  refine ⟨by rw [hline]; simp, ?_⟩
  rw [hline, hfixed]
  simp only [Option.some.injEq, List.append_cancel_left_eq]
  by_cases h100 : n % 100 = 0
  · have h10 : n % 10 = 0 := by omega
    simp [h100, h10]
  · by_cases h10 : n % 10 = 0
    · simp [h100, h10]
    · simp [h100, h10]

/-- Witness of the amended C19: the price 100.25 is written with both fractional digits. -/
theorem trade_event_text_amended_witness :
    (0 : Int) ≤ 10025 ∧ (10025 : Int) < 1000000 ∧
    tradeEventLine 5 10025 = some "2,5,100.25".toList ∧
    (tradeEventLine 5 10025 = some ("2,".toList ++ natText 5 ++ [','] ++ fixedTwoText 10025) ↔
      (10025 : Int).toNat % 10 ≠ 0) :=
  ⟨by decide, by decide, by decide,
    (trade_event_text_amended 5 10025 (by decide) (by decide)).2⟩

/-! ## Claims about the SPSC queue -/

/-- C20 (the SPSC queue is a bounded FIFO): in the sequential model, for every capacity
`N ≥ 1` and every sequence of `push` and `pop` calls on a fresh queue, each call returns what
the same call returns on the list model that starts empty, appends on `push` unless it is full
and takes the oldest element on `pop` unless it is empty (then `out` stays as it was); the
queue ends holding exactly the final list, `size()` is the length of that list, the list never
holds more than `N - 1` elements, `push` is refused, that is `(head + 1) mod N == tail`, exactly
when the list holds `N - 1` elements, and `pop` is refused, that is `tail == head`, exactly when
the list is empty. -/
theorem spsc_queue_is_bounded_fifo {T : Type} [Inhabited T] (N : Nat) (hN : 1 ≤ N)
    (calls : List (QueueCall T)) :
    ((SPSCQueue.init T).run N calls).1 = (boundedFifoRun N [] calls).1 ∧
    ((SPSCQueue.init T).run N calls).2.contents N = (boundedFifoRun N [] calls).2 ∧
    ((SPSCQueue.init T).run N calls).2.size N = (boundedFifoRun N [] calls).2.length ∧
    (boundedFifoRun N ([] : List T) calls).2.length ≤ N - 1 ∧
    ((((SPSCQueue.init T).run N calls).2.head_ + 1) % N =
        ((SPSCQueue.init T).run N calls).2.tail_ ↔
      (boundedFifoRun N ([] : List T) calls).2.length = N - 1) ∧
    (((SPSCQueue.init T).run N calls).2.tail_ = ((SPSCQueue.init T).run N calls).2.head_ ↔
      (boundedFifoRun N ([] : List T) calls).2 = []) := by
  have hinit : QueueInv N (SPSCQueue.init T) := ⟨hN, hN⟩
  have hcont : (SPSCQueue.init T).contents N = [] := rfl
  obtain ⟨h1, h2, h3⟩ := queue_run_refines N calls (SPSCQueue.init T) hinit
  rw [hcont] at h1 h2
  have hlen := contents_length N ((SPSCQueue.init T).run N calls).2
  rw [h2] at hlen
  have hlt := queue_size_lt h3
  refine ⟨h1, h2, hlen.symm, by omega, ?_, ?_⟩
  · rw [queue_full_iff h3, hlen]
    omega
  · rw [queue_empty_iff h3, ← hlen]
    exact List.length_eq_zero

/-- Witness of C20 with capacity 3: two pushes succeed, the third is refused, the elements
come back in push order and the third `pop` leaves `out` as it was. -/
theorem spsc_queue_is_bounded_fifo_witness :
    1 ≤ 3 ∧
    ((SPSCQueue.init Nat).run 3
      [QueueCall.push 11, QueueCall.push 12, QueueCall.push 13, QueueCall.pop 0,
        QueueCall.pop 0, QueueCall.pop 7]).1 =
      [QueueReturn.push true, QueueReturn.push true, QueueReturn.push false,
        QueueReturn.pop true 11, QueueReturn.pop true 12, QueueReturn.pop false 7] ∧
    ((SPSCQueue.init Nat).run 3
      [QueueCall.push 11, QueueCall.push 12, QueueCall.push 13, QueueCall.pop 0,
        QueueCall.pop 0, QueueCall.pop 7]).1 =
      (boundedFifoRun 3 []
        [QueueCall.push 11, QueueCall.push 12, QueueCall.push 13, QueueCall.pop 0,
          QueueCall.pop 0, QueueCall.pop 7]).1 :=
  ⟨by decide, by decide,
    (spsc_queue_is_bounded_fifo 3 (by decide)
      [QueueCall.push 11, QueueCall.push 12, QueueCall.push 13, QueueCall.pop 0,
        QueueCall.pop 0, QueueCall.pop 7]).1⟩

/-! ## Claims about the logger and the timed waits -/

/-- C21, as stated, fails on the enabled logger `fullLogger`, whose queue holds the 999 messages
of 999 calls of `log_out`: a further `log_out` of the message `y` leaves the logger as it was, so
`y` is not placed on the queue, and when the worker has drained the queue the out sink holds the
999 earlier lines and `y` has been written to no sink. -/
theorem enabled_logger_counterexample :
    fullLogger.enabled_ = true ∧
    fullLogger.queue_.size LOGGER_CAPACITY = 999 ∧
    fullLogger.log_out "y".toList = fullLogger ∧
    ("OUT: ".toList ++ "y".toList) ∉
      (fullLogger.log_out "y".toList).queue_.contents LOGGER_CAPACITY ∧
    ∃ l1, (fullLogger.log_out "y".toList).drain 1000 = some l1 ∧
      l1.queue_.contents LOGGER_CAPACITY = [] ∧
      l1.out_stream_ = List.replicate 999 "x".toList ∧ l1.err_stream_ = [] ∧
      "y".toList ∉ l1.out_stream_ ∧ "y".toList ∉ l1.err_stream_ := by
  obtain ⟨h1, h2, h3, h4, h5, h6⟩ := log_out_repeat "x".toList 999 (by decide)
  have hinv : QueueInv LOGGER_CAPACITY fullLogger.queue_ := by
    unfold QueueInv fullLogger
    rw [h1, h2]
    decide
  have hfull : (fullLogger.queue_.head_ + 1) % LOGGER_CAPACITY = fullLogger.queue_.tail_ := by
    unfold fullLogger
    rw [h1, h2]
    decide
  have hdrop := (log_drops_when_full fullLogger h3 hfull "y".toList).1
  have hsize : fullLogger.queue_.size LOGGER_CAPACITY = 999 := by
    unfold SPSCQueue.size fullLogger
    rw [h1, h2]
    decide
  have hcontents : fullLogger.queue_.contents LOGGER_CAPACITY =
      List.replicate 999 ("OUT: ".toList ++ "x".toList) := h6
  have hlen : ∀ e ∈ List.replicate 999 ("OUT: ".toList ++ "x".toList), 5 ≤ e.length := by
    intro e he
    rw [(List.mem_replicate.mp he).2]
    decide
  obtain ⟨l1, g1, -, g3, g4, g5, -, -⟩ :=
    drain_spec _ fullLogger hinv hcontents hlen 1000
      (by rw [List.length_replicate]; decide)
  have hout : l1.out_stream_ = List.replicate 999 "x".toList := by
    rw [g4, (lines_of_replicate_out "x".toList 999).1]
    exact (congrArg (fun s => s ++ List.replicate 999 "x".toList) h4).trans rfl
  have herr : l1.err_stream_ = [] := by
    rw [g5, (lines_of_replicate_out "x".toList 999).2]
    exact (congrArg (fun s => s ++ ([] : List Text)) h5).trans rfl
  refine ⟨h3, hsize, hdrop, ?_, l1, ?_, g3, hout, herr, ?_, ?_⟩
  · rw [hdrop, hcontents]
    intro hmem
    exact absurd (List.mem_replicate.mp hmem).2 (by decide)
  · rw [hdrop]
    exact g1
  · rw [hout]
    intro hmem
    exact absurd (List.mem_replicate.mp hmem).2 (by decide)
  · rw [herr]
    exact List.not_mem_nil _

/-- C21 (amended, enabled logger with a free slot): in the sequential model, for every logger
state with `enabled_ = true` whose queue has a free slot, `log_out(m)` puts `m`, tagged for the
out channel, at the back of the queue and `log_err(m)` puts it there tagged for the err channel,
leaving the sinks as they are; once the worker has drained the queue, which it does within one
iteration per queued message plus one, `m` has been written as one line, unchanged, to the sink
of its channel, behind the lines of the messages queued before it, and to no other sink. When the
queue is full, `log_out(m)` and `log_err(m)` leave the logger as it was. -/
theorem enabled_logger_amended (l : Logger) (m : Text) (henabled : l.enabled_ = true)
    (hinv : QueueInv LOGGER_CAPACITY l.queue_)
    (hpending : ∀ e ∈ l.queue_.contents LOGGER_CAPACITY, 5 ≤ e.length) :
    ((l.queue_.head_ + 1) % LOGGER_CAPACITY ≠ l.queue_.tail_ →
      ((l.log_out m).queue_.contents LOGGER_CAPACITY =
          l.queue_.contents LOGGER_CAPACITY ++ ["OUT: ".toList ++ m] ∧
        (l.log_out m).out_stream_ = l.out_stream_ ∧
        (l.log_out m).err_stream_ = l.err_stream_ ∧
        ∀ fuel, l.queue_.size LOGGER_CAPACITY + 1 < fuel →
          ∃ l1, (l.log_out m).drain fuel = some l1 ∧
            l1.queue_.contents LOGGER_CAPACITY = [] ∧
            l1.out_stream_ =
              l.out_stream_ ++ outLinesOf (l.queue_.contents LOGGER_CAPACITY) ++ [m] ∧
            l1.err_stream_ =
              l.err_stream_ ++ errLinesOf (l.queue_.contents LOGGER_CAPACITY)) ∧
      ((l.log_err m).queue_.contents LOGGER_CAPACITY =
          l.queue_.contents LOGGER_CAPACITY ++ ["ERR: ".toList ++ m] ∧
        (l.log_err m).out_stream_ = l.out_stream_ ∧
        (l.log_err m).err_stream_ = l.err_stream_ ∧
        ∀ fuel, l.queue_.size LOGGER_CAPACITY + 1 < fuel →
          ∃ l1, (l.log_err m).drain fuel = some l1 ∧
            l1.queue_.contents LOGGER_CAPACITY = [] ∧
            l1.out_stream_ =
              l.out_stream_ ++ outLinesOf (l.queue_.contents LOGGER_CAPACITY) ∧
            l1.err_stream_ =
              l.err_stream_ ++ errLinesOf (l.queue_.contents LOGGER_CAPACITY) ++ [m])) ∧
    ((l.queue_.head_ + 1) % LOGGER_CAPACITY = l.queue_.tail_ →
      l.log_out m = l ∧ l.log_err m = l) := by
  refine ⟨fun hfree => ?_, fun hfull => log_drops_when_full l henabled hfull m⟩
  obtain ⟨⟨a1, a2, a3, a4, -, -, -, -⟩, ⟨b1, b2, b3, b4, -, -, -, -⟩⟩ :=
    log_enqueues l hinv henabled hfree m
  have hsize := contents_length LOGGER_CAPACITY l.queue_
  constructor
  · refine ⟨a2, a3, a4, ?_⟩
    intro fuel hfuel
    have hlen : ∀ e ∈ l.queue_.contents LOGGER_CAPACITY ++ ["OUT: ".toList ++ m],
        5 ≤ e.length := by
      intro e he
      rcases List.mem_append.mp he with h | h
      · exact hpending e h
      · rw [List.mem_singleton.mp h]
        simp
    obtain ⟨l1, g1, -, g3, g4, g5, -, -⟩ := drain_spec _ (l.log_out m) a1 a2 hlen fuel
      (by simp only [List.length_append, List.length_singleton]; omega)
    refine ⟨l1, g1, g3, ?_, ?_⟩
    · rw [g4, a3, outLinesOf_append, (lines_of_out m).1, List.append_assoc]
    · rw [g5, a4, errLinesOf_append, (lines_of_out m).2, List.append_nil]
  · refine ⟨b2, b3, b4, ?_⟩
    intro fuel hfuel
    have hlen : ∀ e ∈ l.queue_.contents LOGGER_CAPACITY ++ ["ERR: ".toList ++ m],
        5 ≤ e.length := by
      intro e he
      rcases List.mem_append.mp he with h | h
      · exact hpending e h
      · rw [List.mem_singleton.mp h]
        simp
    obtain ⟨l1, g1, -, g3, g4, g5, -, -⟩ := drain_spec _ (l.log_err m) b1 b2 hlen fuel
      (by simp only [List.length_append, List.length_singleton]; omega)
    refine ⟨l1, g1, g3, ?_, ?_⟩
    · rw [g4, b3, outLinesOf_append, (lines_of_err m).1, List.append_nil]
    · rw [g5, b4, errLinesOf_append, (lines_of_err m).2, List.append_assoc]

/-- Witness of the amended C21: on a fresh logger the TRADE line `2,5,100` is queued with the
tag of the out channel and, after two iterations of the worker, is the only line of the out
sink. -/
theorem enabled_logger_amended_witness :
    Logger.init.enabled_ = true ∧
    (Logger.init.queue_.head_ + 1) % LOGGER_CAPACITY ≠ Logger.init.queue_.tail_ ∧
    (Logger.init.log_out "2,5,100".toList).queue_.contents LOGGER_CAPACITY =
      ["OUT: 2,5,100".toList] ∧
    ∃ l1, (Logger.init.log_out "2,5,100".toList).drain 2 = some l1 ∧
      l1.queue_.contents LOGGER_CAPACITY = [] ∧
      l1.out_stream_ =
        Logger.init.out_stream_ ++ outLinesOf (Logger.init.queue_.contents LOGGER_CAPACITY) ++
          ["2,5,100".toList] ∧
      l1.err_stream_ =
        Logger.init.err_stream_ ++ errLinesOf (Logger.init.queue_.contents LOGGER_CAPACITY) :=
  ⟨by decide, by decide, by decide,
    (((enabled_logger_amended Logger.init "2,5,100".toList (by decide)
      ⟨by decide, by decide⟩ (by decide)).1 (by decide)).1).2.2.2 2 (by decide)⟩

/-- C22 (timed waits), evaluated on the code: the deadline is tested only at the top of the loop,
before the call of `head_.wait`, which has no timeout. For every queue that is and stays empty
and every clock whose first reading in the loop lies before the deadline, `wait_pop_timeout`
stays blocked in `head_.wait` for ever, however many iterations it is given, and so does
`wait_push_timeout` on every queue that is and stays full; neither returns false at the
deadline. The calls return at once only when the deadline has passed at the first test (then
false) or when an element, or a free slot, is there (then true). On the empty token queue,
`wait_pop_timeout` with a timeout of 100 ms never returns. -/
theorem timed_wait_blocks_past_deadline :
    (∀ (T : Type) [Inhabited T] (Capacity : Nat) (q : SPSCQueue T) (value : T) (now : Nat → Nat)
      (timeout fuel : Nat), q.tail_ = q.head_ → now 1 < now 0 + timeout →
      q.wait_pop_timeout Capacity value now timeout (fuel + 1) = TimedCall.blocked) ∧
    (∀ (T : Type) (Capacity : Nat) (q : SPSCQueue T) (value : T) (now : Nat → Nat)
      (timeout fuel : Nat), (q.head_ + 1) % Capacity = q.tail_ → now 1 < now 0 + timeout →
      q.wait_push_timeout Capacity value now timeout (fuel + 1) = TimedCall.blocked) ∧
    (∀ (T : Type) [Inhabited T] (Capacity : Nat) (q : SPSCQueue T) (value : T) (now : Nat → Nat)
      (timeout fuel : Nat), q.tail_ = q.head_ → now 0 + timeout ≤ now 1 →
      q.wait_pop_timeout Capacity value now timeout (fuel + 1) =
        TimedCall.returned (false, value, q)) ∧
    (∀ (T : Type) (Capacity : Nat) (q : SPSCQueue T) (value : T) (now : Nat → Nat)
      (timeout fuel : Nat), (q.head_ + 1) % Capacity = q.tail_ → now 0 + timeout ≤ now 1 →
      q.wait_push_timeout Capacity value now timeout (fuel + 1) =
        TimedCall.returned (false, q)) ∧
    (∀ (T : Type) [Inhabited T] (Capacity : Nat) (q : SPSCQueue T) (value : T) (now : Nat → Nat)
      (timeout fuel : Nat), q.tail_ ≠ q.head_ →
      q.wait_pop_timeout Capacity value now timeout (fuel + 1) =
        TimedCall.returned ((q.pop Capacity value).1, (q.pop Capacity value).2.1,
          (q.pop Capacity value).2.2)) ∧
    (∀ (T : Type) (Capacity : Nat) (q : SPSCQueue T) (value : T) (now : Nat → Nat)
      (timeout fuel : Nat), (q.head_ + 1) % Capacity ≠ q.tail_ →
      q.wait_push_timeout Capacity value now timeout (fuel + 1) =
        TimedCall.returned ((q.push Capacity value).1, (q.push Capacity value).2)) ∧
    (∀ fuel : Nat,
      (SPSCQueue.init (List Text)).wait_pop_timeout 10000 [] tickingClock 100000 (fuel + 1) =
        TimedCall.blocked) := by
  have hpop : ∀ (T : Type) [Inhabited T] (Capacity : Nat) (q : SPSCQueue T) (value : T)
      (now : Nat → Nat) (timeout fuel : Nat), q.tail_ = q.head_ → now 1 < now 0 + timeout →
      q.wait_pop_timeout Capacity value now timeout (fuel + 1) = TimedCall.blocked := by
    intro T _ Capacity q value now timeout fuel hempty hclock
    unfold SPSCQueue.wait_pop_timeout SPSCQueue.waitPopLoop
    rw [if_pos hempty, if_neg (Nat.not_le.mpr hclock)]
    simp [atomicWaitReturns]
  refine ⟨hpop, ?_, ?_, ?_, ?_, ?_, ?_⟩
  · intro T Capacity q value now timeout fuel hfull hclock
    unfold SPSCQueue.wait_push_timeout SPSCQueue.waitPushLoop
    rw [if_pos hfull, if_neg (Nat.not_le.mpr hclock)]
    simp [atomicWaitReturns]
  · intro T _ Capacity q value now timeout fuel hempty hclock
    unfold SPSCQueue.wait_pop_timeout SPSCQueue.waitPopLoop
    rw [if_pos hempty, if_pos hclock]
  · intro T Capacity q value now timeout fuel hfull hclock
    unfold SPSCQueue.wait_push_timeout SPSCQueue.waitPushLoop
    rw [if_pos hfull, if_pos hclock]
  · intro T _ Capacity q value now timeout fuel hne
    unfold SPSCQueue.wait_pop_timeout SPSCQueue.waitPopLoop SPSCQueue.pop
    rw [if_neg hne, if_neg hne]
  · intro T Capacity q value now timeout fuel hfree
    unfold SPSCQueue.wait_push_timeout SPSCQueue.waitPushLoop SPSCQueue.push
    rw [if_neg hfree, if_neg hfree]
  · intro fuel
    exact hpop (List Text) 10000 (SPSCQueue.init (List Text)) [] tickingClock 100000 fuel rfl
      (by decide)

/-! ## Claims about termination and the pipeline -/

/-- C23 (the match loop terminates): in every loop state, also one whose opposite book holds
empty levels or zero-quantity orders, an iteration of the loop of `matchOrder` erases an empty
level, or pops a resting order, or brings the aggressive quantity to 0; the loop is therefore
left within `loopBound` iterations (levels plus orders plus one) and further iterations change
nothing, so `matchOrder` returns the state at that exit for every engine state and every
aggressive order. In every engine state, reachable or not, the number of TRADE lines logged by
one `addOrder` is at most the number of orders resting on the opposite side before the call. -/
theorem match_loop_terminates :
    (∀ st st1 : LoopState, matchStep st = some st1 →
      (st1.opposite_book.length + 1 = st.opposite_book.length ∧
        restingOrders st1.opposite_book = restingOrders st.opposite_book) ∨
      (restingOrders st1.opposite_book).length + 1 = (restingOrders st.opposite_book).length ∨
      st1.aggressive_order.quantity = 0) ∧
    (∀ st : LoopState, matchStep (matchLoop (loopBound st.opposite_book) st) = none ∧
      ∀ k, matchLoop (loopBound st.opposite_book + k) st =
        matchLoop (loopBound st.opposite_book) st) ∧
    (∀ (e : Engine) (aggressive_order : Order),
      matchStep (loopResult e aggressive_order) = none ∧
      (matchOrder e aggressive_order).1.bookOf aggressive_order.side.opposite =
        (loopResult e aggressive_order).opposite_book ∧
      (matchOrder e aggressive_order).1.bookOf aggressive_order.side =
        e.bookOf aggressive_order.side ∧
      (matchOrder e aggressive_order).1.m_orderMap = (loopResult e aggressive_order).m_orderMap ∧
      (matchOrder e aggressive_order).2.1 = (loopResult e aggressive_order).aggressive_order ∧
      (matchOrder e aggressive_order).2.2 = (loopResult e aggressive_order).out) ∧
    (∀ (e : Engine) (order_id quantity : Nat) (price : Int) (side : Side),
      tradeCount (addOrder e order_id quantity price side).out ≤
        (restingOrders (e.bookOf side.opposite)).length) := by
  refine ⟨?_, ?_, ?_, ?_⟩
  · intro st st1 h
    rcases (matchStep_progress h).2 with ⟨h1, h2, -⟩ | ⟨h1, -⟩ | ⟨h1, -⟩
    · exact Or.inl ⟨h1, h2⟩
    · exact Or.inr (Or.inl h1)
    · exact Or.inr (Or.inr h1)
  · intro st
    exact ⟨matchLoop_exit_bound st, matchLoop_stable _ st (matchLoop_exit_bound st)⟩
  · intro e a
    refine ⟨matchLoop_exit_bound (loopStart e a), ?_⟩
    obtain ⟨id, q, p, side⟩ := a
    cases side <;> exact ⟨rfl, rfl, rfl, rfl, rfl⟩
  · intro e order_id quantity price side
    have hloop : tradeCount (matchOrder e ⟨order_id, quantity, price, side⟩).2.2 ≤
        (restingOrders (e.bookOf side.opposite)).length := by
      have h := matchLoop_tradeCount (loopBound (e.bookOf side.opposite))
        (loopStart e ⟨order_id, quantity, price, side⟩)
      have hout : (matchOrder e ⟨order_id, quantity, price, side⟩).2.2 =
          (loopResult e ⟨order_id, quantity, price, side⟩).out := by
        cases side <;> rfl
      rw [hout]
      simpa [loopResult, loopStart, tradeCount] using h
    unfold addOrder
    split
    · simp [tradeCount]
    · simp only
      split <;> exact hloop

/-- Witness of C23: the first iteration of the buy of 5 at 100.00 against scenario S2 pops the
resting sell and brings the aggressive quantity to 0; in scenario S3 the buy of 10 at 101.00
logs two TRADE lines against two resting sells. -/
theorem match_loop_terminates_witness :
    matchStep (loopStart scenarioS2 ⟨11, 5, 10000, Side.Buy⟩) =
      some
        { opposite_book := []
          m_orderMap := eraseOrder scenarioS2.m_orderMap 10
          aggressive_order := ⟨11, 0, 10000, Side.Buy⟩
          out := [Event.trade 5 10000, Event.fullyFilled 11, Event.fullyFilled 10] } ∧
    ((restingOrders ([] : Book)).length + 1 =
        (restingOrders (loopStart scenarioS2 ⟨11, 5, 10000, Side.Buy⟩).opposite_book).length ∨
      (⟨11, 0, 10000, Side.Buy⟩ : Order).quantity = 0) ∧
    tradeCount (addOrder scenarioS3 22 10 10100 Side.Buy).out = 2 ∧
    (restingOrders (scenarioS3.bookOf Side.Sell)).length = 2 ∧
    tradeCount (addOrder scenarioS3 22 10 10100 Side.Buy).out ≤
      (restingOrders (scenarioS3.bookOf Side.Buy.opposite)).length :=
  ⟨rfl,
    (match_loop_terminates.1 (loopStart scenarioS2 ⟨11, 5, 10000, Side.Buy⟩)
      { opposite_book := []
        m_orderMap := eraseOrder scenarioS2.m_orderMap 10
        aggressive_order := ⟨11, 0, 10000, Side.Buy⟩
        out := [Event.trade 5 10000, Event.fullyFilled 11, Event.fullyFilled 10] } rfl).elim
      (fun h => absurd h.2 (by decide)) id,
    by decide, by decide, match_loop_terminates.2.2.2 scenarioS3 22 10 10100 Side.Buy⟩

/-- C24 (real data never looks like a poison pill): `messageToToken` returns true only with a
non-empty token list, whatever the list held before; whenever `processTokens`, called on a
non-empty token list with `sz = -1`, leaves `sz > 0`, `msg_type` is 0 with `sz = 5` tokens or 1
with `sz = 2` tokens; a call that logs a diagnostic leaves `sz` as it was; and a pair that
`ordersGenerator` forwards to `order_q` carries the op-code 0 or 1, never the shutdown op-code
`-1`. -/
theorem no_poison_pill_from_data (stod : Text → Conversion Double) :
    (∀ (message : Text) (ts : List Text),
      (messageToToken message ts).1 = true → (messageToToken message ts).2.1 ≠ []) ∧
    (∀ (tokens : List Text) (msg_type : Int), tokens ≠ [] →
      0 < (processTokens stod tokens msg_type (-1)).sz →
      ((processTokens stod tokens msg_type (-1)).msg_type = 0 ∧
        (processTokens stod tokens msg_type (-1)).sz = 5 ∧ tokens.length = 5) ∨
      ((processTokens stod tokens msg_type (-1)).msg_type = 1 ∧
        (processTokens stod tokens msg_type (-1)).sz = 2 ∧ tokens.length = 2)) ∧
    (∀ (tokens : List Text) (msg_type sz : Int), tokens ≠ [] →
      (processTokens stod tokens msg_type sz).err ≠ [] →
      (processTokens stod tokens msg_type sz).sz = sz ∧
      (processTokens stod tokens msg_type sz).order = ParsedOrder.unassigned) ∧
    (∀ (tokens : List Text) (order : ParsedOrder) (msg_type : Int) (err : List Diagnostic),
      ordersGeneratorBody stod tokens = OrdersGeneratorAction.forward order msg_type err →
      (msg_type = 0 ∨ msg_type = 1) ∧ msg_type ≠ -1 ∧ err = [] ∧ order.order_id ≠ none) := by
  have hsz : ∀ (tokens : List Text) (msg_type : Int),
      0 < (processTokens stod tokens msg_type (-1)).sz →
      (((processTokens stod tokens msg_type (-1)).msg_type = 0 ∧
          (processTokens stod tokens msg_type (-1)).sz = 5 ∧ tokens.length = 5) ∨
        ((processTokens stod tokens msg_type (-1)).msg_type = 1 ∧
          (processTokens stod tokens msg_type (-1)).sz = 2 ∧ tokens.length = 2)) ∧
      (processTokens stod tokens msg_type (-1)).err = [] ∧
      (processTokens stod tokens msg_type (-1)).order.order_id ≠ none := by
    intro tokens msg_type hpos
    rcases processTokens_cases stod tokens msg_type (-1) with
      ⟨-, hlen, id, q, p, -, -, -, -, -, -, heq⟩ | ⟨-, hlen, id, -, heq⟩ | ⟨-, hsame, -⟩
    · rw [heq]
      exact ⟨Or.inl ⟨rfl, rfl, hlen⟩, rfl, by simp⟩
    · rw [heq]
      exact ⟨Or.inr ⟨rfl, rfl, hlen⟩, rfl, by simp⟩
    · rw [hsame] at hpos
      exact absurd hpos (by decide)
  refine ⟨?_, ?_, ?_, ?_⟩
  · intro message ts h
    rw [messageToToken_flag] at h
    rw [messageToToken_tokens]
    intro hnil
    rw [hnil] at h
    exact absurd h (by decide)
  · intro tokens msg_type _ hpos
    exact (hsz tokens msg_type hpos).1
  · intro tokens msg_type sz _ herr
    rcases processTokens_cases stod tokens msg_type sz with
      ⟨-, -, id, q, p, -, -, -, -, -, -, heq⟩ | ⟨-, -, id, -, heq⟩ | ⟨hun, hsame, -⟩
    · rw [heq] at herr
      exact absurd rfl herr
    · rw [heq] at herr
      exact absurd rfl herr
    · exact ⟨hsame, hun⟩
  · intro tokens order msg_type err h
    unfold ordersGeneratorBody at h
    split at h
    · exact absurd h (by simp)
    · split at h
      · rename_i hpos
        simp only [OrdersGeneratorAction.forward.injEq] at h
        obtain ⟨ho, hm, he⟩ := h
        obtain ⟨hcase, herr, hid⟩ := hsz tokens (-1) hpos
        rw [hm] at hcase
        rw [he] at herr
        rw [ho] at hid
        have h01 : msg_type = 0 ∨ msg_type = 1 := by
          rcases hcase with ⟨h0, -⟩ | ⟨h1, -⟩
          · exact Or.inl h0
          · exact Or.inr h1
        refine ⟨h01, ?_, herr, hid⟩
        rcases h01 with h0 | h1
        · rw [h0]; decide
        · rw [h1]; decide
      · exact absurd h (by simp)

/-- Witness of C24: the add message of scenario S2 is forwarded with op-code 0, the generator's
invalid message with quantity `-5` is not forwarded, and the empty token list is the sentinel. -/
theorem no_poison_pill_from_data_witness :
    messageToToken "0,10,1,5,100.00".toList [] =
      (true, ["0".toList, "10".toList, "1".toList, "5".toList, "100.00".toList], []) ∧
    ordersGeneratorBody stodCents
        ["0".toList, "10".toList, "1".toList, "5".toList, "100.00".toList] =
      OrdersGeneratorAction.forward
        { order_id := some 10, quantity := some 5, price := some (Double.num 10000),
          side := some Side.Sell } 0 [] ∧
    ordersGeneratorBody stodCents
        ["0".toList, "7".toList, "0".toList, "-5".toList, "1000.00".toList] =
      OrdersGeneratorAction.skip [Diagnostic.negativeQuantity] ∧
    ordersGeneratorBody stodCents [] = OrdersGeneratorAction.leave ∧
    ((0 : Int) = 0 ∨ (0 : Int) = 1) ∧
    (messageToToken "0,10,1,5,100.00".toList []).2.1 ≠ [] :=
  ⟨by decide, by decide, by decide, by decide,
    ((no_poison_pill_from_data stodCents).2.2.2
      ["0".toList, "10".toList, "1".toList, "5".toList, "100.00".toList]
      { order_id := some 10, quantity := some 5, price := some (Double.num 10000),
        side := some Side.Sell } 0 [] (by decide)).1,
    (no_poison_pill_from_data stodCents).1 "0,10,1,5,100.00".toList [] (by decide)⟩

/-- C25 (the tokenizer appends to the caller's list and never clears it): for every message and
every prior content `ts` of the token list, after `messageToToken` the list is `ts` followed by
the tokens the message gives on an empty list; the call returns true exactly when the resulting
list is non-empty, and it logs its diagnostic exactly when it returns false; so with a non-empty
`ts` it returns true, also for the empty message, which leaves the list as it was. -/
theorem tokenizer_appends_without_clearing (message : Text) (ts : List Text) :
    (messageToToken message ts).2.1 = ts ++ (messageToToken message []).2.1 ∧
    ((messageToToken message ts).1 = true ↔ (messageToToken message ts).2.1 ≠ []) ∧
    ((messageToToken message ts).1 = true → (messageToToken message ts).2.2 = []) ∧
    ((messageToToken message ts).1 = false →
      (messageToToken message ts).2.2 = [Diagnostic.unknownMessage message]) ∧
    (ts ≠ [] → (messageToToken message ts).1 = true) ∧
    (ts ≠ [] → messageToToken [] ts = (true, ts, [])) := by
  have hflag : ∀ (m : Text) (l : List Text),
      ((messageToToken m l).1 = true ↔ (messageToToken m l).2.1 ≠ []) := by
    intro m l
    rw [messageToToken_flag, messageToToken_tokens]
    cases l ++ getlineFields m <;> simp
  have hts : ∀ m : Text, ts ≠ [] → (messageToToken m ts).1 = true := by
    intro m hne
    rw [hflag, messageToToken_tokens]
    intro h
    exact hne (List.append_eq_nil.mp h).1
  have hlog : ∀ (m : Text) (l : List Text),
      ((messageToToken m l).1 = true → (messageToToken m l).2.2 = []) ∧
      ((messageToToken m l).1 = false →
        (messageToToken m l).2.2 = [Diagnostic.unknownMessage m]) := by
    intro m l
    unfold messageToToken
    split <;> simp
  refine ⟨?_, hflag message ts, (hlog message ts).1, (hlog message ts).2, hts message, ?_⟩
  · rw [messageToToken_tokens, messageToToken_tokens, List.nil_append]
  · intro hne
    have h1 := hts [] hne
    have h2 : (messageToToken [] ts).2.1 = ts := by
      rw [messageToToken_tokens]
      simp [getlineFields]
    have h3 := (hlog [] ts).1 h1
    exact Prod.ext h1 (Prod.ext h2 h3)

/-- Witness of C25: a list that already holds the two tokens of `1,40` keeps them in front of
the tokens of the next message, and the empty message returns true on it. -/
theorem tokenizer_appends_without_clearing_witness :
    messageToToken "1,41".toList ["1".toList, "40".toList] =
      (true, ["1".toList, "40".toList, "1".toList, "41".toList], []) ∧
    ["1".toList, "40".toList] ≠ ([] : List Text) ∧
    (messageToToken [] ["1".toList, "40".toList]).1 = true ∧
    messageToToken [] ["1".toList, "40".toList] = (true, ["1".toList, "40".toList], []) ∧
    messageToToken [] [] = (false, [], [Diagnostic.unknownMessage []]) :=
  ⟨by decide, by decide,
    (tokenizer_appends_without_clearing [] ["1".toList, "40".toList]).2.2.2.2.1 (by decide),
    (tokenizer_appends_without_clearing [] ["1".toList, "40".toList]).2.2.2.2.2 (by decide),
    by decide⟩

end MatchingEngine
